import Mathlib

/-!
# SM3 hash engine, length-extension forgery and Merkle tree

A shallow embedding of `src/sm3_basic/sm3.c`, `src/length_extension_attack/attack.c`
and `src/merkle_tree/merkle.c`.

Conventions of the embedding.

* `unsigned char` values are natural numbers (`< 256` for well-formed data), byte arrays
  are `List Nat`.
* `uint32_t` values are natural numbers; every operation that can overflow reduces
  modulo `2^32` explicitly.  `uint64_t` and `size_t` are 64 bits wide and reduce
  modulo `2^64`.
* A shift count is an `Int`, as in the source (`int j`).  The C standard leaves a shift of a
  32-bit word by a count outside `0..31` undefined; the embedding follows the behaviour of
  the shift instructions of x86-64 and AArch64, which use the count modulo 32.
* Pointers to tree nodes are indices into a heap (`List MerkleNode`), `NULL` is `none`.
-/

namespace SM3

/-! ## Machine arithmetic -/

/-- The C expression `x << n` on a `uint32_t`: the count is taken modulo 32 and the result
is truncated to 32 bits. -/
def shl32 (x : Nat) (n : Int) : Nat := (x <<< (n % 32).toNat) % 2 ^ 32

/-- The C expression `x >> n` on a `uint32_t`: the count is taken modulo 32. -/
def shr32 (x : Nat) (n : Int) : Nat := x >>> (n % 32).toNat

/-- Addition of two `uint32_t` values. -/
def add32 (a b : Nat) : Nat := (a + b) % 2 ^ 32

/-- The C expression `~x` on a `uint32_t`. -/
def not32 (x : Nat) : Nat := 0xFFFFFFFF - x % 2 ^ 32

/-- Addition of two `uint64_t` (or `size_t`) values. -/
def add64 (a b : Nat) : Nat := (a + b) % 2 ^ 64

/-- Subtraction of two `size_t` values. -/
def sub64 (a b : Nat) : Nat := (a % 2 ^ 64 + 2 ^ 64 - b % 2 ^ 64) % 2 ^ 64

/-- Multiplication of two `uint64_t` (or `size_t`) values. -/
def mul64 (a b : Nat) : Nat := (a * b) % 2 ^ 64

/-- The macro `ROTL(x, n)`: `((x) << (n)) | ((x) >> (32 - (n)))`. -/
def ROTL (x : Nat) (n : Int) : Nat := shl32 x n ||| shr32 x (32 - n)

/-- The function `uint32_to_be`: the four bytes written to `dst[0..3]`. -/
def uint32_to_be (n : Nat) : List Nat :=
  [shr32 n 24 &&& 0xFF, shr32 n 16 &&& 0xFF, shr32 n 8 &&& 0xFF, n &&& 0xFF]

/-- The function `be_to_uint32` applied to the pointer `data + off`. -/
def be_to_uint32 (data : List Nat) (off : Nat) : Nat :=
  shl32 (data.getD off 0) 24 ||| shl32 (data.getD (off + 1) 0) 16 |||
    shl32 (data.getD (off + 2) 0) 8 ||| data.getD (off + 3) 0

def FF_00_15 (X Y Z : Nat) : Nat := X ^^^ Y ^^^ Z
def GG_00_15 (X Y Z : Nat) : Nat := X ^^^ Y ^^^ Z
def FF_16_63 (X Y Z : Nat) : Nat := (X &&& Y) ||| (X &&& Z) ||| (Y &&& Z)
def GG_16_63 (X Y Z : Nat) : Nat := (X &&& Y) ||| (not32 X &&& Z)

def P0 (X : Nat) : Nat := X ^^^ ROTL X 9 ^^^ ROTL X 17
def P1 (X : Nat) : Nat := X ^^^ ROTL X 15 ^^^ ROTL X 23

def IV : List Nat :=
  [0x7380166F, 0x4914B2B9, 0x172442D7, 0xDA8A0600,
   0xA96F30BC, 0x163138AA, 0xE38DEE4D, 0xB0FB0E4E]

/-- The round constant `T(j)`. -/
def T (j : Int) : Nat := if j < 16 then 0x79CC4519 else 0x7A879D8A

/-! ## The streaming context -/

/-- The struct `sm3_ctx_t`. -/
structure sm3_ctx_t where
  state : List Nat
  total_len : Nat
  buffer : List Nat
  buffer_len : Nat
deriving DecidableEq

/-- The working registers `A .. H` of `sm3_compress`. -/
structure Regs where
  A : Nat
  B : Nat
  C : Nat
  D : Nat
  E : Nat
  F : Nat
  G : Nat
  H : Nat
deriving DecidableEq

/-- The first loop of `sm3_compress`: `W[j] = be_to_uint32(ctx->buffer + j * 4)` for
`j = 0 .. 15`. -/
def loadW (buffer : List Nat) : List Nat :=
  (List.range 16).map (fun j => be_to_uint32 buffer (j * 4))

/-- One iteration of the second loop of `sm3_compress`, which appends `W[j]` for
`j = W.length`. -/
def expandStep (W : List Nat) : List Nat :=
  let j := W.length
  W ++ [P1 (W.getD (j - 16) 0 ^^^ W.getD (j - 9) 0 ^^^ ROTL (W.getD (j - 3) 0) 15)
          ^^^ ROTL (W.getD (j - 13) 0) 7 ^^^ W.getD (j - 6) 0]

/-- The second loop of `sm3_compress`, run for `n` iterations. -/
def expandW : Nat → List Nat → List Nat
  | 0, W => W
  | n + 1, W => expandW n (expandStep W)

/-- The third loop of `sm3_compress`: `W_prime[j] = W[j] ^ W[j + 4]` for `j = 0 .. 63`. -/
def primeW (W : List Nat) : List Nat :=
  (List.range 64).map (fun j => W.getD j 0 ^^^ W.getD (j + 4) 0)

/-- The body of the round loop of `sm3_compress` for round `j`. -/
def round (W W_prime : List Nat) (j : Nat) (r : Regs) : Regs :=
  let SS1 := ROTL (add32 (add32 (ROTL r.A 12) r.E) (ROTL (T j) j)) 7
  let SS2 := SS1 ^^^ ROTL r.A 12
  let TT1 :=
    if j < 16 then add32 (add32 (add32 (FF_00_15 r.A r.B r.C) r.D) SS2) (W_prime.getD j 0)
    else add32 (add32 (add32 (FF_16_63 r.A r.B r.C) r.D) SS2) (W_prime.getD j 0)
  let TT2 :=
    if j < 16 then add32 (add32 (add32 (GG_00_15 r.E r.F r.G) r.H) SS1) (W.getD j 0)
    else add32 (add32 (add32 (GG_16_63 r.E r.F r.G) r.H) SS1) (W.getD j 0)
  { A := TT1, B := r.A, C := ROTL r.B 9, D := r.C,
    E := P0 TT2, F := r.E, G := ROTL r.F 19, H := r.G }

/-- The round loop of `sm3_compress`: rounds `j, j + 1, ..` for `n` iterations. -/
def rounds (W W_prime : List Nat) : Nat → Nat → Regs → Regs
  | 0, _, r => r
  | n + 1, j, r => rounds W W_prime n (j + 1) (round W W_prime j r)

/-- The function `sm3_compress`. -/
def sm3_compress (ctx : sm3_ctx_t) : sm3_ctx_t :=
  let W := expandW 52 (loadW ctx.buffer)
  let W_prime := primeW W
  let s := ctx.state
  let r := rounds W W_prime 64 0
    { A := s.getD 0 0, B := s.getD 1 0, C := s.getD 2 0, D := s.getD 3 0,
      E := s.getD 4 0, F := s.getD 5 0, G := s.getD 6 0, H := s.getD 7 0 }
  { ctx with state :=
      [s.getD 0 0 ^^^ r.A, s.getD 1 0 ^^^ r.B, s.getD 2 0 ^^^ r.C, s.getD 3 0 ^^^ r.D,
       s.getD 4 0 ^^^ r.E, s.getD 5 0 ^^^ r.F, s.getD 6 0 ^^^ r.G, s.getD 7 0 ^^^ r.H] }

/-- The call `memcpy(dst + off, src, n)` (also `memset` with `src` a constant block): the
`n` bytes of `dst` from offset `off` are replaced by the first `n` bytes of `src`. -/
def memcpy (dst : List Nat) (off : Nat) (src : List Nat) (n : Nat) : List Nat :=
  dst.take off ++ src.take n ++ dst.drop (off + n)

/-- The function `sm3_init`. -/
def sm3_init (ctx : sm3_ctx_t) : sm3_ctx_t :=
  { ctx with state := IV, total_len := 0, buffer_len := 0 }

/-- The `while (remaining_len >= 64)` loop of `sm3_update`; `data` is what is left of the
input from `data_offset` on. -/
def sm3_update_loop : Nat → sm3_ctx_t → List Nat → sm3_ctx_t × List Nat
  | 0, ctx, data => (ctx, data)
  | fuel + 1, ctx, data =>
    if data.length ≥ 64 then
      sm3_update_loop fuel (sm3_compress { ctx with buffer := memcpy ctx.buffer 0 data 64 })
        (data.drop 64)
    else (ctx, data)

/-- The tail of `sm3_update`, from the `while` loop on. -/
def sm3_update_tail (ctx : sm3_ctx_t) (data : List Nat) : sm3_ctx_t :=
  let (ctx1, rest) := sm3_update_loop data.length ctx data
  let ctx2 :=
    if rest.length > 0 then { ctx1 with buffer := memcpy ctx1.buffer 0 rest rest.length }
    else ctx1
  { ctx2 with buffer_len := rest.length }

/-- The function `sm3_update`; `len` is the length of `data`. -/
def sm3_update (ctx : sm3_ctx_t) (data : List Nat) : sm3_ctx_t :=
  let ctx0 := { ctx with total_len := add64 ctx.total_len data.length }
  if ctx0.buffer_len > 0 then
    let to_fill := sub64 64 ctx0.buffer_len
    if data.length < to_fill then
      { ctx0 with
        buffer := memcpy ctx0.buffer ctx0.buffer_len data data.length
        buffer_len := add64 ctx0.buffer_len data.length }
    else
      sm3_update_tail
        (sm3_compress { ctx0 with buffer := memcpy ctx0.buffer ctx0.buffer_len data to_fill })
        (data.drop to_fill)
  else sm3_update_tail ctx0 data

/-- The last loop of `sm3_final`: `uint32_to_be(ctx->state[i], digest + i * 4)` for
`i = 0 .. 7`. -/
def digest_of (state : List Nat) : List Nat :=
  (List.range 8).flatMap (fun i => uint32_to_be (state.getD i 0))

/-- The function `sm3_final`: the context it leaves and the digest it writes. -/
def sm3_final (ctx : sm3_ctx_t) : sm3_ctx_t × List Nat :=
  let ctx1 := { ctx with
    buffer := memcpy ctx.buffer ctx.buffer_len [0x80] 1
    buffer_len := add64 ctx.buffer_len 1 }
  let ctx2 :=
    if ctx1.buffer_len > 56 then
      let c := sm3_compress { ctx1 with
        buffer := memcpy ctx1.buffer ctx1.buffer_len (List.replicate 64 0)
          (sub64 64 ctx1.buffer_len) }
      { c with buffer := memcpy c.buffer 0 (List.replicate 64 0) 56 }
    else
      { ctx1 with
        buffer := memcpy ctx1.buffer ctx1.buffer_len (List.replicate 64 0)
          (sub64 56 ctx1.buffer_len) }
  let bit_len := mul64 ctx2.total_len 8
  let ctx3 := { ctx2 with buffer := memcpy ctx2.buffer 56 (uint32_to_be (bit_len >>> 32 % 2 ^ 32)) 4 }
  let ctx4 := { ctx3 with buffer := memcpy ctx3.buffer 60 (uint32_to_be (bit_len % 2 ^ 32)) 4 }
  let ctx5 := sm3_compress ctx4
  (ctx5, digest_of ctx5.state)

/-- The content of a local `sm3_ctx_t` before it is initialised.  The C code leaves it
indeterminate; the embedding fills it with the pattern `0xAA`, and no result depends on
it. -/
def ctx_uninit : sm3_ctx_t :=
  { state := List.replicate 8 0xAAAAAAAA, total_len := 0xAAAAAAAAAAAAAAAA,
    buffer := List.replicate 64 0xAA, buffer_len := 0xAAAAAAAAAAAAAAAA }

/-- The function `sm3_hash`. -/
def sm3_hash (data : List Nat) : List Nat :=
  (sm3_final (sm3_update (sm3_init ctx_uninit) data)).2

/-- The function `sm3_init_with_state`. -/
def sm3_init_with_state (ctx : sm3_ctx_t) (initial_state : List Nat) (total_len_bytes : Nat) :
    sm3_ctx_t :=
  { ctx with state := initial_state.take 8, total_len := total_len_bytes, buffer_len := 0 }

/-! ## Derived views of the hash engine, used to state and prove its properties -/

/-- The effect of `sm3_compress` on the chaining state, as a function of the state and of
the 64-byte block held in the buffer. -/
def compress_words (state block : List Nat) : List Nat :=
  (sm3_compress { state := state, total_len := 0, buffer := block, buffer_len := 0 }).state

/-- The first `n` consecutive 64-byte blocks of a byte string. -/
def blocksAux : Nat → List Nat → List (List Nat)
  | 0, _ => []
  | n + 1, l => l.take 64 :: blocksAux n (l.drop 64)

/-- The complete 64-byte blocks of a byte string, in order. -/
def blocks (l : List Nat) : List (List Nat) := blocksAux (l.length / 64) l

/-- The bytes of a byte string that follow its last complete 64-byte block. -/
def rem (l : List Nat) : List Nat := l.drop (64 * (l.length / 64))

/-- The bytes staged in the buffer of a context. -/
def pending (ctx : sm3_ctx_t) : List Nat := ctx.buffer.take ctx.buffer_len

/-- The bytes `sm3_final` appends to the staged bytes: the terminator, the zero bytes and
the bit length, for a context with `bl` staged bytes and `total` bytes fed. -/
def final_padding (bl total : Nat) : List Nat :=
  [0x80] ++ List.replicate (if bl + 1 > 56 then 64 - (bl + 1) + 56 else 56 - (bl + 1)) 0 ++
    uint32_to_be (mul64 total 8 >>> 32 % 2 ^ 32) ++ uint32_to_be (mul64 total 8 % 2 ^ 32)

end SM3


namespace SM3

/-! ## The length-extension forgery (`attack.c`) -/

/-- The function `uint64_to_be`: the eight bytes written to `dst[0..7]`. -/
def uint64_to_be (n : Nat) : List Nat :=
  [(n >>> 56) &&& 0xFF, (n >>> 48) &&& 0xFF, (n >>> 40) &&& 0xFF, (n >>> 32) &&& 0xFF,
   (n >>> 24) &&& 0xFF, (n >>> 16) &&& 0xFF, (n >>> 8) &&& 0xFF, n &&& 0xFF]

/-- The outputs of `forge_sm3`: its return value, the forged digest, the bytes written to
`forged_message_suffix` and the value stored in `*forged_message_suffix_len`. -/
structure forge_result where
  ret : Int
  forged_hash : List Nat
  forged_message_suffix : List Nat
  forged_message_suffix_len : Nat
deriving DecidableEq

/-- The zero count `k` computed by `forge_sm3`, in `size_t` arithmetic:
`(56 - ((original_len + 1) % 64) + 64) % 64`. -/
def forge_k (original_len : Nat) : Nat :=
  add64 (sub64 56 (add64 original_len 1 % 64)) 64 % 64

/-- The local array `padding` of `forge_sm3` after steps a, b and c, with the final value of
`padding_len`.  The array has 128 bytes, indeterminate at first (pattern `0xAA`). -/
def forge_padding (original_len : Nat) : List Nat × Nat :=
  let padding := List.replicate 128 0xAA
  let padding_len := 0
  let padding := memcpy padding padding_len [0x80] 1
  let padding_len := add64 padding_len 1
  let k := forge_k original_len
  let padding := memcpy padding padding_len (List.replicate k 0) k
  let padding_len := add64 padding_len k
  let bit_len := mul64 original_len 8
  let padding := memcpy padding padding_len (uint64_to_be bit_len) 8
  let padding_len := add64 padding_len 8
  (padding, padding_len)

/-- The loop of `forge_sm3` that turns the known digest into eight state words. -/
def forge_initial_state (original_hash : List Nat) : List Nat :=
  (List.range 8).map (fun i =>
    ((original_hash.getD (i * 4) 0 <<< 24) ||| (original_hash.getD (i * 4 + 1) 0 <<< 16) |||
      (original_hash.getD (i * 4 + 2) 0 <<< 8) ||| original_hash.getD (i * 4 + 3) 0) % 2 ^ 32)

/-- The function `forge_sm3`; `new_data_len` is the length of `new_data`. -/
def forge_sm3 (original_len : Nat) (original_hash : List Nat) (new_data : List Nat) :
    forge_result :=
  let (padding, padding_len) := forge_padding original_len
  let forged_message_suffix := padding.take padding_len ++ new_data
  let forged_message_suffix_len := add64 padding_len new_data.length
  let initial_state := forge_initial_state original_hash
  let new_start_len := add64 original_len padding_len
  let ctx := sm3_init_with_state ctx_uninit initial_state new_start_len
  let ctx := sm3_update ctx new_data
  { ret := 0, forged_hash := (sm3_final ctx).2,
    forged_message_suffix := forged_message_suffix,
    forged_message_suffix_len := forged_message_suffix_len }

end SM3

namespace Merkle

open SM3

/-! ## The Merkle tree (`merkle.c`) -/

def HASH_SIZE : Nat := 32

/-- The struct `MerkleNode`; a pointer to a node is its index in the heap. -/
structure MerkleNode where
  hash : List Nat
  left : Option Nat
  right : Option Nat
  parent : Option Nat
deriving DecidableEq

/-- The heap of allocated nodes; `malloc` appends a node and never fails. -/
abbrev Heap := List MerkleNode

/-- The node a pointer refers to (`*p`). -/
def deref (h : Heap) (p : Nat) : MerkleNode :=
  h.getD p { hash := [], left := none, right := none, parent := none }

/-- The node a possibly null pointer refers to. -/
def derefOpt (h : Heap) (p : Option Nat) : MerkleNode :=
  match p with
  | some i => deref h i
  | none => { hash := [], left := none, right := none, parent := none }

/-- The library function `memcmp(a, b, n)` on byte arrays: the difference of the first pair
of bytes that differ among the first `n`, or `0`.  Digests have `HASH_SIZE` bytes; on a
shorter list the missing bytes compare as smaller than any byte. -/
def memcmp : List Nat → List Nat → Nat → Int
  | _, _, 0 => 0
  | [], [], _ + 1 => 0
  | [], _ :: _, _ + 1 => -1
  | _ :: _, [], _ + 1 => 1
  | a :: as, b :: bs, n + 1 => if a ≠ b then (a : Int) - (b : Int) else memcmp as bs n

/-- The function `create_node`: the heap after the allocation and the new pointer. -/
def create_node (h : Heap) (hash : List Nat) : Heap × Nat :=
  (h ++ [{ hash := hash.take HASH_SIZE, left := none, right := none, parent := none }], h.length)

/-- The function `hash_parent`: the bytes written to `parent_hash`. -/
def hash_parent (left_hash right_hash : List Nat) : List Nat :=
  let combined :=
    if memcmp left_hash right_hash HASH_SIZE ≤ 0 then
      left_hash.take HASH_SIZE ++ right_hash.take HASH_SIZE
    else
      right_hash.take HASH_SIZE ++ left_hash.take HASH_SIZE
  sm3_hash combined

/-- The body of the `for` loop of `build_merkle_tree` for the pair `left`, `right`: the heap
after the iteration and the pointer stored in `parents[parent_idx]`. -/
def build_pair (h : Heap) (left right : Nat) : Heap × Nat :=
  let parent_hash := hash_parent (deref h left).hash (deref h right).hash
  let (h1, parent) := create_node h parent_hash
  let h2 := h1.set parent { deref h1 parent with left := some left }
  let h3 := h2.set parent { deref h2 parent with right := some right }
  let h4 := h3.set left { deref h3 left with parent := some parent }
  let h5 := h4.set right { deref h4 right with parent := some parent }
  (h5, parent)

/-- The `for (i = 0; i < count; i += 2)` loop of `build_merkle_tree`; the argument is the
array `leaves` from index `i` on, the result the heap and the array `parents`.  A last node
without a partner is paired with itself. -/
def build_level : Heap → List Nat → Heap × List Nat
  | h, [] => (h, [])
  | h, [left] =>
    let (h1, parent) := build_pair h left left
    (h1, [parent])
  | h, left :: right :: rest =>
    let (h1, parent) := build_pair h left right
    let (h2, parents) := build_level h1 rest
    (h2, parent :: parents)

/-- The recursion of `build_merkle_tree`, with a bound on its depth. -/
def build_merkle_tree_rec : Nat → Heap → List Nat → Heap × Option Nat
  | 0, h, _ => (h, none)
  | fuel + 1, h, leaves =>
    if leaves.length = 0 then (h, none)
    else if leaves.length = 1 then (h, leaves.head?)
    else
      let (h1, parents) := build_level h leaves
      build_merkle_tree_rec fuel h1 parents

/-- The function `build_merkle_tree`; `count` is the length of `leaves`.  A level has at most
half as many nodes (rounded up) as the one below, so `count` levels are enough. -/
def build_merkle_tree (h : Heap) (leaves : List Nat) : Heap × Option Nat :=
  build_merkle_tree_rec leaves.length h leaves

/-- The function `find_leaf`, with a bound on the depth of the recursion. -/
def find_leaf : Nat → Heap → Option Nat → List Nat → Option Nat
  | 0, _, _, _ => none
  | _ + 1, _, none, _ => none
  | fuel + 1, h, some node, target_hash =>
    if (deref h node).left = none ∧ (deref h node).right = none then
      if memcmp (deref h node).hash target_hash HASH_SIZE = 0 then some node else none
    else
      match find_leaf fuel h (deref h node).left target_hash with
      | some found => some found
      | none => find_leaf fuel h (deref h node).right target_hash

/-- The `while (current->parent)` loop of `get_existence_proof`: the entries written to
`proof` and `proof_path`, in order. -/
def proof_walk : Nat → Heap → Nat → List (List Nat) × List Int
  | 0, _, _ => ([], [])
  | fuel + 1, h, current =>
    match (deref h current).parent with
    | none => ([], [])
    | some parent =>
      let step : List Nat × Int :=
        if (deref h parent).left = some current then
          ((derefOpt h (deref h parent).right).hash.take HASH_SIZE, 1)
        else
          ((derefOpt h (deref h parent).left).hash.take HASH_SIZE, 0)
      let (proof, proof_path) := proof_walk fuel h parent
      (step.1 :: proof, step.2 :: proof_path)

/-- The outputs of `get_existence_proof`: its return value, the entries written to `proof`
and `proof_path`, and the value stored in `*proof_len`. -/
structure proof_result where
  ret : Int
  proof : List (List Nat)
  proof_path : List Int
  proof_len : Int
deriving DecidableEq

/-- The function `get_existence_proof`.  Children and parents are distinct nodes of the heap,
so neither the search nor the walk is longer than the heap. -/
def get_existence_proof (h : Heap) (root : Option Nat) (target_hash : List Nat) :
    proof_result :=
  match find_leaf (h.length + 1) h root target_hash with
  | none => { ret := 0, proof := [], proof_path := [], proof_len := 0 }
  | some leaf_node =>
    let (proof, proof_path) := proof_walk h.length h leaf_node
    { ret := 1, proof := proof, proof_path := proof_path, proof_len := proof.length }

/-- The `for` loop of `verify_existence_proof`, from index `i`, for `n` iterations. -/
def verify_loop (proof : List (List Nat)) (proof_path : List Int) :
    Nat → Nat → List Nat → List Nat
  | 0, _, current_hash => current_hash
  | n + 1, i, current_hash =>
    let sibling_hash := proof.getD i []
    let parent_hash :=
      if proof_path.getD i 0 = 0 then hash_parent sibling_hash current_hash
      else hash_parent current_hash sibling_hash
    verify_loop proof proof_path n (i + 1) (parent_hash.take HASH_SIZE)

/-- The function `verify_existence_proof`. -/
def verify_existence_proof (leaf_hash root_hash : List Nat) (proof : List (List Nat))
    (proof_path : List Int) (proof_len : Int) : Bool :=
  let current_hash := verify_loop proof proof_path proof_len.toNat 0 (leaf_hash.take HASH_SIZE)
  memcmp current_hash root_hash HASH_SIZE = 0

/-- The leaves as the test driver makes them: one `create_node` per digest, in order. -/
def create_leaves : Heap → List (List Nat) → Heap × List Nat
  | h, [] => (h, [])
  | h, d :: ds =>
    let (h1, p) := create_node h d
    let (h2, ps) := create_leaves h1 ds
    (h2, p :: ps)

/-- A tree built from a list of leaf digests: the leaves are created in an empty heap and
handed to `build_merkle_tree`. -/
def build_from_digests (ds : List (List Nat)) : Heap × Option Nat :=
  let (h, leaves) := create_leaves [] ds
  build_merkle_tree h leaves

end Merkle

namespace SM3

/-! ## Reference definitions, following the specification -/

/-- The big-endian encoding of `n` in `w` bytes: the last byte is `n mod 256`, the bytes
before it encode `n / 256`. -/
def big_endian : Nat → Nat → List Nat
  | 0, _ => []
  | w + 1, n => big_endian w (n / 256) ++ [n % 256]

/-- The padded message of the reference definition: `M`, the byte `0x80`, `k` zero bytes
and the 8-byte big-endian encoding of `8 * len(M)`. -/
def md_padded (M : List Nat) (k : Nat) : List Nat :=
  M ++ [0x80] ++ List.replicate k 0 ++ big_endian 8 (8 * M.length)

/-- The reference Merkle-Damgard digest: the compression function folded over the 64-byte
blocks of the padded message, starting from the IV, and the final state words written
big-endian, four bytes each, in order. -/
def md_reference (M : List Nat) (k : Nat) : List Nat :=
  ((blocks (md_padded M k)).foldl compress_words IV).flatMap (big_endian 4)

end SM3

namespace SM3

/-- The number of zero bytes of the padding, as the specification writes it:
`k = ((56 - (L + 1)) mod 64 + 64) mod 64`. -/
def padding_zero_count (L : Nat) : Int := ((56 - ((L : Int) + 1)) % 64 + 64) % 64

end SM3

namespace Merkle

/-- Byte-lexicographic comparison of two byte strings: `a` is equal to `b` or precedes it in
the lexicographic order of their bytes. -/
def lex_le (a b : List Nat) : Prop := a = b ∨ List.Lex (· < ·) a b

end Merkle

namespace Merkle

/-- The level above a level of digests: the combination of every full adjacent pair and, for
a level of odd length, the combination of the last digest with itself. -/
def next_level : List (List Nat) → List (List Nat)
  | [] => []
  | [x] => [hash_parent x x]
  | x :: y :: rest => hash_parent x y :: next_level rest

/-- The root digest `R(d)` of the duplicate-last rule: `R([x]) = x`, and `R(d) = R(next(d))`
for a level of two or more digests. -/
def merkle_root : List (List Nat) → List Nat
  | [] => []
  | [x] => x
  | x :: y :: rest => merkle_root (next_level (x :: y :: rest))
termination_by d => d.length
decreasing_by
  have key : ∀ (n : Nat) (l : List (List Nat)), l.length ≤ n →
      (next_level l).length ≤ l.length := by
    intro n
    induction n with
    | zero =>
      intro l hl
      cases l with
      | nil => simp [next_level]
      | cons a t => simp at hl
    | succ n ih =>
      intro l hl
      cases l with
      | nil => simp [next_level]
      | cons a t =>
        cases t with
        | nil => simp [next_level]
        | cons b t2 =>
          have := ih t2 (by simp at hl; omega)
          simp [next_level]; omega
  have := key rest.length rest (Nat.le_refl _)
  simp [next_level]; omega

end Merkle

namespace SM3

/-! ## Invariants of the hash engine -/

/-- A context is well formed when its buffer has 64 bytes of which fewer than 64 are staged. -/
def ctx_wf (ctx : sm3_ctx_t) : Prop := ctx.buffer.length = 64 ∧ ctx.buffer_len < 64

/-- All eight working registers are 32-bit values. -/
def regs_lt (r : Regs) : Prop :=
  r.A < 2 ^ 32 ∧ r.B < 2 ^ 32 ∧ r.C < 2 ^ 32 ∧ r.D < 2 ^ 32 ∧
  r.E < 2 ^ 32 ∧ r.F < 2 ^ 32 ∧ r.G < 2 ^ 32 ∧ r.H < 2 ^ 32

end SM3

namespace Merkle

/-! ## Invariants of the tree -/

/-- Node `i` has a parent: a node allocated after it that has `i` as its left or right child
and whose digest is the combination of the digests of its children. -/
def has_parent (h : Heap) (i : Nat) : Prop :=
  ∃ p l r, (deref h i).parent = some p ∧ i < p ∧ p < h.length ∧
    (deref h p).left = some l ∧ (deref h p).right = some r ∧ (l = i ∨ r = i) ∧
    l < p ∧ r < p ∧ (deref h p).hash = hash_parent (deref h l).hash (deref h r).hash

/-- Node `p` is a leaf (no children). -/
def is_leaf (h : Heap) (p : Nat) : Prop := (deref h p).left = none ∧ (deref h p).right = none

/-- Node `p` is a leaf, or it has two children allocated before it. -/
def children_ok (h : Heap) (p : Nat) : Prop :=
  is_leaf h p ∨ ∃ l r, (deref h p).left = some l ∧ (deref h p).right = some r ∧ l < p ∧ r < p

/-- The heap `h2` extends `h1`: the nodes of `h1` keep their digest and children, and their
parent link once it is set. -/
def heap_ext (h1 h2 : Heap) : Prop :=
  h1.length ≤ h2.length ∧ ∀ i, i < h1.length →
    (deref h2 i).hash = (deref h1 i).hash ∧ (deref h2 i).left = (deref h1 i).left ∧
    (deref h2 i).right = (deref h1 i).right ∧
    ((deref h1 i).parent ≠ none → (deref h2 i).parent = (deref h1 i).parent)

/-- The state of the heap between two levels of `build_merkle_tree`: the nodes of the level
`lv` are distinct and have no parent yet, every other node has one, and children precede
their parents. -/
structure level_inv (h : Heap) (lv : List Nat) : Prop where
  bound : ∀ i ∈ lv, i < h.length
  top : ∀ i ∈ lv, (deref h i).parent = none
  nodup : lv.Nodup
  below : ∀ i, i < h.length → i ∉ lv → has_parent h i
  children : ∀ p, p < h.length → children_ok h p

/-- Node `j` is reached from node `i` by following child pointers. -/
inductive reach (h : Heap) : Nat → Nat → Prop
  | refl (i : Nat) : reach h i i
  | left {i l j : Nat} : (deref h i).left = some l → reach h l j → reach h i j
  | right {i r j : Nat} : (deref h i).right = some r → reach h r j → reach h i j

/-- The digests of the nodes of a level. -/
def level_hashes (h : Heap) (lv : List Nat) : List (List Nat) :=
  lv.map (fun i => (deref h i).hash)

end Merkle

namespace Merkle

/-- Node `p` is an internal node in good order: it has two children allocated before it and
its digest is the combination of their digests. -/
def internal_ok (h : Heap) (p : Nat) : Prop :=
  ∃ l r, (deref h p).left = some l ∧ (deref h p).right = some r ∧ l < p ∧ r < p ∧
    (deref h p).hash = hash_parent (deref h l).hash (deref h r).hash

end Merkle

namespace SM3

/-- Two contexts that `sm3_update` and `sm3_final` cannot tell apart: both well formed, with
the same state words, the same byte count and the same staged bytes (the bytes of the buffer
past the staged ones may differ). -/
def ctx_equiv (c1 c2 : sm3_ctx_t) : Prop :=
  ctx_wf c1 ∧ ctx_wf c2 ∧ c1.state = c2.state ∧ c1.total_len = c2.total_len ∧
    c1.buffer_len = c2.buffer_len ∧ pending c1 = pending c2

/-- The eight big-endian 32-bit words of a 32-byte digest: word `i` is
`d[4i] * 2^24 + d[4i+1] * 2^16 + d[4i+2] * 2^8 + d[4i+3]`. -/
def be_words (d : List Nat) : List Nat :=
  (List.range 8).map (fun i =>
    d.getD (4 * i) 0 * 2 ^ 24 + d.getD (4 * i + 1) 0 * 2 ^ 16 + d.getD (4 * i + 2) 0 * 2 ^ 8
      + d.getD (4 * i + 3) 0)

end SM3

namespace Merkle

/-- Two different 64-byte inputs with the same `sm3_hash` digest. -/
def sm3_collision : Prop :=
  ∃ x y : List Nat, x.length = 64 ∧ y.length = 64 ∧ x ≠ y ∧ SM3.sm3_hash x = SM3.sm3_hash y

/-- The 64 bytes `hash_parent` hashes: the two digests, the smaller one first. -/
def canonical_pair (a b : List Nat) : List Nat :=
  if memcmp a b HASH_SIZE ≤ 0 then a.take HASH_SIZE ++ b.take HASH_SIZE
  else b.take HASH_SIZE ++ a.take HASH_SIZE

end Merkle

namespace SM3

/-! ## The performance variants (`sm3_unrolled.c`, `sm3_simd.c`)

Both files repeat the helpers, `sm3_init`, `sm3_update`, `sm3_final` and `sm3_hash` of
`sm3.c` word for word, with the call to `sm3_compress` replaced by a call to their own
compression function.  The embedding writes these interface functions once, with the
compression function as a parameter. -/

/-- The macro `SM3_ROUND(A, B, C, D, E, F, G, H, W, W_PRIME, J)` of `sm3_unrolled.c`: the
registers after the statements of the macro. -/
def SM3_ROUND (r : Regs) (W W_PRIME : Nat) (J : Int) : Regs :=
  let T_J : Nat := if J < 16 then 0x79CC4519 else 0x7A879D8A
  let SS1 := ROTL (add32 (add32 (ROTL r.A 12) r.E) (ROTL T_J J)) 7
  let SS2 := SS1 ^^^ ROTL r.A 12
  let TT1 :=
    if J < 16 then add32 (add32 (add32 (FF_00_15 r.A r.B r.C) r.D) SS2) W_PRIME
    else add32 (add32 (add32 (FF_16_63 r.A r.B r.C) r.D) SS2) W_PRIME
  let TT2 :=
    if J < 16 then add32 (add32 (add32 (GG_00_15 r.E r.F r.G) r.H) SS1) W
    else add32 (add32 (add32 (GG_16_63 r.E r.F r.G) r.H) SS1) W
  { A := TT1, B := r.A, C := ROTL r.B 9, D := r.C,
    E := P0 TT2, F := r.E, G := ROTL r.F 19, H := r.G }

/-- The loop `for (j = 0; j < 64; j += 4)` of `sm3_compress_unrolled`, from `j` on, for `n`
iterations of four rounds each. -/
def unrolled_rounds (W W_prime : List Nat) : Nat → Nat → Regs → Regs
  | 0, _, r => r
  | n + 1, j, r =>
    let r0 := SM3_ROUND r (W.getD (j + 0) 0) (W_prime.getD (j + 0) 0) ((j + 0 : Nat) : Int)
    let r1 := SM3_ROUND r0 (W.getD (j + 1) 0) (W_prime.getD (j + 1) 0) ((j + 1 : Nat) : Int)
    let r2 := SM3_ROUND r1 (W.getD (j + 2) 0) (W_prime.getD (j + 2) 0) ((j + 2 : Nat) : Int)
    let r3 := SM3_ROUND r2 (W.getD (j + 3) 0) (W_prime.getD (j + 3) 0) ((j + 3 : Nat) : Int)
    unrolled_rounds W W_prime n (j + 4) r3

/-- The function `sm3_compress_unrolled` of `sm3_unrolled.c`. -/
def sm3_compress_unrolled (ctx : sm3_ctx_t) : sm3_ctx_t :=
  let W := expandW 52 (loadW ctx.buffer)
  let W_prime := primeW W
  let s := ctx.state
  let r := unrolled_rounds W W_prime 16 0
    { A := s.getD 0 0, B := s.getD 1 0, C := s.getD 2 0, D := s.getD 3 0,
      E := s.getD 4 0, F := s.getD 5 0, G := s.getD 6 0, H := s.getD 7 0 }
  { ctx with state :=
      [s.getD 0 0 ^^^ r.A, s.getD 1 0 ^^^ r.B, s.getD 2 0 ^^^ r.C, s.getD 3 0 ^^^ r.D,
       s.getD 4 0 ^^^ r.E, s.getD 5 0 ^^^ r.F, s.getD 6 0 ^^^ r.G, s.getD 7 0 ^^^ r.H] }

/-- The body of the round loop of `sm3_compress_placeholder` (`sm3_simd.c`) for round `j`. -/
def placeholder_round (W W_prime : List Nat) (j : Nat) (r : Regs) : Regs :=
  let T_J : Nat := if j < 16 then 0x79CC4519 else 0x7A879D8A
  let SS1 := ROTL (add32 (add32 (ROTL r.A 12) r.E) (ROTL T_J j)) 7
  let SS2 := SS1 ^^^ ROTL r.A 12
  let TT1 :=
    if j < 16 then add32 (add32 (add32 (FF_00_15 r.A r.B r.C) r.D) SS2) (W_prime.getD j 0)
    else add32 (add32 (add32 (FF_16_63 r.A r.B r.C) r.D) SS2) (W_prime.getD j 0)
  let TT2 :=
    if j < 16 then add32 (add32 (add32 (GG_00_15 r.E r.F r.G) r.H) SS1) (W.getD j 0)
    else add32 (add32 (add32 (GG_16_63 r.E r.F r.G) r.H) SS1) (W.getD j 0)
  { A := TT1, B := r.A, C := ROTL r.B 9, D := r.C,
    E := P0 TT2, F := r.E, G := ROTL r.F 19, H := r.G }

/-- The round loop of `sm3_compress_placeholder`: rounds `j, j + 1, ..` for `n` iterations. -/
def placeholder_rounds (W W_prime : List Nat) : Nat → Nat → Regs → Regs
  | 0, _, r => r
  | n + 1, j, r => placeholder_rounds W W_prime n (j + 1) (placeholder_round W W_prime j r)

/-- The function `sm3_compress_placeholder` of `sm3_simd.c`. -/
def sm3_compress_placeholder (ctx : sm3_ctx_t) : sm3_ctx_t :=
  let W := expandW 52 (loadW ctx.buffer)
  let W_prime := primeW W
  let s := ctx.state
  let r := placeholder_rounds W W_prime 64 0
    { A := s.getD 0 0, B := s.getD 1 0, C := s.getD 2 0, D := s.getD 3 0,
      E := s.getD 4 0, F := s.getD 5 0, G := s.getD 6 0, H := s.getD 7 0 }
  { ctx with state :=
      [s.getD 0 0 ^^^ r.A, s.getD 1 0 ^^^ r.B, s.getD 2 0 ^^^ r.C, s.getD 3 0 ^^^ r.D,
       s.getD 4 0 ^^^ r.E, s.getD 5 0 ^^^ r.F, s.getD 6 0 ^^^ r.G, s.getD 7 0 ^^^ r.H] }

/-- The `while` loop of `sm3_update` in a variant file, calling `compress`. -/
def variant_update_loop (compress : sm3_ctx_t → sm3_ctx_t) :
    Nat → sm3_ctx_t → List Nat → sm3_ctx_t × List Nat
  | 0, ctx, data => (ctx, data)
  | fuel + 1, ctx, data =>
    if data.length ≥ 64 then
      variant_update_loop compress fuel
        (compress { ctx with buffer := memcpy ctx.buffer 0 data 64 }) (data.drop 64)
    else (ctx, data)

/-- The tail of `sm3_update` in a variant file, from the `while` loop on. -/
def variant_update_tail (compress : sm3_ctx_t → sm3_ctx_t) (ctx : sm3_ctx_t)
    (data : List Nat) : sm3_ctx_t :=
  let (ctx1, rest) := variant_update_loop compress data.length ctx data
  let ctx2 :=
    if rest.length > 0 then { ctx1 with buffer := memcpy ctx1.buffer 0 rest rest.length }
    else ctx1
  { ctx2 with buffer_len := rest.length }

/-- The function `sm3_update` of a variant file. -/
def variant_update (compress : sm3_ctx_t → sm3_ctx_t) (ctx : sm3_ctx_t) (data : List Nat) :
    sm3_ctx_t :=
  let ctx0 := { ctx with total_len := add64 ctx.total_len data.length }
  if ctx0.buffer_len > 0 then
    let to_fill := sub64 64 ctx0.buffer_len
    if data.length < to_fill then
      { ctx0 with
        buffer := memcpy ctx0.buffer ctx0.buffer_len data data.length
        buffer_len := add64 ctx0.buffer_len data.length }
    else
      variant_update_tail compress
        (compress { ctx0 with buffer := memcpy ctx0.buffer ctx0.buffer_len data to_fill })
        (data.drop to_fill)
  else variant_update_tail compress ctx0 data

/-- The function `sm3_final` of a variant file. -/
def variant_final (compress : sm3_ctx_t → sm3_ctx_t) (ctx : sm3_ctx_t) :
    sm3_ctx_t × List Nat :=
  let ctx1 := { ctx with
    buffer := memcpy ctx.buffer ctx.buffer_len [0x80] 1
    buffer_len := add64 ctx.buffer_len 1 }
  let ctx2 :=
    if ctx1.buffer_len > 56 then
      let c := compress { ctx1 with
        buffer := memcpy ctx1.buffer ctx1.buffer_len (List.replicate 64 0)
          (sub64 64 ctx1.buffer_len) }
      { c with buffer := memcpy c.buffer 0 (List.replicate 64 0) 56 }
    else
      { ctx1 with
        buffer := memcpy ctx1.buffer ctx1.buffer_len (List.replicate 64 0)
          (sub64 56 ctx1.buffer_len) }
  let bit_len := mul64 ctx2.total_len 8
  let ctx3 := { ctx2 with buffer := memcpy ctx2.buffer 56 (uint32_to_be (bit_len >>> 32 % 2 ^ 32)) 4 }
  let ctx4 := { ctx3 with buffer := memcpy ctx3.buffer 60 (uint32_to_be (bit_len % 2 ^ 32)) 4 }
  let ctx5 := compress ctx4
  (ctx5, digest_of ctx5.state)

/-- The function `sm3_hash` of a variant file. -/
def variant_hash (compress : sm3_ctx_t → sm3_ctx_t) (data : List Nat) : List Nat :=
  (variant_final compress (variant_update compress (sm3_init ctx_uninit) data)).2

/-- The function `sm3_hash` of `sm3_unrolled.c`. -/
def sm3_hash_unrolled (data : List Nat) : List Nat := variant_hash sm3_compress_unrolled data

/-- The function `sm3_hash` of `sm3_simd.c`. -/
def sm3_hash_simd (data : List Nat) : List Nat := variant_hash sm3_compress_placeholder data

end SM3

namespace SM3

/-! ## Further views of the compression function -/

/-- The working registers `A .. H` of `sm3_compress` when its round loop ends: the 64 rounds
run from `A .. H = state[0] .. state[7]` on the block held in the buffer. -/
def compress_regs (ctx : sm3_ctx_t) : Regs :=
  let W := expandW 52 (loadW ctx.buffer)
  let s := ctx.state
  rounds W (primeW W) 64 0
    { A := s.getD 0 0, B := s.getD 1 0, C := s.getD 2 0, D := s.getD 3 0,
      E := s.getD 4 0, F := s.getD 5 0, G := s.getD 6 0, H := s.getD 7 0 }

/-- The eight working registers as a list, `A` first. -/
def regs_list (r : Regs) : List Nat := [r.A, r.B, r.C, r.D, r.E, r.F, r.G, r.H]

/-- The shift counts of one expansion of the macro `ROTL(x, n)`, which is
`((x) << (n)) | ((x) >> (32 - (n)))`: the left shift by `n` and the right shift by
`32 - n`. -/
def ROTL_shifts (n : Int) : List Int := [n, 32 - n]

/-- The shift counts of round `j` of `sm3_compress`, in the order of the text:
`ROTL(A, 12)`, `ROTL(T(j), j)` and the outer `ROTL(.., 7)` of `SS1`, `ROTL(A, 12)` of `SS2`,
`ROTL(B, 9)`, `ROTL(F, 19)`, and the two rotations of `P0(TT2)`. -/
def round_shifts (j : Int) : List Int :=
  ROTL_shifts 12 ++ ROTL_shifts j ++ ROTL_shifts 7 ++ ROTL_shifts 12 ++ ROTL_shifts 9 ++
    ROTL_shifts 19 ++ ROTL_shifts 9 ++ ROTL_shifts 17

/-- The shift counts of one step of the message expansion:
`P1(.. ^ ROTL(W[j - 3], 15)) ^ ROTL(W[j - 13], 7) ^ ..`, with the two rotations of `P1`. -/
def expand_shifts : List Int :=
  ROTL_shifts 15 ++ ROTL_shifts 15 ++ ROTL_shifts 23 ++ ROTL_shifts 7

/-- A shift count for which the C standard defines the shift of a 32-bit word. -/
def shift_in_range (n : Int) : Bool := decide (0 ≤ n) && decide (n ≤ 31)

end SM3

namespace Merkle

/-! ## Teardown and further views of the tree -/

/-- The function `free_merkle_tree`, with a bound on the depth of the recursion: the
pointers handed to `free`, in order. -/
def free_merkle_tree : Nat → Heap → Option Nat → List Nat
  | 0, _, _ => []
  | _ + 1, _, none => []
  | fuel + 1, h, some node =>
    free_merkle_tree fuel h (deref h node).left ++
      free_merkle_tree fuel h (deref h node).right ++ [node]

/-- The value of `current` when the `while (current->parent)` loop of `get_existence_proof`
ends; `none` when the bound on the number of iterations is reached first. -/
def walk_end : Nat → Heap → Nat → Option Nat
  | 0, _, _ => none
  | fuel + 1, h, current =>
    match (deref h current).parent with
    | none => some current
    | some parent => walk_end fuel h parent

/-- The value of `current` after `j` iterations of the `while (current->parent)` loop of
`get_existence_proof`; `none` when the loop ends before. -/
def walk_current (h : Heap) : Nat → Nat → Option Nat
  | 0, current => some current
  | j + 1, current =>
    match (deref h current).parent with
    | none => none
    | some parent => walk_current h j parent

/-- The digests of level `j` above a level of digests: level 0 is the level itself, each
further level is `next_level` of the one below. -/
def level_at : List (List Nat) → Nat → List (List Nat)
  | lv, 0 => lv
  | lv, j + 1 => level_at (next_level lv) j

/-- The proof step the specification describes for position `p` of a level of digests: the
digest at `p - 1` and side 0 when `p` is odd; the digest at `p + 1`, or the digest at `p`
itself when `p` is the last position, and side 1 when `p` is even. -/
def ref_step (lv : List (List Nat)) (p : Nat) : List Nat × Int :=
  if p % 2 = 1 then (lv.getD (p - 1) [], 0)
  else if p + 1 < lv.length then (lv.getD (p + 1) [], 1)
  else (lv.getD p [], 1)

/-- The proof the specification describes for position `i` of a level of digests, leaf to
root: one step per level that has two or more nodes. -/
def ref_proof : Nat → List (List Nat) → Nat → List (List Nat × Int)
  | 0, _, _ => []
  | fuel + 1, lv, i =>
    if lv.length ≤ 1 then []
    else ref_step lv i :: ref_proof fuel (next_level lv) (i / 2)

/-- The height `h(n)` of a tree of `n` leaves: `h(1) = 0` and `h(n) = 1 + h(ceil(n / 2))`
for `n >= 2`. -/
def tree_height (n : Nat) : Nat :=
  if h : n ≤ 1 then 0 else 1 + tree_height ((n + 1) / 2)
termination_by n
decreasing_by omega

end Merkle

namespace SM3

/-! ## The compression function as a state transformer -/

theorem sm3_compress_eq (ctx : sm3_ctx_t) :
    sm3_compress ctx = { ctx with state := compress_words ctx.state ctx.buffer } := rfl

/-! ## Blocks and remainder of a byte string -/

theorem blocks_short {l : List Nat} (h : l.length < 64) : blocks l = [] := by
  simp [blocks, Nat.div_eq_of_lt h, blocksAux]

theorem blocks_long {l : List Nat} (h : 64 ≤ l.length) :
    blocks l = l.take 64 :: blocks (l.drop 64) := by
  have e : l.length / 64 = (l.length - 64) / 64 + 1 := by omega
  simp [blocks, e, blocksAux]

theorem rem_short {l : List Nat} (h : l.length < 64) : rem l = l := by
  simp [rem, Nat.div_eq_of_lt h]

theorem rem_long {l : List Nat} (h : 64 ≤ l.length) : rem l = rem (l.drop 64) := by
  have e : 64 * (l.length / 64) = 64 + 64 * ((l.length - 64) / 64) := by omega
  simp only [rem, List.drop_drop, List.length_drop, e]

theorem rem_length (l : List Nat) : (rem l).length = l.length % 64 := by
  simp only [rem, List.length_drop]; omega

/-- Splitting a byte string anywhere: the blocks of `a ++ b` are the blocks of `a` followed by
the blocks of what `a` leaves over and `b`. -/
theorem blocks_rem_append : ∀ (n : Nat) (a b : List Nat), a.length ≤ n →
    blocks (a ++ b) = blocks a ++ blocks (rem a ++ b) ∧ rem (a ++ b) = rem (rem a ++ b) := by
  intro n
  induction n using Nat.strong_induction_on with
  | _ n ih =>
    intro a b hn
    by_cases h : a.length < 64
    · simp [blocks_short h, rem_short h]
    · have h64 : 64 ≤ a.length := by omega
      have hab : 64 ≤ (a ++ b).length := by simp; omega
      have hd : (a ++ b).drop 64 = a.drop 64 ++ b := by
        rw [List.drop_append_of_le_length h64]
      have ht : (a ++ b).take 64 = a.take 64 := by
        rw [List.take_append_of_le_length h64]
      have hlen : (a.drop 64).length ≤ a.length - 64 := by simp
      have := ih (a.length - 64) (by omega) (a.drop 64) b hlen
      rw [blocks_long hab, rem_long hab, hd, ht, blocks_long h64, rem_long h64, this.1, this.2]
      simp

theorem blocks_append (a b : List Nat) : blocks (a ++ b) = blocks a ++ blocks (rem a ++ b) :=
  (blocks_rem_append a.length a b (Nat.le_refl _)).1

theorem rem_append (a b : List Nat) : rem (a ++ b) = rem (rem a ++ b) :=
  (blocks_rem_append a.length a b (Nat.le_refl _)).2

theorem rem_eq_nil {a : List Nat} (h : a.length % 64 = 0) : rem a = [] := by
  apply List.eq_nil_of_length_eq_zero
  rw [rem_length, h]

theorem blocks_append_aligned {a : List Nat} (b : List Nat) (h : a.length % 64 = 0) :
    blocks (a ++ b) = blocks a ++ blocks b := by
  rw [blocks_append, rem_eq_nil h, List.nil_append]

theorem rem_append_aligned {a : List Nat} (b : List Nat) (h : a.length % 64 = 0) :
    rem (a ++ b) = rem b := by
  rw [rem_append, rem_eq_nil h, List.nil_append]

theorem blocks_single {b : List Nat} (h : b.length = 64) : blocks b = [b] := by
  rw [blocks_long (by omega), blocks_short (by simp; omega)]
  rw [List.take_of_length_le (by omega)]

/-! ## Writing into the buffer -/

theorem memcpy_append (p q src : List Nat) (off n : Nat) (hp : p.length = off) :
    memcpy (p ++ q) off src n = p ++ src.take n ++ q.drop n := by
  subst hp
  simp [memcpy]

theorem memcpy_length (dst src : List Nat) (off n : Nat) (hn : n ≤ src.length)
    (h : off + n ≤ dst.length) : (memcpy dst off src n).length = dst.length := by
  simp [memcpy]; omega

/-! ## The streaming context -/

theorem pending_length {ctx : sm3_ctx_t} (h : ctx_wf ctx) :
    (pending ctx).length = ctx.buffer_len := by
  simp [pending, h.1]; have := h.2; omega

theorem sm3_update_loop_spec : ∀ (fuel : Nat) (ctx : sm3_ctx_t) (data : List Nat),
    data.length / 64 ≤ fuel → ctx.buffer.length = 64 →
    (sm3_update_loop fuel ctx data).1.state = (blocks data).foldl compress_words ctx.state ∧
    (sm3_update_loop fuel ctx data).1.total_len = ctx.total_len ∧
    (sm3_update_loop fuel ctx data).1.buffer.length = 64 ∧
    (sm3_update_loop fuel ctx data).2 = rem data := by
  intro fuel
  induction fuel with
  | zero =>
    intro ctx data hf hb
    have h : data.length < 64 := by omega
    simp [sm3_update_loop, blocks_short h, rem_short h, hb]
  | succ fuel ih =>
    intro ctx data hf hb
    by_cases h : data.length < 64
    · have h2 : ¬ data.length ≥ 64 := by omega
      simp [sm3_update_loop, h2, blocks_short h, rem_short h, hb]
    · have h64 : 64 ≤ data.length := by omega
      have hm : memcpy ctx.buffer 0 data 64 = data.take 64 := by
        simp [memcpy, List.drop_of_length_le (Nat.le_of_eq hb)]
      have hl : (List.take 64 data).length = 64 := by simp; omega
      have := ih (sm3_compress { ctx with buffer := memcpy ctx.buffer 0 data 64 })
        (data.drop 64) (by simp; omega) (by rw [sm3_compress_eq, hm]; exact hl)
      simp only [sm3_update_loop, ge_iff_le, h64, if_true]
      rw [blocks_long h64, rem_long h64, this.1, this.2.1, this.2.2.1, this.2.2.2]
      simp [sm3_compress_eq, hm]

theorem sm3_update_tail_spec (ctx : sm3_ctx_t) (data : List Nat) (hb : ctx.buffer.length = 64) :
    ctx_wf (sm3_update_tail ctx data) ∧
    (sm3_update_tail ctx data).state = (blocks data).foldl compress_words ctx.state ∧
    (sm3_update_tail ctx data).total_len = ctx.total_len ∧
    pending (sm3_update_tail ctx data) = rem data := by
  obtain ⟨h1, h2, h3, h4⟩ := sm3_update_loop_spec data.length ctx data
    (Nat.div_le_self _ _) hb
  have hr : (rem data).length < 64 := by rw [rem_length]; omega
  generalize hres : sm3_update_loop data.length ctx data = res at h1 h2 h3 h4
  obtain ⟨c1, rest⟩ := res
  simp only at h1 h2 h3 h4
  subst h4
  simp only [sm3_update_tail, hres]
  by_cases h0 : (rem data).length > 0
  · simp only [h0, if_true, ctx_wf, pending]
    have hm : memcpy c1.buffer 0 (rem data) (rem data).length
        = rem data ++ c1.buffer.drop (rem data).length := by
      simp [memcpy]
    refine ⟨⟨?_, hr⟩, h1, h2, ?_⟩
    · rw [hm]; simp; omega
    · rw [hm]; simp
  · have hnil : rem data = [] := List.eq_nil_of_length_eq_zero (by omega)
    simp [hnil, ctx_wf, pending, h1, h2, h3]

/-- What `sm3_update` does to a well-formed context, in terms of the staged bytes. -/
theorem sm3_update_spec (ctx : sm3_ctx_t) (data : List Nat) (h : ctx_wf ctx) :
    ctx_wf (sm3_update ctx data) ∧
    (sm3_update ctx data).state = (blocks (pending ctx ++ data)).foldl compress_words ctx.state ∧
    (sm3_update ctx data).total_len = add64 ctx.total_len data.length ∧
    pending (sm3_update ctx data) = rem (pending ctx ++ data) := by
  obtain ⟨hb, hl⟩ := h
  by_cases h0 : ctx.buffer_len > 0
  · have hsub : sub64 64 ctx.buffer_len = 64 - ctx.buffer_len := by
      simp only [sub64]; omega
    have hsplit : ctx.buffer = pending ctx ++ ctx.buffer.drop ctx.buffer_len := by
      simp [pending]
    have hpl : (pending ctx).length = ctx.buffer_len := pending_length ⟨hb, hl⟩
    by_cases h1 : data.length < 64 - ctx.buffer_len
    · have hshort : (pending ctx ++ data).length < 64 := by simp [hpl]; omega
      have hadd : add64 ctx.buffer_len data.length = ctx.buffer_len + data.length := by
        simp only [add64]; omega
      have hm : memcpy ctx.buffer ctx.buffer_len data data.length
          = (pending ctx ++ data) ++ (ctx.buffer.drop ctx.buffer_len).drop data.length := by
        conv => lhs; rw [hsplit]
        rw [memcpy_append _ _ _ _ _ hpl]; simp
      have hlen2 : ctx.buffer_len + data.length = (pending ctx ++ data).length := by simp [hpl]
      simp only [sm3_update, h0, if_true, hsub, h1, ctx_wf, hadd]
      rw [hm, blocks_short hshort, rem_short hshort]
      refine ⟨⟨?_, by omega⟩, rfl, trivial, ?_⟩
      · simp [hpl, hb]; omega
      · show List.take (ctx.buffer_len + data.length) _ = _
        rw [hlen2, List.take_left']
        rfl
    · have hm : memcpy ctx.buffer ctx.buffer_len data (64 - ctx.buffer_len)
          = pending ctx ++ data.take (64 - ctx.buffer_len) := by
        conv => lhs; rw [hsplit]
        rw [memcpy_append _ _ _ _ _ hpl]
        simp [List.drop_drop]
        omega
      have hlen : (pending ctx ++ data.take (64 - ctx.buffer_len)).length = 64 := by
        simp [hpl]; omega
      have ht := sm3_update_tail_spec
        (sm3_compress { ctx with total_len := add64 ctx.total_len data.length,
                                 buffer := memcpy ctx.buffer ctx.buffer_len data (64 - ctx.buffer_len) })
        (data.drop (64 - ctx.buffer_len)) (by rw [sm3_compress_eq, hm]; exact hlen)
      simp only [sm3_update, h0, if_true, hsub, h1, if_false]
      have hdec : pending ctx ++ data
          = (pending ctx ++ data.take (64 - ctx.buffer_len)) ++ data.drop (64 - ctx.buffer_len) := by
        simp
      have hb1 : blocks (pending ctx ++ data)
          = (pending ctx ++ data.take (64 - ctx.buffer_len)) :: blocks (data.drop (64 - ctx.buffer_len)) := by
        conv => lhs; rw [hdec]
        rw [blocks_append_aligned _ (by rw [hlen]), blocks_single hlen]; rfl
      have hr1 : rem (pending ctx ++ data) = rem (data.drop (64 - ctx.buffer_len)) := by
        conv => lhs; rw [hdec]
        rw [rem_append_aligned _ (by rw [hlen])]
      refine ⟨ht.1, ?_, ?_, ?_⟩
      · rw [ht.2.1, hb1]; simp [sm3_compress_eq, hm]
      · rw [ht.2.2.1]; simp [sm3_compress_eq]
      · rw [ht.2.2.2, hr1]
  · have hz : ctx.buffer_len = 0 := by omega
    have ht := sm3_update_tail_spec { ctx with total_len := add64 ctx.total_len data.length }
      data hb
    have hp : pending ctx = [] := by simp [pending, hz]
    simp only [sm3_update, h0, if_false, hp, List.nil_append]
    exact ht

end SM3

namespace SM3

theorem uint32_to_be_length (n : Nat) : (uint32_to_be n).length = 4 := rfl

theorem final_padding_length (bl total : Nat) :
    (final_padding bl total).length = (if bl + 1 > 56 then 64 - (bl + 1) + 56 else 56 - (bl + 1)) + 9 := by
  simp [final_padding, uint32_to_be_length]

/-- What `sm3_final` does to a well-formed context: the staged bytes followed by the padding
are compressed, block by block, into the state, and the digest is the big-endian image of
the final state. -/
theorem sm3_final_spec (ctx : sm3_ctx_t) (h : ctx_wf ctx) :
    (sm3_final ctx).1.state =
      (blocks (pending ctx ++ final_padding ctx.buffer_len ctx.total_len)).foldl
        compress_words ctx.state ∧
    (sm3_final ctx).2 = digest_of (sm3_final ctx).1.state := by
  refine ⟨?_, rfl⟩
  obtain ⟨hb, hl⟩ := h
  have hpl : (pending ctx).length = ctx.buffer_len := pending_length ⟨hb, hl⟩
  have hsplit : ctx.buffer = pending ctx ++ ctx.buffer.drop ctx.buffer_len := by
    simp [pending]
  generalize pending ctx = p at hpl hsplit ⊢
  generalize hq : ctx.buffer.drop ctx.buffer_len = q at hsplit
  have hql : q.length = 64 - ctx.buffer_len := by rw [← hq]; simp [hb]
  have hadd : add64 ctx.buffer_len 1 = ctx.buffer_len + 1 := by simp only [add64]; omega
  have hb1 : memcpy ctx.buffer ctx.buffer_len [0x80] 1 = (p ++ [0x80]) ++ q.drop 1 := by
    rw [hsplit, memcpy_append _ _ _ _ _ hpl]; simp
  generalize hhi : uint32_to_be (mul64 ctx.total_len 8 >>> 32 % 2 ^ 32) = hi
  generalize hlo : uint32_to_be (mul64 ctx.total_len 8 % 2 ^ 32) = lo
  have hhil : hi.length = 4 := by rw [← hhi]; rfl
  have hlol : lo.length = 4 := by rw [← hlo]; rfl
  by_cases hc : ctx.buffer_len + 1 > 56
  · have hsub : sub64 64 (ctx.buffer_len + 1) = 63 - ctx.buffer_len := by
      simp only [sub64]; omega
    have hb2 : memcpy ((p ++ [0x80]) ++ q.drop 1) (ctx.buffer_len + 1) (List.replicate 64 0)
        (63 - ctx.buffer_len) = p ++ [0x80] ++ List.replicate (63 - ctx.buffer_len) 0 := by
      rw [memcpy_append _ _ _ _ _ (by simp [hpl])]
      have : List.drop (63 - ctx.buffer_len) (List.drop 1 q) = [] := by
        apply List.drop_of_length_le; simp [hql]; omega
      rw [this, List.take_replicate]
      have : min (63 - ctx.buffer_len) 64 = 63 - ctx.buffer_len := by omega
      simp [this]
    generalize hB : p ++ [0x80] ++ List.replicate (63 - ctx.buffer_len) 0 = B at hb2
    have hBl : B.length = 64 := by rw [← hB]; simp [hpl]; omega
    have hb3 : memcpy B 0 (List.replicate 64 0) 56 = List.replicate 56 0 ++ B.drop 56 := by
      simp [memcpy, List.take_replicate]
    have hb4 : memcpy (List.replicate 56 0 ++ B.drop 56) 56 hi 4
        = List.replicate 56 0 ++ hi ++ (B.drop 56).drop 4 := by
      rw [memcpy_append _ _ _ _ _ (by simp)]
      rw [List.take_of_length_le (by omega)]
    have hb5 : memcpy (List.replicate 56 0 ++ hi ++ (B.drop 56).drop 4) 60 lo 4
        = List.replicate 56 0 ++ hi ++ lo := by
      rw [memcpy_append _ _ _ _ _ (by simp [hhil])]
      rw [List.take_of_length_le (by omega)]
      have : List.drop 4 (List.drop 4 (List.drop 56 B)) = [] := by
        apply List.drop_of_length_le; simp [hBl]
      rw [this]; simp
    have hpad : p ++ final_padding ctx.buffer_len ctx.total_len
        = B ++ (List.replicate 56 0 ++ hi ++ lo) := by
      have e : 64 - (ctx.buffer_len + 1) + 56 = (63 - ctx.buffer_len) + 56 := by omega
      simp only [final_padding, hc, if_true, hhi, hlo, e, List.replicate_add, ← hB]
      simp
    have hC : (List.replicate 56 0 ++ hi ++ lo).length = 64 := by simp [hhil, hlol]
    rw [hpad, blocks_append_aligned _ (by rw [hBl]), blocks_single hBl, blocks_single hC]
    simp only [sm3_final, hadd, hc, if_true, hb1, hsub, hb2, sm3_compress_eq, hb3, hhi, hlo,
      hb4, hb5]
    rfl
  · have hsub : sub64 56 (ctx.buffer_len + 1) = 55 - ctx.buffer_len := by
      simp only [sub64]; omega
    have hb2 : memcpy ((p ++ [0x80]) ++ q.drop 1) (ctx.buffer_len + 1) (List.replicate 64 0)
        (55 - ctx.buffer_len)
        = (p ++ [0x80] ++ List.replicate (55 - ctx.buffer_len) 0)
            ++ (q.drop 1).drop (55 - ctx.buffer_len) := by
      rw [memcpy_append _ _ _ _ _ (by simp [hpl])]
      rw [List.take_replicate]
      have : min (55 - ctx.buffer_len) 64 = 55 - ctx.buffer_len := by omega
      simp [this]
    generalize hB : p ++ [0x80] ++ List.replicate (55 - ctx.buffer_len) 0 = B at hb2
    have hBl : B.length = 56 := by rw [← hB]; simp [hpl]; omega
    generalize hR : (q.drop 1).drop (55 - ctx.buffer_len) = R at hb2
    have hRl : R.length = 8 := by rw [← hR]; simp [hql]; omega
    have hb4 : memcpy (B ++ R) 56 hi 4 = B ++ hi ++ R.drop 4 := by
      rw [memcpy_append _ _ _ _ _ hBl]
      rw [List.take_of_length_le (by omega)]
    have hb5 : memcpy (B ++ hi ++ R.drop 4) 60 lo 4 = B ++ hi ++ lo := by
      rw [memcpy_append _ _ _ _ _ (by simp [hhil, hBl])]
      rw [List.take_of_length_le (by omega)]
      have : List.drop 4 (List.drop 4 R) = [] := by
        apply List.drop_of_length_le; simp [hRl]
      rw [this]; simp
    have hpad : p ++ final_padding ctx.buffer_len ctx.total_len = B ++ hi ++ lo := by
      have e : 56 - (ctx.buffer_len + 1) = 55 - ctx.buffer_len := by omega
      simp only [final_padding, hc, if_false, hhi, hlo, e, ← hB]
      simp
    have hC : (B ++ hi ++ lo).length = 64 := by simp [hhil, hlol, hBl]
    rw [hpad, blocks_single hC]
    simp only [sm3_final, hadd, hc, if_false, hb1, hsub, hb2, sm3_compress_eq, hhi, hlo,
      hb4, hb5]
    rfl

end SM3

namespace SM3

theorem add64_lt (a b : Nat) : add64 a b < 2 ^ 64 := by
  simp only [add64]; omega

theorem add64_add64 (a b c : Nat) : add64 (add64 a b) c = add64 a (b + c) := by
  simp only [add64]; omega

theorem digest_of_length (state : List Nat) : (digest_of state).length = 32 := by
  simp [digest_of, List.range, List.range.loop, uint32_to_be]

theorem sm3_init_wf (ctx : sm3_ctx_t) (h : ctx.buffer.length = 64) : ctx_wf (sm3_init ctx) := by
  simp [ctx_wf, sm3_init, h]

/-- What a sequence of `sm3_update` calls does to a well-formed context: the same as one
call on the concatenation of the pieces. -/
theorem foldl_sm3_update_spec : ∀ (pieces : List (List Nat)) (ctx : sm3_ctx_t),
    ctx_wf ctx → ctx.total_len < 2 ^ 64 →
    ctx_wf (pieces.foldl sm3_update ctx) ∧
    (pieces.foldl sm3_update ctx).state =
      (blocks (pending ctx ++ pieces.flatten)).foldl compress_words ctx.state ∧
    (pieces.foldl sm3_update ctx).total_len = add64 ctx.total_len pieces.flatten.length ∧
    pending (pieces.foldl sm3_update ctx) = rem (pending ctx ++ pieces.flatten) := by
  intro pieces
  induction pieces with
  | nil =>
    intro ctx h ht
    have hs : (pending ctx).length < 64 := by rw [pending_length h]; exact h.2
    have e : add64 ctx.total_len 0 = ctx.total_len := by simp only [add64]; omega
    simp [blocks_short hs, rem_short hs, h, e]
  | cons d ds ih =>
    intro ctx h ht
    obtain ⟨u1, u2, u3, u4⟩ := sm3_update_spec ctx d h
    obtain ⟨i1, i2, i3, i4⟩ := ih (sm3_update ctx d) u1 (by rw [u3]; exact add64_lt _ _)
    simp only [List.foldl_cons, List.flatten_cons, List.length_append]
    refine ⟨i1, ?_, ?_, ?_⟩
    · rw [i2, u2, u4, ← List.append_assoc, blocks_append (pending ctx ++ d), List.foldl_append]
    · rw [i3, u3, add64_add64]
    · rw [i4, u4, ← List.append_assoc, rem_append (pending ctx ++ d)]

/-- C1: chunking invariance.  For every byte string and every way of splitting it into
consecutive pieces (empty pieces and single bytes included), `sm3_init`, one `sm3_update`
per piece and `sm3_final` write the same 32-byte digest as `sm3_init`, a single `sm3_update`
on the whole string and `sm3_final`; the content of the context before `sm3_init` is
arbitrary. -/
theorem sm3_chunking_invariance (ctx0 : sm3_ctx_t) (pieces : List (List Nat))
    (h : ctx0.buffer.length = 64) :
    (sm3_final (pieces.foldl sm3_update (sm3_init ctx0))).2
      = (sm3_final (sm3_update (sm3_init ctx0) pieces.flatten)).2 ∧
    (sm3_final (pieces.foldl sm3_update (sm3_init ctx0))).2.length = 32 := by
  have hwf := sm3_init_wf ctx0 h
  have ht : (sm3_init ctx0).total_len < 2 ^ 64 := by simp [sm3_init]
  obtain ⟨a1, a2, a3, a4⟩ := foldl_sm3_update_spec pieces (sm3_init ctx0) hwf ht
  obtain ⟨b1, b2, b3, b4⟩ := sm3_update_spec (sm3_init ctx0) pieces.flatten hwf
  have fa := sm3_final_spec _ a1
  have fb := sm3_final_spec _ b1
  refine ⟨?_, ?_⟩
  · rw [fa.2, fb.2, fa.1, fb.1, ← pending_length a1, ← pending_length b1, a2, a3, a4, b2, b3, b4]
  · rw [fa.2]; exact digest_of_length _

/-- Witness for C1: three pieces, one of them empty and one a single byte. -/
theorem sm3_chunking_invariance_witness :
    ctx_uninit.buffer.length = 64 ∧
    ((sm3_final ([[0x61], [], [0x62, 0x63]].foldl sm3_update (sm3_init ctx_uninit))).2
      = (sm3_final (sm3_update (sm3_init ctx_uninit) [[0x61], [], [0x62, 0x63]].flatten)).2 ∧
    (sm3_final ([[0x61], [], [0x62, 0x63]].foldl sm3_update (sm3_init ctx_uninit))).2.length = 32) :=
  ⟨by decide, sm3_chunking_invariance ctx_uninit [[0x61], [], [0x62, 0x63]] (by decide)⟩

end SM3

namespace SM3

/-! ## Agreement with the reference definition -/

theorem shr32_eq_div (n : Nat) (c : Nat) (hc : c < 32) : shr32 n (c : Int) = n / 2 ^ c := by
  have e : ((c : Int) % 32).toNat = c := by omega
  simp only [shr32, e, Nat.shiftRight_eq_div_pow]

theorem and_255 (x : Nat) : x &&& 255 = x % 256 :=
  Nat.and_pow_two_sub_one_eq_mod x 8

theorem uint32_to_be_eq (n : Nat) :
    uint32_to_be n = [n / 2 ^ 24 % 256, n / 2 ^ 16 % 256, n / 2 ^ 8 % 256, n % 256] := by
  have h24 := shr32_eq_div n 24 (by omega)
  have h16 := shr32_eq_div n 16 (by omega)
  have h8 := shr32_eq_div n 8 (by omega)
  simp only [Nat.cast_ofNat] at h24 h16 h8
  simp only [uint32_to_be, h24, h16, h8, and_255]

theorem uint32_to_be_eq_big_endian (n : Nat) : uint32_to_be n = big_endian 4 n := by
  rw [uint32_to_be_eq]
  simp only [big_endian, List.nil_append, List.cons_append, List.cons.injEq, and_true]
  and_intros <;> omega

theorem bit_len_eq_big_endian (x : Nat) :
    uint32_to_be (x >>> 32 % 2 ^ 32) ++ uint32_to_be (x % 2 ^ 32) = big_endian 8 x := by
  rw [uint32_to_be_eq, uint32_to_be_eq, Nat.shiftRight_eq_div_pow]
  simp only [big_endian, List.nil_append, List.cons_append, List.cons.injEq, and_true]
  and_intros <;> omega

theorem compress_words_length (state block : List Nat) :
    (compress_words state block).length = 8 := rfl

theorem foldl_compress_words_length (bs : List (List Nat)) :
    ∀ (state : List Nat), state.length = 8 → (bs.foldl compress_words state).length = 8 := by
  induction bs with
  | nil => intro state h; exact h
  | cons b bs ih => intro state _; exact ih _ (compress_words_length state b)

theorem digest_of_eq_flatMap (state : List Nat) (h : state.length = 8) :
    digest_of state = state.flatMap (big_endian 4) := by
  match state, h with
  | [a, b, c, d, e, f, g, i], _ =>
    simp [digest_of, List.range, List.range.loop, uint32_to_be_eq_big_endian]

theorem blocksAux_length (n : Nat) : ∀ (l : List Nat), (blocksAux n l).length = n := by
  induction n with
  | zero => intro l; rfl
  | succ n ih => intro l; simp [blocksAux, ih]

theorem blocks_length (l : List Nat) : (blocks l).length = l.length / 64 :=
  blocksAux_length _ l

theorem IV_length : IV.length = 8 := rfl

/-- The digest of `sm3_hash` as a fold of the compression function over the blocks of the
message followed by the padding that `sm3_final` appends. -/
theorem sm3_hash_eq (M : List Nat) :
    sm3_hash M = digest_of ((blocks (M ++ final_padding (M.length % 64) (add64 0 M.length))).foldl
      compress_words IV) ∧
    (sm3_update (sm3_init ctx_uninit) M).buffer_len = M.length % 64 := by
  have hwf := sm3_init_wf ctx_uninit rfl
  obtain ⟨b1, b2, b3, b4⟩ := sm3_update_spec (sm3_init ctx_uninit) M hwf
  have fb := sm3_final_spec _ b1
  have hp : pending (sm3_init ctx_uninit) = [] := rfl
  rw [hp, List.nil_append] at b2 b4
  have hbl : (sm3_update (sm3_init ctx_uninit) M).buffer_len = M.length % 64 := by
    rw [← pending_length b1, b4, rem_length]
  refine ⟨?_, hbl⟩
  show (sm3_final (sm3_update (sm3_init ctx_uninit) M)).2 = _
  rw [fb.2, fb.1, b2, b3, b4, hbl, blocks_append M, List.foldl_append]
  rfl

/-- C4: for a message shorter than `2^61` bytes, `sm3_hash` is the reference Merkle-Damgard
digest: pad with `0x80`, the least number `k` of zero bytes that makes
`(len + 1 + k) mod 64 = 56` and the 8-byte big-endian bit length, fold the compression
function over the 64-byte blocks from the IV, write the state words big-endian.  The padded
message has one block more than `len / 64 + 1`, and `sm3_final` takes its extra-block
branch, exactly when `56 <= len mod 64 <= 63`. -/
theorem sm3_hash_eq_reference (M : List Nat) (k : Nat) (hM : M.length < 2 ^ 61)
    (hk : (M.length + 1 + k) % 64 = 56)
    (hmin : ∀ k', k' < k → (M.length + 1 + k') % 64 ≠ 56) :
    sm3_hash M = md_reference M k ∧
    ((blocks (md_padded M k)).length = M.length / 64 + 2
      ↔ (56 ≤ M.length % 64 ∧ M.length % 64 ≤ 63)) ∧
    ((blocks (md_padded M k)).length = M.length / 64 + 1 ↔ M.length % 64 < 56) ∧
    (add64 (sm3_update (sm3_init ctx_uninit) M).buffer_len 1 > 56
      ↔ (56 ≤ M.length % 64 ∧ M.length % 64 ≤ 63)) := by
  have hk64 : k < 64 := by
    by_contra hge
    exact hmin (k - 64) (by omega) (by omega)
  have hkv : k = (if M.length % 64 + 1 > 56 then 64 - (M.length % 64 + 1) + 56
      else 56 - (M.length % 64 + 1)) := by
    split <;> omega
  have htot : mul64 (add64 0 M.length) 8 = 8 * M.length := by
    simp only [mul64, add64]; omega
  have hpad : M ++ final_padding (M.length % 64) (add64 0 M.length) = md_padded M k := by
    simp only [final_padding, md_padded, htot, ← hkv, List.append_assoc,
      bit_len_eq_big_endian]
  obtain ⟨h1, h2⟩ := sm3_hash_eq M
  have hlen : (md_padded M k).length = M.length + 1 + k + 8 := by
    simp [md_padded, big_endian]; omega
  refine ⟨?_, ?_, ?_, ?_⟩
  · rw [h1, hpad, md_reference]
    exact digest_of_eq_flatMap _ (foldl_compress_words_length _ _ IV_length)
  · rw [blocks_length, hlen]; omega
  · rw [blocks_length, hlen]; omega
  · rw [h2]; simp only [add64]; omega

/-- Witness for C4: a 56-byte message, which needs `k = 63` zero bytes and an extra block. -/
theorem sm3_hash_eq_reference_witness :
    (List.replicate 56 0x61).length < 2 ^ 61 ∧
    ((List.replicate 56 0x61).length + 1 + 63) % 64 = 56 ∧
    (∀ k', k' < 63 → ((List.replicate 56 0x61).length + 1 + k') % 64 ≠ 56) ∧
    (sm3_hash (List.replicate 56 0x61) = md_reference (List.replicate 56 0x61) 63 ∧
    ((blocks (md_padded (List.replicate 56 0x61) 63)).length
        = (List.replicate 56 0x61).length / 64 + 2
      ↔ (56 ≤ (List.replicate 56 0x61).length % 64 ∧ (List.replicate 56 0x61).length % 64 ≤ 63)) ∧
    ((blocks (md_padded (List.replicate 56 0x61) 63)).length
        = (List.replicate 56 0x61).length / 64 + 1
      ↔ (List.replicate 56 0x61).length % 64 < 56) ∧
    (add64 (sm3_update (sm3_init ctx_uninit) (List.replicate 56 0x61)).buffer_len 1 > 56
      ↔ (56 ≤ (List.replicate 56 0x61).length % 64 ∧ (List.replicate 56 0x61).length % 64 ≤ 63))) :=
  have hmin : ∀ k', k' < 63 → ((List.replicate 56 0x61).length + 1 + k') % 64 ≠ 56 := by
    intro k' hk'
    simp only [List.length_replicate]
    omega
  ⟨by simp, by simp, hmin, sm3_hash_eq_reference (List.replicate 56 0x61) 63 (by simp) (by simp) hmin⟩

end SM3

namespace SM3

/-! ## The forged suffix -/

theorem forge_k_lt (L : Nat) : forge_k L < 64 := Nat.mod_lt _ (by decide)

theorem forge_k_eq (L : Nat) :
    forge_k L = (if L % 64 + 1 > 56 then 64 - (L % 64 + 1) + 56 else 56 - (L % 64 + 1)) := by
  simp only [forge_k, add64, sub64]
  split <;> omega

theorem forge_k_eq_spec (L : Nat) : (forge_k L : Int) = padding_zero_count L := by
  simp only [forge_k, add64, sub64, padding_zero_count]
  omega

theorem uint64_to_be_eq_big_endian (n : Nat) : uint64_to_be n = big_endian 8 n := by
  simp only [uint64_to_be, and_255, Nat.shiftRight_eq_div_pow, big_endian, List.nil_append,
    List.cons_append, List.cons.injEq, and_true]
  and_intros <;> omega

theorem big_endian_8_mod (n : Nat) : big_endian 8 (n % 2 ^ 64) = big_endian 8 n := by
  simp only [big_endian, List.nil_append, List.cons_append, List.cons.injEq, and_true]
  and_intros <;> omega

theorem big_endian_length (w n : Nat) : (big_endian w n).length = w := by
  induction w generalizing n with
  | zero => rfl
  | succ w ih => simp [big_endian, ih]

/-- The padding array of `forge_sm3`: the terminator, `k` zero bytes, the bit length, and
the part of the array that is never written. -/
theorem forge_padding_eq (L : Nat) :
    forge_padding L =
      ([0x80] ++ List.replicate (forge_k L) 0 ++ uint64_to_be (mul64 L 8)
          ++ List.replicate (119 - forge_k L) 0xAA, 9 + forge_k L) := by
  have hk := forge_k_lt L
  have hu : (uint64_to_be (mul64 L 8)).length = 8 := rfl
  simp only [forge_padding]
  generalize forge_k L = k at hk
  generalize uint64_to_be (mul64 L 8) = u at hu
  have s1 : memcpy (List.replicate 128 0xAA) 0 [0x80] 1 = [0x80] ++ List.replicate 127 0xAA := by
    simp [memcpy]
  have a1 : add64 0 1 = 1 := rfl
  have s2 : memcpy ([0x80] ++ List.replicate 127 0xAA) 1 (List.replicate k 0) k
      = ([0x80] ++ List.replicate k 0) ++ List.replicate (127 - k) 0xAA := by
    rw [memcpy_append [0x80] _ _ 1 _ rfl, List.take_replicate, List.drop_replicate, Nat.min_self]
  have a2 : add64 1 k = 1 + k := by simp only [add64]; omega
  have s3 : memcpy (([0x80] ++ List.replicate k 0) ++ List.replicate (127 - k) 0xAA) (1 + k) u 8
      = ([0x80] ++ List.replicate k 0 ++ u) ++ List.replicate (119 - k) 0xAA := by
    rw [memcpy_append ([0x80] ++ List.replicate k 0) _ _ (1 + k) _ (by simp; omega)]
    rw [List.take_of_length_le (by omega), List.drop_replicate]
    have e : 127 - k - 8 = 119 - k := by omega
    rw [e]
  have a3 : add64 (1 + k) 8 = 9 + k := by simp only [add64]; omega
  rw [s1, a1, s2, a2, s3, a3]

/-- The bytes written to `forged_message_suffix`. -/
theorem forge_suffix_eq (L : Nat) (D S : List Nat) :
    (forge_sm3 L D S).forged_message_suffix =
      [0x80] ++ List.replicate (forge_k L) 0 ++ uint64_to_be (mul64 L 8) ++ S ∧
    (forge_sm3 L D S).forged_message_suffix_len = add64 (9 + forge_k L) S.length := by
  have hu : (uint64_to_be (mul64 L 8)).length = 8 := rfl
  have hl : ([0x80] ++ List.replicate (forge_k L) 0 ++ uint64_to_be (mul64 L 8)).length
      = 9 + forge_k L := by
    simp [hu]; omega
  simp only [forge_sm3, forge_padding_eq, and_true]
  rw [List.take_left' hl]

/-- C8: the suffix written by `forge_sm3` is `0x80`, `k` zero bytes, the 8-byte big-endian
encoding of `L * 8` (its low 64 bits) and then the attacker's bytes, where
`k = ((56 - (L + 1)) mod 64 + 64) mod 64`; `0 <= k <= 63`, `(L + 1 + k) mod 64 = 56`, and the
reported length is `1 + k + 8 + len(S)`.  The suffix is an object in memory, so its length
is below `2^63`. -/
theorem forge_sm3_suffix_layout (L : Nat) (D S : List Nat) (hS : S.length < 2 ^ 63) :
    (forge_sm3 L D S).forged_message_suffix =
      [0x80] ++ List.replicate (padding_zero_count L).toNat 0 ++ big_endian 8 (L * 8) ++ S ∧
    0 ≤ padding_zero_count L ∧ padding_zero_count L ≤ 63 ∧
    ((L : Int) + 1 + padding_zero_count L) % 64 = 56 ∧
    ((forge_sm3 L D S).forged_message_suffix_len : Int)
      = 1 + padding_zero_count L + 8 + S.length ∧
    (forge_sm3 L D S).forged_message_suffix_len = (forge_sm3 L D S).forged_message_suffix.length := by
  obtain ⟨h1, h2⟩ := forge_suffix_eq L D S
  have hk := forge_k_eq_spec L
  have hklt := forge_k_lt L
  have hkn : (padding_zero_count L).toNat = forge_k L := by omega
  have hadd : add64 (9 + forge_k L) S.length = 9 + forge_k L + S.length := by
    simp only [add64]; omega
  refine ⟨?_, by omega, by omega, ?_, ?_, ?_⟩
  · rw [h1, hkn, uint64_to_be_eq_big_endian, mul64, big_endian_8_mod]
  · simp only [padding_zero_count]; omega
  · rw [h2, hadd, ← hk]; push_cast; omega
  · rw [h2, hadd, h1]
    have hu : (uint64_to_be (mul64 L 8)).length = 8 := rfl
    simp [hu]; omega

/-- Witness for C8: an original length of 47 bytes and a five-byte suffix. -/
theorem forge_sm3_suffix_layout_witness :
    [0x26, 0x61, 0x3d, 0x62, 0x63].length < 2 ^ 63 ∧
    ((forge_sm3 47 (sm3_hash (List.replicate 47 0x61)) [0x26, 0x61, 0x3d, 0x62, 0x63]).forged_message_suffix =
      [0x80] ++ List.replicate (padding_zero_count 47).toNat 0 ++ big_endian 8 (47 * 8)
        ++ [0x26, 0x61, 0x3d, 0x62, 0x63] ∧
    0 ≤ padding_zero_count 47 ∧ padding_zero_count 47 ≤ 63 ∧
    (((47 : Nat) : Int) + 1 + padding_zero_count 47) % 64 = 56 ∧
    ((forge_sm3 47 (sm3_hash (List.replicate 47 0x61)) [0x26, 0x61, 0x3d, 0x62, 0x63]).forged_message_suffix_len : Int)
      = 1 + padding_zero_count 47 + 8 + [0x26, 0x61, 0x3d, 0x62, 0x63].length ∧
    (forge_sm3 47 (sm3_hash (List.replicate 47 0x61)) [0x26, 0x61, 0x3d, 0x62, 0x63]).forged_message_suffix_len
      = (forge_sm3 47 (sm3_hash (List.replicate 47 0x61)) [0x26, 0x61, 0x3d, 0x62, 0x63]).forged_message_suffix.length) :=
  ⟨by decide, forge_sm3_suffix_layout 47 (sm3_hash (List.replicate 47 0x61))
    [0x26, 0x61, 0x3d, 0x62, 0x63] (by decide)⟩

end SM3

namespace SM3

/-! ## State words stay within 32 bits -/

theorem add32_lt (a b : Nat) : add32 a b < 2 ^ 32 := Nat.mod_lt _ (by decide)

theorem shl32_lt (x : Nat) (n : Int) : shl32 x n < 2 ^ 32 := Nat.mod_lt _ (by decide)

theorem shr32_le (x : Nat) (n : Int) : shr32 x n ≤ x := by
  simp only [shr32, Nat.shiftRight_eq_div_pow]
  exact Nat.div_le_self _ _

theorem ROTL_lt (x : Nat) (n : Int) (h : x < 2 ^ 32) : ROTL x n < 2 ^ 32 :=
  Nat.or_lt_two_pow (shl32_lt _ _) (Nat.lt_of_le_of_lt (shr32_le _ _) h)

theorem P0_lt (x : Nat) (h : x < 2 ^ 32) : P0 x < 2 ^ 32 :=
  Nat.xor_lt_two_pow (Nat.xor_lt_two_pow h (ROTL_lt _ _ h)) (ROTL_lt _ _ h)

theorem round_lt (W W_prime : List Nat) (j : Nat) (r : Regs) (h : regs_lt r) :
    regs_lt (round W W_prime j r) := by
  obtain ⟨hA, hB, hC, hD, hE, hF, hG, hH⟩ := h
  refine ⟨?_, hA, ROTL_lt _ _ hB, hC, P0_lt _ ?_, hE, ROTL_lt _ _ hF, hG⟩
  · simp only [round]; split <;> exact add32_lt _ _
  · split <;> exact add32_lt _ _

theorem rounds_lt (W W_prime : List Nat) : ∀ (n j : Nat) (r : Regs), regs_lt r →
    regs_lt (rounds W W_prime n j r) := by
  intro n
  induction n with
  | zero => intro j r h; exact h
  | succ n ih => intro j r h; exact ih (j + 1) _ (round_lt W W_prime j r h)

theorem getD_lt (s : List Nat) (i : Nat) (h : ∀ w ∈ s, w < 2 ^ 32) : s.getD i 0 < 2 ^ 32 := by
  rw [List.getD_eq_getElem?_getD]
  cases hi : s[i]? with
  | none => simp
  | some w => exact h w (List.getElem?_mem hi)

theorem compress_words_lt (state block : List Nat) (h : ∀ w ∈ state, w < 2 ^ 32) :
    ∀ w ∈ compress_words state block, w < 2 ^ 32 := by
  have hr := rounds_lt (expandW 52 (loadW block)) (primeW (expandW 52 (loadW block))) 64 0
    { A := state.getD 0 0, B := state.getD 1 0, C := state.getD 2 0, D := state.getD 3 0,
      E := state.getD 4 0, F := state.getD 5 0, G := state.getD 6 0, H := state.getD 7 0 }
    ⟨getD_lt _ _ h, getD_lt _ _ h, getD_lt _ _ h, getD_lt _ _ h,
     getD_lt _ _ h, getD_lt _ _ h, getD_lt _ _ h, getD_lt _ _ h⟩
  obtain ⟨hA, hB, hC, hD, hE, hF, hG, hH⟩ := hr
  intro w hw
  simp only [compress_words, sm3_compress, List.mem_cons, List.mem_singleton, List.not_mem_nil,
    or_false] at hw
  rcases hw with e | e | e | e | e | e | e | e <;> rw [e]
  · exact Nat.xor_lt_two_pow (getD_lt _ _ h) hA
  · exact Nat.xor_lt_two_pow (getD_lt _ _ h) hB
  · exact Nat.xor_lt_two_pow (getD_lt _ _ h) hC
  · exact Nat.xor_lt_two_pow (getD_lt _ _ h) hD
  · exact Nat.xor_lt_two_pow (getD_lt _ _ h) hE
  · exact Nat.xor_lt_two_pow (getD_lt _ _ h) hF
  · exact Nat.xor_lt_two_pow (getD_lt _ _ h) hG
  · exact Nat.xor_lt_two_pow (getD_lt _ _ h) hH

theorem foldl_compress_words_lt (bs : List (List Nat)) :
    ∀ (state : List Nat), (∀ w ∈ state, w < 2 ^ 32) →
      ∀ w ∈ bs.foldl compress_words state, w < 2 ^ 32 := by
  induction bs with
  | nil => intro state h; exact h
  | cons b bs ih => intro state h; exact ih _ (compress_words_lt state b h)

theorem IV_lt : ∀ w ∈ IV, w < 2 ^ 32 := by decide

/-! ## A digest read back as state words -/

theorem word_of_bytes (a : Nat) (h : a < 2 ^ 32) :
    ((a / 2 ^ 24 % 256) <<< 24 ||| (a / 2 ^ 16 % 256) <<< 16 ||| (a / 2 ^ 8 % 256) <<< 8
      ||| a % 256) % 2 ^ 32 = a := by
  have h3 : a % 256 < 2 ^ 8 := by omega
  have e1 : (a / 2 ^ 8 % 256) <<< 8 ||| a % 256 = 2 ^ 8 * (a / 2 ^ 8 % 256) + a % 256 := by
    rw [Nat.shiftLeft_eq, Nat.mul_comm, ← Nat.mul_add_lt_is_or h3]
  have h2 : 2 ^ 8 * (a / 2 ^ 8 % 256) + a % 256 < 2 ^ 16 := by omega
  have e2 : (a / 2 ^ 16 % 256) <<< 16 ||| (2 ^ 8 * (a / 2 ^ 8 % 256) + a % 256)
      = 2 ^ 16 * (a / 2 ^ 16 % 256) + (2 ^ 8 * (a / 2 ^ 8 % 256) + a % 256) := by
    rw [Nat.shiftLeft_eq, Nat.mul_comm, ← Nat.mul_add_lt_is_or h2]
  have h1 : 2 ^ 16 * (a / 2 ^ 16 % 256) + (2 ^ 8 * (a / 2 ^ 8 % 256) + a % 256) < 2 ^ 24 := by
    omega
  have e3 : (a / 2 ^ 24 % 256) <<< 24
        ||| (2 ^ 16 * (a / 2 ^ 16 % 256) + (2 ^ 8 * (a / 2 ^ 8 % 256) + a % 256))
      = 2 ^ 24 * (a / 2 ^ 24 % 256)
        + (2 ^ 16 * (a / 2 ^ 16 % 256) + (2 ^ 8 * (a / 2 ^ 8 % 256) + a % 256)) := by
    rw [Nat.shiftLeft_eq, Nat.mul_comm, ← Nat.mul_add_lt_is_or h1]
  rw [Nat.or_assoc, Nat.or_assoc, e1, e2, e3]
  omega

/-- Reading the digest of a state back as eight big-endian words gives the state. -/
theorem forge_initial_state_digest_of (s : List Nat) (hl : s.length = 8)
    (h : ∀ w ∈ s, w < 2 ^ 32) : forge_initial_state (digest_of s) = s := by
  match s, hl, h with
  | [a, b, c, d, e, f, g, i], _, h =>
    simp only [List.mem_cons, List.mem_singleton, List.not_mem_nil, or_false,
      forall_eq_or_imp, forall_eq] at h
    obtain ⟨ha, hb, hc, hd, he, hf, hg, hi⟩ := h
    simp only [digest_of, forge_initial_state, List.range, List.range.loop, List.flatMap_cons,
      List.flatMap_nil, uint32_to_be_eq, List.getD_cons_zero, Nat.zero_mul, Nat.reduceMul, Nat.reduceAdd, List.getD_cons_succ,
      List.map_cons, List.map_nil, List.cons_append, List.nil_append, List.append_nil]
    simp only [word_of_bytes _ ha, word_of_bytes _ hb, word_of_bytes _ hc, word_of_bytes _ hd,
      word_of_bytes _ he, word_of_bytes _ hf, word_of_bytes _ hg, word_of_bytes _ hi]

end SM3

namespace SM3

/-! ## The length-extension property -/

theorem sm3_init_with_state_wf (ctx : sm3_ctx_t) (s : List Nat) (n : Nat)
    (h : ctx.buffer.length = 64) : ctx_wf (sm3_init_with_state ctx s n) := by
  simp [ctx_wf, sm3_init_with_state, h]

/-- The forged digest as a fold of the compression function that starts from the words of
the known digest. -/
theorem forge_hash_eq (L : Nat) (D X : List Nat) :
    (forge_sm3 L D X).forged_hash =
      digest_of ((blocks (X ++ final_padding (X.length % 64)
        (add64 (add64 L (9 + forge_k L)) X.length))).foldl compress_words
          ((forge_initial_state D).take 8)) := by
  have hwf := sm3_init_with_state_wf ctx_uninit (forge_initial_state D)
    (add64 L (9 + forge_k L)) rfl
  obtain ⟨b1, b2, b3, b4⟩ := sm3_update_spec _ X hwf
  have fb := sm3_final_spec _ b1
  have hp : pending (sm3_init_with_state ctx_uninit (forge_initial_state D)
      (add64 L (9 + forge_k L))) = [] := rfl
  rw [hp, List.nil_append] at b2 b4
  have hbl : (sm3_update (sm3_init_with_state ctx_uninit (forge_initial_state D)
      (add64 L (9 + forge_k L))) X).buffer_len = X.length % 64 := by
    rw [← pending_length b1, b4, rem_length]
  simp only [forge_sm3, forge_padding_eq]
  rw [fb.2, fb.1, b2, b3, b4, hbl, blocks_append X, List.foldl_append]
  rfl

/-- The padding written by `forge_sm3` for length `L` is the padding `sm3_final` appends
after `L` bytes. -/
theorem forge_pad_eq_final_padding (L : Nat) :
    [0x80] ++ List.replicate (forge_k L) 0 ++ uint64_to_be (mul64 L 8)
      = final_padding (L % 64) (add64 0 L) := by
  have e : mul64 (add64 0 L) 8 = mul64 L 8 := by simp only [mul64, add64]; omega
  simp only [final_padding, e, List.append_assoc, bit_len_eq_big_endian,
    uint64_to_be_eq_big_endian, ← forge_k_eq]

theorem forge_pad_aligned (L : Nat) : (L + (9 + forge_k L)) % 64 = 0 := by
  rw [forge_k_eq]; split <;> omega

/-- C2: the length-extension property.  For every secret `S`, message `M` and suffix `X`,
the digest forged from `len(S) + len(M)`, `D = sm3_hash(S || M)` and `X` alone equals
`sm3_hash(S || M || forged_suffix)`, where `forged_suffix` is the suffix `forge_sm3`
writes. -/
theorem length_extension (S M X : List Nat) :
    (forge_sm3 (S ++ M).length (sm3_hash (S ++ M)) X).forged_hash
      = sm3_hash (S ++ M ++
          (forge_sm3 (S ++ M).length (sm3_hash (S ++ M)) X).forged_message_suffix) := by
  generalize S ++ M = m
  have hpadlen : ([0x80] ++ List.replicate (forge_k m.length) 0
      ++ uint64_to_be (mul64 m.length 8)).length = 9 + forge_k m.length := by
    have hu : (uint64_to_be (mul64 m.length 8)).length = 8 := rfl
    simp [hu]; omega
  have hal : (m ++ ([0x80] ++ List.replicate (forge_k m.length) 0
      ++ uint64_to_be (mul64 m.length 8))).length % 64 = 0 := by
    rw [List.length_append, hpadlen]; exact forge_pad_aligned _
  -- the state after the padded original message, and the known digest
  have hD := (sm3_hash_eq m).1
  rw [← forge_pad_eq_final_padding] at hD
  generalize hs : (blocks (m ++ ([0x80] ++ List.replicate (forge_k m.length) 0
      ++ uint64_to_be (mul64 m.length 8)))).foldl compress_words IV = s at hD
  have hsl : s.length = 8 := by rw [← hs]; exact foldl_compress_words_length _ _ IV_length
  have hslt : ∀ w ∈ s, w < 2 ^ 32 := by rw [← hs]; exact foldl_compress_words_lt _ _ IV_lt
  -- the forged side
  rw [forge_hash_eq, hD, forge_initial_state_digest_of s hsl hslt,
    List.take_of_length_le (Nat.le_of_eq hsl)]
  -- the honest side
  rw [(forge_suffix_eq _ _ _).1, (sm3_hash_eq _).1]
  have hre : (m ++ ([0x80] ++ List.replicate (forge_k m.length) 0
        ++ uint64_to_be (mul64 m.length 8) ++ X))
      = (m ++ ([0x80] ++ List.replicate (forge_k m.length) 0
        ++ uint64_to_be (mul64 m.length 8))) ++ X := by
    simp only [List.append_assoc]
  rw [hre, List.append_assoc _ X, blocks_append_aligned _ hal, List.foldl_append, hs]
  have hlen : ((m ++ ([0x80] ++ List.replicate (forge_k m.length) 0
        ++ uint64_to_be (mul64 m.length 8))) ++ X).length
      = m.length + (9 + forge_k m.length) + X.length := by
    rw [List.length_append, List.length_append, hpadlen]
  have hmod : (m.length + (9 + forge_k m.length) + X.length) % 64 = X.length % 64 := by
    have := forge_pad_aligned m.length; omega
  have htot : add64 0 (m.length + (9 + forge_k m.length) + X.length)
      = add64 (add64 m.length (9 + forge_k m.length)) X.length := by
    simp only [add64]; omega
  rw [hlen, hmod, htot]

end SM3

namespace Merkle

open SM3

/-! ## Comparison of digests and the combination rule -/

theorem memcmp_eq_zero_iff : ∀ (n : Nat) (a b : List Nat),
    memcmp a b n = 0 ↔ a.take n = b.take n := by
  intro n
  induction n with
  | zero => intro a b; simp [memcmp]
  | succ n ih =>
    intro a b
    cases a with
    | nil => cases b <;> simp [memcmp]
    | cons x xs =>
      cases b with
      | nil => simp [memcmp]
      | cons y ys =>
        by_cases hxy : x = y
        · simp [memcmp, hxy, ih]
        · have : (x : Int) - (y : Int) ≠ 0 := by omega
          simp [memcmp, hxy, this]

theorem memcmp_swap : ∀ (n : Nat) (a b : List Nat), memcmp b a n = - memcmp a b n := by
  intro n
  induction n with
  | zero => intro a b; simp [memcmp]
  | succ n ih =>
    intro a b
    cases a with
    | nil => cases b <;> simp [memcmp]
    | cons x xs =>
      cases b with
      | nil => simp [memcmp]
      | cons y ys =>
        by_cases hxy : x = y
        · subst hxy
          simp only [memcmp, ne_eq, not_true_eq_false, if_false]
          exact ih xs ys
        · have hyx : ¬ y = x := fun e => hxy e.symm
          simp [memcmp, hxy, hyx]

theorem memcmp_neg_iff_lex : ∀ (n : Nat) (a b : List Nat), a.length = n → b.length = n →
    (memcmp a b n < 0 ↔ List.Lex (· < ·) a b) := by
  intro n
  induction n with
  | zero =>
    intro a b ha hb
    have ea : a = [] := List.eq_nil_of_length_eq_zero ha
    have eb : b = [] := List.eq_nil_of_length_eq_zero hb
    subst ea; subst eb
    simp [memcmp]
  | succ n ih =>
    intro a b ha hb
    cases a with
    | nil => simp at ha
    | cons x xs =>
      cases b with
      | nil => simp at hb
      | cons y ys =>
        simp only [List.length_cons, Nat.add_right_cancel_iff] at ha hb
        by_cases hxy : x = y
        · subst hxy
          simp only [memcmp, ne_eq, not_true_eq_false, if_false, ih xs ys ha hb]
          constructor
          · intro h; exact List.Lex.cons h
          · intro h
            cases h with
            | cons h => exact h
            | rel h => exact absurd h (Nat.lt_irrefl _)
        · simp only [memcmp, ne_eq, hxy, not_false_eq_true, if_true]
          constructor
          · intro h; exact List.Lex.rel (by omega)
          · intro h
            cases h with
            | cons h => exact absurd rfl hxy
            | rel h => omega

theorem sm3_hash_length (m : List Nat) : (sm3_hash m).length = 32 := by
  rw [(sm3_hash_eq m).1]; exact digest_of_length _

theorem hash_parent_length (a b : List Nat) : (hash_parent a b).length = 32 :=
  sm3_hash_length _

theorem hash_parent_take (a b : List Nat) : (hash_parent a b).take HASH_SIZE = hash_parent a b :=
  List.take_of_length_le (Nat.le_of_eq (hash_parent_length a b))

/-- The combination does not depend on the order of its arguments. -/
theorem hash_parent_comm (a b : List Nat) : hash_parent a b = hash_parent b a := by
  have hs := memcmp_swap HASH_SIZE a b
  by_cases h1 : memcmp a b HASH_SIZE ≤ 0
  · by_cases h2 : memcmp b a HASH_SIZE ≤ 0
    · have h0 : memcmp a b HASH_SIZE = 0 := by omega
      have ht := (memcmp_eq_zero_iff HASH_SIZE a b).1 h0
      simp only [hash_parent, h1, h2, if_true, ht]
    · simp only [hash_parent, h1, h2, if_true, if_false]
  · have h2 : memcmp b a HASH_SIZE ≤ 0 := by omega
    simp only [hash_parent, h1, h2, if_true, if_false]

/-- C7: for 32-byte digests `a` and `b`, `hash_parent(a, b)` is `sm3_hash(lo || hi)` with `lo`
the byte-lexicographically smaller of the two and `hi` the other, whichever way round they
are passed; hence `hash_parent(a, b) = hash_parent(b, a)`. -/
theorem hash_parent_canonical (a b : List Nat) (ha : a.length = 32) (hb : b.length = 32) :
    (lex_le a b → hash_parent a b = sm3_hash (a ++ b)) ∧
    (lex_le b a → hash_parent a b = sm3_hash (b ++ a)) ∧
    hash_parent a b = hash_parent b a := by
  have key : ∀ x y : List Nat, x.length = 32 → y.length = 32 → lex_le x y →
      hash_parent x y = sm3_hash (x ++ y) := by
    intro x y hx hy hle
    have tx : x.take HASH_SIZE = x := List.take_of_length_le (Nat.le_of_eq hx)
    have ty : y.take HASH_SIZE = y := List.take_of_length_le (Nat.le_of_eq hy)
    have hle0 : memcmp x y HASH_SIZE ≤ 0 := by
      rcases hle with e | hlex
      · subst e
        have := (memcmp_eq_zero_iff HASH_SIZE x x).2 rfl
        omega
      · have := (memcmp_neg_iff_lex 32 x y hx hy).2 hlex
        exact Int.le_of_lt this
    simp only [hash_parent, hle0, if_true, tx, ty]
  refine ⟨key a b ha hb, ?_, hash_parent_comm a b⟩
  intro hle
  rw [hash_parent_comm a b]
  exact key b a hb ha hle

/-- Witness for C7: two distinct 32-byte digests. -/
theorem hash_parent_canonical_witness :
    (List.replicate 32 1).length = 32 ∧ (List.replicate 32 2).length = 32 ∧
    ((lex_le (List.replicate 32 1) (List.replicate 32 2) →
        hash_parent (List.replicate 32 1) (List.replicate 32 2)
          = sm3_hash (List.replicate 32 1 ++ List.replicate 32 2)) ∧
    (lex_le (List.replicate 32 2) (List.replicate 32 1) →
        hash_parent (List.replicate 32 1) (List.replicate 32 2)
          = sm3_hash (List.replicate 32 2 ++ List.replicate 32 1)) ∧
    hash_parent (List.replicate 32 1) (List.replicate 32 2)
      = hash_parent (List.replicate 32 2) (List.replicate 32 1)) :=
  ⟨by decide, by decide,
    hash_parent_canonical (List.replicate 32 1) (List.replicate 32 2) (by decide) (by decide)⟩

/-! ## Verification of an inclusion proof -/

theorem verify_loop_eq_foldl (path : List Int) : ∀ (rest pre : List (List Nat)) (cur : List Nat),
    verify_loop (pre ++ rest) path rest.length pre.length cur = rest.foldl hash_parent cur := by
  intro rest
  induction rest with
  | nil => intro pre cur; rfl
  | cons s rest ih =>
    intro pre cur
    have hget : (pre ++ s :: rest).getD pre.length [] = s := by
      rw [List.getD_eq_getElem?_getD, List.getElem?_append_right (Nat.le_refl _)]
      simp
    have hpre : pre ++ s :: rest = (pre ++ [s]) ++ rest := by simp
    have hlen : pre.length + 1 = (pre ++ [s]).length := by simp
    simp only [List.length_cons, verify_loop, hget, List.foldl_cons]
    rw [hash_parent_comm s cur, ite_self, hash_parent_take, hpre, hlen]
    exact ih (pre ++ [s]) (hash_parent cur s)

theorem foldl_hash_parent_length (proof : List (List Nat)) :
    ∀ (cur : List Nat), cur.length = 32 → (proof.foldl hash_parent cur).length = 32 := by
  induction proof with
  | nil => intro cur h; exact h
  | cons s rest ih => intro cur _; exact ih _ (hash_parent_length cur s)

/-- C9: `verify_existence_proof` returns true exactly when folding `hash_parent` over the
sibling digests of the proof, in order and starting from the leaf digest, gives the expected
root digest, whatever the side flags are; for an empty proof, exactly when the leaf digest is
the root digest. -/
theorem verify_existence_proof_iff (leaf_hash root_hash : List Nat) (proof : List (List Nat))
    (proof_path : List Int) (hl : leaf_hash.length = 32) (hr : root_hash.length = 32) :
    (verify_existence_proof leaf_hash root_hash proof proof_path proof.length = true
      ↔ proof.foldl hash_parent leaf_hash = root_hash) ∧
    (verify_existence_proof leaf_hash root_hash [] proof_path 0 = true
      ↔ leaf_hash = root_hash) := by
  have tl : leaf_hash.take HASH_SIZE = leaf_hash := List.take_of_length_le (Nat.le_of_eq hl)
  have tr : root_hash.take HASH_SIZE = root_hash := List.take_of_length_le (Nat.le_of_eq hr)
  have main : ∀ pf : List (List Nat),
      (verify_existence_proof leaf_hash root_hash pf proof_path pf.length = true
        ↔ pf.foldl hash_parent leaf_hash = root_hash) := by
    intro pf
    have hv := verify_loop_eq_foldl proof_path pf [] (leaf_hash.take HASH_SIZE)
    simp only [List.nil_append, List.length_nil, tl] at hv
    have hfl := foldl_hash_parent_length pf leaf_hash hl
    have tf : (pf.foldl hash_parent leaf_hash).take HASH_SIZE = pf.foldl hash_parent leaf_hash :=
      List.take_of_length_le (Nat.le_of_eq hfl)
    simp only [verify_existence_proof, Int.toNat_ofNat, hv, tl, decide_eq_true_eq,
      memcmp_eq_zero_iff, tf, tr]
  exact ⟨main proof, main []⟩

/-- Witness for C9: a one-step proof. -/
theorem verify_existence_proof_iff_witness :
    (List.replicate 32 1).length = 32 ∧
    (hash_parent (List.replicate 32 1) (List.replicate 32 2)).length = 32 ∧
    ((verify_existence_proof (List.replicate 32 1)
          (hash_parent (List.replicate 32 1) (List.replicate 32 2)) [List.replicate 32 2] [0]
          [List.replicate 32 2].length = true
      ↔ [List.replicate 32 2].foldl hash_parent (List.replicate 32 1)
          = hash_parent (List.replicate 32 1) (List.replicate 32 2)) ∧
    (verify_existence_proof (List.replicate 32 1)
          (hash_parent (List.replicate 32 1) (List.replicate 32 2)) [] [0] 0 = true
      ↔ List.replicate 32 1 = hash_parent (List.replicate 32 1) (List.replicate 32 2))) :=
  ⟨by decide, hash_parent_length _ _,
    verify_existence_proof_iff (List.replicate 32 1)
      (hash_parent (List.replicate 32 1) (List.replicate 32 2)) [List.replicate 32 2] [0]
      (by decide) (hash_parent_length _ _)⟩

end Merkle

namespace Merkle

open SM3

/-! ## Reading the heap -/

theorem deref_append_left (h l : Heap) (i : Nat) (hi : i < h.length) :
    deref (h ++ l) i = deref h i := by
  simp only [deref, List.getD_eq_getElem?_getD, List.getElem?_append_left hi]

theorem deref_append_length (h : Heap) (n : MerkleNode) : deref (h ++ [n]) h.length = n := by
  simp only [deref, List.getD_eq_getElem?_getD, List.getElem?_concat_length, Option.getD_some]

theorem deref_set_self (h : Heap) (i : Nat) (n : MerkleNode) (hi : i < h.length) :
    deref (h.set i n) i = n := by
  simp only [deref, List.getD_eq_getElem?_getD, List.getElem?_set_self hi, Option.getD_some]

theorem deref_set_ne (h : Heap) (i j : Nat) (n : MerkleNode) (hij : i ≠ j) :
    deref (h.set i n) j = deref h j := by
  simp only [deref, List.getD_eq_getElem?_getD, List.getElem?_set_ne hij]

/-- The effect of one iteration of the loop of `build_merkle_tree`: a new node at the end of
the heap with the two children and the combined digest, and the parent link of the children
set to it. -/
theorem build_pair_spec (h : Heap) (l r : Nat) (hl : l < h.length) (hr : r < h.length) :
    (build_pair h l r).2 = h.length ∧
    (build_pair h l r).1.length = h.length + 1 ∧
    deref (build_pair h l r).1 h.length =
      MerkleNode.mk (hash_parent (deref h l).hash (deref h r).hash) (some l) (some r) none ∧
    (∀ i, i < h.length → i ≠ l → i ≠ r → deref (build_pair h l r).1 i = deref h i) ∧
    (∀ i, i < h.length → (i = l ∨ i = r) →
      deref (build_pair h l r).1 i = { deref h i with parent := some h.length }) := by
  have hlp : l ≠ h.length := by omega
  have hrp : r ≠ h.length := by omega
  simp only [build_pair, create_node, hash_parent_take]
  generalize hn : MerkleNode.mk (hash_parent (deref h l).hash (deref h r).hash) none none none = n0
  have len1 : (h ++ [n0]).length = h.length + 1 := by simp
  have d1 : deref (h ++ [n0]) h.length = n0 := deref_append_length h n0
  rw [d1]
  generalize hh2 : (h ++ [n0]).set h.length { n0 with left := some l } = h2
  have len2 : h2.length = h.length + 1 := by rw [← hh2]; simp
  have d2 : deref h2 h.length = { n0 with left := some l } := by
    rw [← hh2]; exact deref_set_self _ _ _ (by omega)
  have d2' : ∀ i, i < h.length → deref h2 i = deref h i := by
    intro i hi
    rw [← hh2, deref_set_ne _ _ _ _ (by omega), deref_append_left _ _ _ hi]
  rw [d2]
  generalize hh3 : h2.set h.length { ({ n0 with left := some l } : MerkleNode) with right := some r } = h3
  have len3 : h3.length = h.length + 1 := by rw [← hh3]; simp [len2]
  have d3 : deref h3 h.length
      = { ({ n0 with left := some l } : MerkleNode) with right := some r } := by
    rw [← hh3]; exact deref_set_self _ _ _ (by omega)
  have d3' : ∀ i, i < h.length → deref h3 i = deref h i := by
    intro i hi
    rw [← hh3, deref_set_ne _ _ _ _ (by omega), d2' i hi]
  rw [d3' l hl]
  generalize hh4 : h3.set l { deref h l with parent := some h.length } = h4
  have len4 : h4.length = h.length + 1 := by rw [← hh4]; simp [len3]
  have d4 : deref h4 h.length
      = { ({ n0 with left := some l } : MerkleNode) with right := some r } := by
    rw [← hh4, deref_set_ne _ _ _ _ hlp, d3]
  have d4l : deref h4 l = { deref h l with parent := some h.length } := by
    rw [← hh4]; exact deref_set_self _ _ _ (by omega)
  have d4' : ∀ i, i < h.length → i ≠ l → deref h4 i = deref h i := by
    intro i hi hil
    rw [← hh4, deref_set_ne _ _ _ _ (fun e => hil e.symm), d3' i hi]
  have d4r : deref h4 r = { deref h r with parent := some h.length } ∨
      (r ≠ l ∧ deref h4 r = deref h r) := by
    by_cases hrl : r = l
    · left; rw [hrl]; exact d4l
    · right; exact ⟨hrl, d4' r hr hrl⟩
  refine ⟨trivial, by simp [len4], ?_, ?_, ?_⟩
  · rw [deref_set_ne _ _ _ _ hrp, d4, ← hn]
  · intro i hi hil hir
    rw [deref_set_ne _ _ _ _ (fun e => hir e.symm), d4' i hi hil]
  · intro i hi hcase
    by_cases hir : i = r
    · subst hir
      rw [deref_set_self _ _ _ (by omega)]
      rcases d4r with e | ⟨_, e⟩ <;> rw [e]
    · have hil : i = l := by rcases hcase with e | e; exact e; exact absurd e hir
      subst hil
      rw [deref_set_ne _ _ _ _ (fun e => hir e.symm), d4l]

end Merkle

namespace Merkle

open SM3

/-! ## One level of the tree -/

theorem heap_ext_refl (h : Heap) : heap_ext h h :=
  ⟨Nat.le_refl _, fun _ _ => ⟨rfl, rfl, rfl, fun _ => rfl⟩⟩

theorem heap_ext_trans {h1 h2 h3 : Heap} (a : heap_ext h1 h2) (b : heap_ext h2 h3) :
    heap_ext h1 h3 := by
  refine ⟨Nat.le_trans a.1 b.1, ?_⟩
  intro i hi
  obtain ⟨a1, a2, a3, a4⟩ := a.2 i hi
  obtain ⟨b1, b2, b3, b4⟩ := b.2 i (Nat.lt_of_lt_of_le hi a.1)
  refine ⟨by rw [b1, a1], by rw [b2, a2], by rw [b3, a3], ?_⟩
  intro hne
  have e := a4 hne
  rw [b4 (by rw [e]; exact hne), e]

theorem has_parent_ext {h1 h2 : Heap} (e : heap_ext h1 h2) {i : Nat} (hp : has_parent h1 i) :
    has_parent h2 i := by
  obtain ⟨p, l, r, h1p, hip, hpl, hl, hr, hlr, hlp, hrp, hh⟩ := hp
  obtain ⟨_, _, _, i4⟩ := e.2 i (by omega)
  obtain ⟨p1, p2, p3, _⟩ := e.2 p hpl
  obtain ⟨l1, _, _, _⟩ := e.2 l (by omega)
  obtain ⟨r1, _, _, _⟩ := e.2 r (by omega)
  refine ⟨p, l, r, ?_, hip, Nat.lt_of_lt_of_le hpl e.1, by rw [p2, hl], by rw [p3, hr], hlr,
    hlp, hrp, by rw [p1, l1, r1, hh]⟩
  rw [i4 (by rw [h1p]; simp), h1p]

theorem children_ok_ext {h1 h2 : Heap} (e : heap_ext h1 h2) {p : Nat} (hp : p < h1.length)
    (c : children_ok h1 p) : children_ok h2 p := by
  obtain ⟨_, p2, p3, _⟩ := e.2 p hp
  rcases c with ⟨c1, c2⟩ | ⟨l, r, c1, c2, c3, c4⟩
  · exact Or.inl ⟨by rw [p2, c1], by rw [p3, c2]⟩
  · exact Or.inr ⟨l, r, by rw [p2, c1], by rw [p3, c2], c3, c4⟩

/-- One iteration of the loop, in terms of the invariants. -/
theorem build_pair_inv (h : Heap) (l r : Nat) (hl : l < h.length) (hr : r < h.length)
    (tl : (deref h l).parent = none) (tr : (deref h r).parent = none) :
    (build_pair h l r).2 = h.length ∧
    (build_pair h l r).1.length = h.length + 1 ∧
    heap_ext h (build_pair h l r).1 ∧
    has_parent (build_pair h l r).1 l ∧ has_parent (build_pair h l r).1 r ∧
    (deref (build_pair h l r).1 h.length).parent = none ∧
    (deref (build_pair h l r).1 h.length).left = some l ∧
    (deref (build_pair h l r).1 h.length).right = some r ∧
    (deref (build_pair h l r).1 h.length).hash = hash_parent (deref h l).hash (deref h r).hash ∧
    (∀ i, i < h.length → i ≠ l → i ≠ r → deref (build_pair h l r).1 i = deref h i) := by
  obtain ⟨s1, s2, s3, s4, s5⟩ := build_pair_spec h l r hl hr
  have hx : heap_ext h (build_pair h l r).1 := by
    refine ⟨by omega, ?_⟩
    intro i hi
    by_cases hc : i = l ∨ i = r
    · rw [s5 i hi hc]
      refine ⟨rfl, rfl, rfl, ?_⟩
      intro hne
      rcases hc with e | e <;> subst e
      · exact absurd tl hne
      · exact absurd tr hne
    · have hil : i ≠ l := fun e => hc (Or.inl e)
      have hir : i ≠ r := fun e => hc (Or.inr e)
      rw [s4 i hi hil hir]
      exact ⟨rfl, rfl, rfl, fun _ => rfl⟩
  have hhash : (deref (build_pair h l r).1 h.length).hash
      = hash_parent (deref (build_pair h l r).1 l).hash (deref (build_pair h l r).1 r).hash := by
    rw [s3, (hx.2 l hl).1, (hx.2 r hr).1]
  refine ⟨s1, s2, hx, ?_, ?_, by rw [s3], by rw [s3], by rw [s3], by rw [s3], s4⟩
  · refine ⟨h.length, l, r, by rw [s5 l hl (Or.inl rfl)], hl, by omega, by rw [s3], by rw [s3],
      Or.inl rfl, hl, hr, hhash⟩
  · refine ⟨h.length, l, r, by rw [s5 r hr (Or.inr rfl)], hr, by omega, by rw [s3], by rw [s3],
      Or.inr rfl, hl, hr, hhash⟩

end Merkle

namespace Merkle

open SM3

theorem build_level_nil (h : Heap) : build_level h [] = (h, []) := rfl

theorem build_level_single (h : Heap) (l : Nat) :
    build_level h [l] = ((build_pair h l l).1, [(build_pair h l l).2]) := rfl

theorem build_level_cons (h : Heap) (l r : Nat) (rest : List Nat) :
    build_level h (l :: r :: rest) =
      ((build_level (build_pair h l r).1 rest).1,
        (build_pair h l r).2 :: (build_level (build_pair h l r).1 rest).2) := rfl

theorem level_hashes_ext {h1 h2 : Heap} (e : heap_ext h1 h2) (lv : List Nat)
    (hb : ∀ i ∈ lv, i < h1.length) : level_hashes h2 lv = level_hashes h1 lv := by
  simp only [level_hashes]
  apply List.map_congr_left
  intro i hi
  exact (e.2 i (hb i hi)).1

/-- The loop of `build_merkle_tree` over one level: every node of the level gets a parent,
the parents are the nodes allocated by the loop, in order, and their digests are the next
level of digests. -/
theorem build_level_spec : ∀ (lv : List Nat) (h : Heap), (∀ i ∈ lv, i < h.length) →
    (∀ i ∈ lv, (deref h i).parent = none) → lv.Nodup →
    heap_ext h (build_level h lv).1 ∧
    (build_level h lv).2 = List.range' h.length ((lv.length + 1) / 2) ∧
    (build_level h lv).1.length = h.length + (lv.length + 1) / 2 ∧
    (∀ i ∈ lv, has_parent (build_level h lv).1 i) ∧
    (∀ p, h.length ≤ p → p < (build_level h lv).1.length →
      (deref (build_level h lv).1 p).parent = none ∧
      ∃ l r, (deref (build_level h lv).1 p).left = some l ∧
        (deref (build_level h lv).1 p).right = some r ∧ l ∈ lv ∧ r ∈ lv) ∧
    (∀ i, i < h.length → i ∉ lv →
      (deref (build_level h lv).1 i).parent = (deref h i).parent) ∧
    level_hashes (build_level h lv).1 (build_level h lv).2 = next_level (level_hashes h lv)
  | [], h, _, _, _ => by
    rw [build_level_nil]
    refine ⟨heap_ext_refl h, rfl, rfl, ?_, ?_, ?_, rfl⟩
    · intro i hi; cases hi
    · intro p h1 h2; exact absurd h2 (by simp only []; omega)
    · intro i _ _; rfl
  | [l], h, hb, ht, _ => by
    have hl : l < h.length := hb l (List.mem_singleton.2 rfl)
    have tl : (deref h l).parent = none := ht l (List.mem_singleton.2 rfl)
    obtain ⟨p1, p2, p3, p4, _, p6, p7, p8, p9, p10⟩ := build_pair_inv h l l hl hl tl tl
    rw [build_level_single, p1]
    have hcnt : ([l].length + 1) / 2 = 1 := by simp
    refine ⟨p3, ?_, ?_, ?_, ?_, ?_, ?_⟩
    · rw [hcnt]; rfl
    · rw [hcnt]; exact p2
    · intro i hi
      rw [List.mem_singleton.1 hi]; exact p4
    · intro p h1 h2
      have e : p = h.length := by simp only [] at h2; omega
      rw [e]
      exact ⟨p6, l, l, p7, p8, List.mem_singleton.2 rfl, List.mem_singleton.2 rfl⟩
    · intro i hi hni
      have hil : i ≠ l := fun e => hni (List.mem_singleton.2 e)
      rw [p10 i hi hil hil]
    · simp only [level_hashes, List.map_cons, List.map_nil, next_level, p9]
  | l :: r :: rest, h, hb, ht, hnd => by
    have hl : l < h.length := hb l (by simp)
    have hr : r < h.length := hb r (by simp)
    have tl : (deref h l).parent = none := ht l (by simp)
    have tr : (deref h r).parent = none := ht r (by simp)
    have hlrest : l ∉ rest := by
      intro hm
      have := (List.nodup_cons.1 hnd).1
      exact this (List.mem_cons_of_mem _ hm)
    have hrrest : r ∉ rest := (List.nodup_cons.1 (List.nodup_cons.1 hnd).2).1
    have hndr : rest.Nodup := (List.nodup_cons.1 (List.nodup_cons.1 hnd).2).2
    obtain ⟨p1, p2, p3, p4, p5, p6, p7, p8, p9, p10⟩ := build_pair_inv h l r hl hr tl tr
    have hbr : ∀ i ∈ rest, i < h.length := fun i hi => hb i (by simp [hi])
    have hne : ∀ i ∈ rest, i ≠ l ∧ i ≠ r := by
      intro i hi
      exact ⟨fun e => hlrest (e ▸ hi), fun e => hrrest (e ▸ hi)⟩
    have hb1 : ∀ i ∈ rest, i < (build_pair h l r).1.length := by
      intro i hi; rw [p2]; have := hbr i hi; omega
    have ht1 : ∀ i ∈ rest, (deref (build_pair h l r).1 i).parent = none := by
      intro i hi
      rw [p10 i (hbr i hi) (hne i hi).1 (hne i hi).2]
      exact ht i (by simp [hi])
    obtain ⟨q1, q2, q3, q4, q5, q6, q7⟩ := build_level_spec rest (build_pair h l r).1 hb1 ht1 hndr
    rw [build_level_cons, p1]
    have hcnt : (rest.length + 1 + 1 + 1) / 2 = (rest.length + 1) / 2 + 1 := by omega
    have hnew : h.length ∉ rest := fun hm => Nat.lt_irrefl _ (hbr _ hm)
    refine ⟨heap_ext_trans p3 q1, ?_, ?_, ?_, ?_, ?_, ?_⟩
    · simp only [List.length_cons, hcnt, List.range'_succ]
      rw [q2, p2]
    · simp only [List.length_cons, hcnt]
      rw [q3, p2]; omega
    · intro i hi
      rcases List.mem_cons.1 hi with e | hi
      · rw [e]; exact has_parent_ext q1 p4
      · rcases List.mem_cons.1 hi with e | hi
        · rw [e]; exact has_parent_ext q1 p5
        · exact q4 i hi
    · intro p h1 h2
      by_cases e : p = h.length
      · rw [e]
        obtain ⟨_, x2, x3, _⟩ := q1.2 h.length (by rw [p2]; omega)
        refine ⟨?_, l, r, by rw [x2, p7], by rw [x3, p8], by simp, by simp⟩
        rw [q6 h.length (by rw [p2]; omega) hnew, p6]
      · obtain ⟨y1, l', r', y2, y3, y4, y5⟩ := q5 p (by rw [p2]; omega) h2
        exact ⟨y1, l', r', y2, y3, by simp [y4], by simp [y5]⟩
    · intro i hi hni
      have hil : i ≠ l := fun e => hni (by simp [e])
      have hir : i ≠ r := fun e => hni (by simp [e])
      have hirest : i ∉ rest := fun hm => hni (by simp [hm])
      rw [q6 i (by rw [p2]; omega) hirest, p10 i hi hil hir]
    · have e1 : level_hashes (build_level (build_pair h l r).1 rest).1
            (h.length :: (build_level (build_pair h l r).1 rest).2)
          = (deref (build_level (build_pair h l r).1 rest).1 h.length).hash
            :: level_hashes (build_level (build_pair h l r).1 rest).1
                (build_level (build_pair h l r).1 rest).2 := rfl
      have e2 : level_hashes h (l :: r :: rest)
          = (deref h l).hash :: (deref h r).hash :: level_hashes h rest := rfl
      rw [e1, e2, q7, level_hashes_ext p3 rest hbr, (q1.2 h.length (by rw [p2]; omega)).1, p9]
      rfl

end Merkle

namespace Merkle

open SM3

/-! ## The whole tree -/

theorem level_inv_step (h : Heap) (lv : List Nat) (inv : level_inv h lv) :
    level_inv (build_level h lv).1 (build_level h lv).2 := by
  obtain ⟨q1, q2, q3, q4, q5, q6, _⟩ := build_level_spec lv h inv.bound inv.top inv.nodup
  refine ⟨?_, ?_, ?_, ?_, ?_⟩
  · intro i hi
    rw [q2, List.mem_range'_1] at hi
    rw [q3]; exact hi.2
  · intro i hi
    rw [q2, List.mem_range'_1] at hi
    exact (q5 i hi.1 (by rw [q3]; exact hi.2)).1
  · rw [q2]; exact List.nodup_range' _ _
  · intro i hi hni
    by_cases hlt : i < h.length
    · by_cases hm : i ∈ lv
      · exact q4 i hm
      · exact has_parent_ext q1 (inv.below i hlt hm)
    · exfalso
      apply hni
      rw [q2, List.mem_range'_1]
      rw [q3] at hi
      exact ⟨by omega, hi⟩
  · intro p hp
    by_cases hlt : p < h.length
    · exact children_ok_ext q1 hlt (inv.children p hlt)
    · obtain ⟨_, l, r, y2, y3, y4, y5⟩ := q5 p (by omega) hp
      have := inv.bound l y4
      have := inv.bound r y5
      exact Or.inr ⟨l, r, y2, y3, by omega, by omega⟩

theorem build_merkle_tree_rec_succ (fuel : Nat) (h : Heap) (lv : List Nat) :
    build_merkle_tree_rec (fuel + 1) h lv =
      if lv.length = 0 then (h, none)
      else if lv.length = 1 then (h, lv.head?)
      else build_merkle_tree_rec fuel (build_level h lv).1 (build_level h lv).2 := rfl

theorem merkle_root_single (x : List Nat) : merkle_root [x] = x := by
  rw [merkle_root]

theorem merkle_root_step (d : List (List Nat)) (hd : 2 ≤ d.length) :
    merkle_root d = merkle_root (next_level d) := by
  match d, hd with
  | x :: y :: rest, _ => rw [merkle_root]

/-- The recursion of `build_merkle_tree` on a non-empty level with enough fuel returns a root:
the heap is extended, the root is the only node without a parent, the nodes added are internal
nodes, and the digest of the root is the root of the duplicate-last rule for the digests of
the level. -/
theorem build_merkle_tree_rec_spec : ∀ (fuel : Nat) (h : Heap) (lv : List Nat),
    lv.length ≤ fuel → lv ≠ [] → level_inv h lv →
    ∃ root, (build_merkle_tree_rec fuel h lv).2 = some root ∧
      heap_ext h (build_merkle_tree_rec fuel h lv).1 ∧
      level_inv (build_merkle_tree_rec fuel h lv).1 [root] ∧
      (∀ p, h.length ≤ p → p < (build_merkle_tree_rec fuel h lv).1.length →
        ¬ is_leaf (build_merkle_tree_rec fuel h lv).1 p) ∧
      (deref (build_merkle_tree_rec fuel h lv).1 root).hash = merkle_root (level_hashes h lv) := by
  intro fuel
  induction fuel with
  | zero =>
    intro h lv hf hne _
    exact absurd (List.eq_nil_of_length_eq_zero (by omega)) hne
  | succ fuel ih =>
    intro h lv hf hne inv
    have hpos : lv.length ≠ 0 := fun e => hne (List.eq_nil_of_length_eq_zero e)
    rw [build_merkle_tree_rec_succ]
    by_cases h1 : lv.length = 1
    · match lv, h1, inv with
      | [root], _, inv =>
        have e : (if [root].length = 0 then (h, none)
            else if [root].length = 1 then (h, [root].head?)
            else build_merkle_tree_rec fuel (build_level h [root]).1 (build_level h [root]).2)
            = (h, some root) := rfl
        rw [e]
        refine ⟨root, rfl, heap_ext_refl h, inv, ?_, ?_⟩
        · intro p a b
          have b2 : p < h.length := b
          omega
        · simp only [level_hashes, List.map_cons, List.map_nil, merkle_root_single]
    · simp only [hpos, h1, if_false]
      obtain ⟨q1, q2, q3, _, q5, _, q7⟩ := build_level_spec lv h inv.bound inv.top inv.nodup
      have inv1 := level_inv_step h lv inv
      have hlen : (build_level h lv).2.length = (lv.length + 1) / 2 := by
        rw [q2, List.length_range']
      have hne1 : (build_level h lv).2 ≠ [] := by
        intro e
        rw [e] at hlen
        simp only [List.length_nil] at hlen
        omega
      obtain ⟨root, r1, r2, r3, r4, r5⟩ :=
        ih (build_level h lv).1 (build_level h lv).2 (by rw [hlen]; omega) hne1 inv1
      refine ⟨root, r1, heap_ext_trans q1 r2, r3, ?_, ?_⟩
      · intro p a b
        by_cases hlt : p < (build_level h lv).1.length
        · obtain ⟨_, l, r, y2, _, _, _⟩ := q5 p a hlt
          intro hleaf
          have := (r2.2 p hlt).2.1
          rw [hleaf.1, y2] at this
          cases this
        · exact r4 p (by omega) b
      · rw [r5, q7]
        have h2 : 2 ≤ (level_hashes h lv).length := by
          simp only [level_hashes, List.length_map]; omega
        rw [merkle_root_step _ h2]

/-- The leaf node `create_node` makes for a digest. -/
theorem create_leaves_spec : ∀ (ds : List (List Nat)) (h : Heap),
    create_leaves h ds =
      (h ++ ds.map (fun d => MerkleNode.mk (d.take HASH_SIZE) none none none),
        List.range' h.length ds.length)
  | [], h => by simp [create_leaves]
  | d :: ds, h => by
    have ih := create_leaves_spec ds (h ++ [MerkleNode.mk (d.take HASH_SIZE) none none none])
    simp only [create_leaves, create_node, ih]
    simp [List.range'_succ]

theorem deref_leaves : ∀ (ds : List (List Nat)) (pre : Heap) (i : Nat) (hi : i < ds.length),
    deref (pre ++ ds.map (fun d => MerkleNode.mk (d.take HASH_SIZE) none none none))
      (pre.length + i) = MerkleNode.mk ((ds.get ⟨i, hi⟩).take HASH_SIZE) none none none := by
  intro ds pre i hi
  simp only [deref, List.getD_eq_getElem?_getD]
  rw [List.getElem?_append_right (by omega)]
  simp [hi]

end Merkle

namespace Merkle

open SM3

theorem level_hashes_leaves : ∀ (ds : List (List Nat)) (pre : Heap),
    level_hashes (pre ++ ds.map (fun d => MerkleNode.mk (d.take HASH_SIZE) none none none))
      (List.range' pre.length ds.length) = ds.map (fun d => d.take HASH_SIZE)
  | [], _ => rfl
  | d :: ds, pre => by
    have ih := level_hashes_leaves ds (pre ++ [MerkleNode.mk (d.take HASH_SIZE) none none none])
    have h0 := deref_leaves (d :: ds) pre 0 (by simp)
    simp only [List.length_append, List.length_singleton, List.append_assoc,
      List.singleton_append] at ih
    simp only [Nat.add_zero, List.get_eq_getElem, List.getElem_cons_zero, List.map_cons] at h0
    simp only [List.length_cons, List.range'_succ, level_hashes, List.map_cons]
    simp only [level_hashes, List.map_cons] at ih
    rw [ih, h0]

theorem build_from_digests_eq (ds : List (List Nat)) :
    build_from_digests ds =
      build_merkle_tree_rec ds.length
        (ds.map (fun d => MerkleNode.mk (d.take HASH_SIZE) none none none))
        (List.range' 0 ds.length) := by
  have e := create_leaves_spec ds []
  simp only [List.nil_append, List.length_nil] at e
  simp only [build_from_digests, e, build_merkle_tree, List.length_range']

theorem leaves_level_inv (ds : List (List Nat)) :
    level_inv (ds.map (fun d => MerkleNode.mk (d.take HASH_SIZE) none none none))
      (List.range' 0 ds.length) := by
  have hd : ∀ i (hi : i < ds.length),
      deref (ds.map (fun d => MerkleNode.mk (d.take HASH_SIZE) none none none)) i
        = MerkleNode.mk ((ds.get ⟨i, hi⟩).take HASH_SIZE) none none none := by
    intro i hi
    have := deref_leaves ds [] i hi
    simpa using this
  refine ⟨?_, ?_, List.nodup_range' _ _, ?_, ?_⟩
  · intro i hi
    rw [List.mem_range'_1] at hi
    simp only [List.length_map]; omega
  · intro i hi
    rw [List.mem_range'_1] at hi
    rw [hd i (by omega)]
  · intro i hi hni
    exfalso; apply hni
    rw [List.mem_range'_1]
    simp only [List.length_map] at hi
    omega
  · intro p hp
    simp only [List.length_map] at hp
    left
    simp only [is_leaf, hd p hp, and_self]

/-- The tree built from a non-empty list of digests: there is a root, it is the only node
without a parent, the first `n` nodes are the leaves with the digests given, all other nodes
are internal, and the digest of the root follows the duplicate-last rule. -/
theorem build_from_digests_spec (ds : List (List Nat)) (hne : ds ≠ []) :
    ∃ root, (build_from_digests ds).2 = some root ∧
      level_inv (build_from_digests ds).1 [root] ∧
      ds.length ≤ (build_from_digests ds).1.length ∧
      (∀ i (hi : i < ds.length), is_leaf (build_from_digests ds).1 i ∧
        (deref (build_from_digests ds).1 i).hash = (ds.get ⟨i, hi⟩).take HASH_SIZE) ∧
      (∀ p, ds.length ≤ p → p < (build_from_digests ds).1.length →
        ¬ is_leaf (build_from_digests ds).1 p) ∧
      (deref (build_from_digests ds).1 root).hash
        = merkle_root (ds.map (fun d => d.take HASH_SIZE)) := by
  have inv := leaves_level_inv ds
  have hne2 : List.range' 0 ds.length ≠ [] := by
    intro e
    have := congrArg List.length e
    simp only [List.length_range', List.length_nil] at this
    exact hne (List.eq_nil_of_length_eq_zero this)
  obtain ⟨root, r1, r2, r3, r4, r5⟩ := build_merkle_tree_rec_spec ds.length _ _
    (by simp) hne2 inv
  rw [← build_from_digests_eq] at r1 r2 r3 r4 r5
  have hl := level_hashes_leaves ds []
  simp only [List.nil_append, List.length_nil] at hl
  rw [hl] at r5
  simp only [List.length_map] at r4
  refine ⟨root, r1, r3, ?_, ?_, r4, r5⟩
  · have := r2.1; simpa using this
  · intro i hi
    have hd := deref_leaves ds [] i hi
    simp only [List.nil_append, List.length_nil, Nat.zero_add] at hd
    obtain ⟨e1, e2, e3, _⟩ := r2.2 i (by simpa using hi)
    rw [hd] at e1 e2 e3
    exact ⟨⟨e2, e3⟩, e1⟩

/-- C10: the duplicate-last build rule.  For a non-empty list `d` of 32-byte leaf digests,
`build_merkle_tree` returns a root whose digest is `R(d)`, where `R([x]) = x` and
`R(d) = R(next(d))` for two or more digests, `next(d)` combining every full adjacent pair and,
for an odd length, the last digest with itself.  For three leaves the root digest is
`hash_parent(hash_parent(d0, d1), hash_parent(d2, d2))`. -/
theorem build_merkle_tree_duplicate_last (ds : List (List Nat)) (hne : ds ≠ [])
    (h32 : ∀ d ∈ ds, d.length = 32) :
    (build_from_digests ds).2 ≠ none ∧
    (derefOpt (build_from_digests ds).1 (build_from_digests ds).2).hash = merkle_root ds ∧
    (∀ d0 d1 d2 : List Nat, ds = [d0, d1, d2] →
      (derefOpt (build_from_digests ds).1 (build_from_digests ds).2).hash
        = hash_parent (hash_parent d0 d1) (hash_parent d2 d2)) := by
  obtain ⟨root, r1, _, _, _, _, r6⟩ := build_from_digests_spec ds hne
  have hmap : ds.map (fun d => d.take HASH_SIZE) = ds := by
    conv => rhs; rw [← List.map_id ds]
    apply List.map_congr_left
    intro d hd
    exact List.take_of_length_le (Nat.le_of_eq (h32 d hd))
  rw [hmap] at r6
  have hroot : (derefOpt (build_from_digests ds).1 (build_from_digests ds).2).hash
      = merkle_root ds := by
    rw [r1]; exact r6
  refine ⟨by rw [r1]; simp, hroot, ?_⟩
  intro d0 d1 d2 e
  rw [hroot, e, merkle_root_step _ (by simp)]
  simp only [next_level]
  rw [merkle_root_step _ (by simp)]
  simp only [next_level, merkle_root_single]

/-- Witness for C10: three 32-byte leaf digests. -/
theorem build_merkle_tree_duplicate_last_witness :
    [List.replicate 32 1, List.replicate 32 2, List.replicate 32 3] ≠ [] ∧
    (∀ d ∈ [List.replicate 32 1, List.replicate 32 2, List.replicate 32 3], d.length = 32) ∧
    ((build_from_digests [List.replicate 32 1, List.replicate 32 2, List.replicate 32 3]).2
        ≠ none ∧
    (derefOpt (build_from_digests [List.replicate 32 1, List.replicate 32 2, List.replicate 32 3]).1
        (build_from_digests [List.replicate 32 1, List.replicate 32 2, List.replicate 32 3]).2).hash
      = merkle_root [List.replicate 32 1, List.replicate 32 2, List.replicate 32 3] ∧
    (∀ d0 d1 d2 : List Nat,
      [List.replicate 32 1, List.replicate 32 2, List.replicate 32 3] = [d0, d1, d2] →
      (derefOpt (build_from_digests [List.replicate 32 1, List.replicate 32 2, List.replicate 32 3]).1
        (build_from_digests [List.replicate 32 1, List.replicate 32 2, List.replicate 32 3]).2).hash
        = hash_parent (hash_parent d0 d1) (hash_parent d2 d2))) :=
  ⟨by simp, by decide,
    build_merkle_tree_duplicate_last [List.replicate 32 1, List.replicate 32 2, List.replicate 32 3]
      (by simp) (by decide)⟩

end Merkle

namespace Merkle

open SM3

/-! ## Only the first 32 bytes of a digest matter -/

theorem memcmp_take_left : ∀ (n : Nat) (a b : List Nat), memcmp (a.take n) b n = memcmp a b n := by
  intro n
  induction n with
  | zero => intro a b; simp [memcmp]
  | succ n ih =>
    intro a b
    cases a with
    | nil => rfl
    | cons x xs =>
      cases b with
      | nil => simp [memcmp]
      | cons y ys => simp only [List.take_succ_cons, memcmp, ih]

theorem hash_parent_take_left (a b : List Nat) :
    hash_parent (a.take HASH_SIZE) b = hash_parent a b := by
  simp only [hash_parent, memcmp_take_left, List.take_take, Nat.min_self]

theorem hash_parent_take_right (a b : List Nat) :
    hash_parent a (b.take HASH_SIZE) = hash_parent a b := by
  rw [hash_parent_comm, hash_parent_take_left, hash_parent_comm]

theorem foldl_hash_parent_congr (pf : List (List Nat)) (a b : List Nat)
    (h : a.take HASH_SIZE = b.take HASH_SIZE) :
    (pf.foldl hash_parent a).take HASH_SIZE = (pf.foldl hash_parent b).take HASH_SIZE := by
  cases pf with
  | nil => exact h
  | cons s rest =>
    have e : hash_parent a s = hash_parent b s := by
      rw [← hash_parent_take_left a, ← hash_parent_take_left b, h]
    simp only [List.foldl_cons, e]

/-! ## Every node is below the root -/

theorem reach_trans {h : Heap} {a b c : Nat} (r1 : reach h a b) (r2 : reach h b c) :
    reach h a c := by
  induction r1 with
  | refl => exact r2
  | left hl _ ih => exact reach.left hl (ih r2)
  | right hr _ ih => exact reach.right hr (ih r2)

theorem reach_le {h : Heap} (hc : ∀ p, p < h.length → children_ok h p) {i j : Nat}
    (r : reach h i j) (hi : i < h.length) : j ≤ i := by
  induction r with
  | refl => exact Nat.le_refl _
  | @left a l b hl _ ih =>
    rcases hc a hi with ⟨c1, _⟩ | ⟨l2, r2, c1, _, c3, _⟩
    · rw [c1] at hl; cases hl
    · rw [c1] at hl
      have e : l2 = l := Option.some.inj hl
      have := ih (by omega)
      omega
  | @right a r b hr _ ih =>
    rcases hc a hi with ⟨_, c2⟩ | ⟨l2, r2, _, c2, _, c4⟩
    · rw [c2] at hr; cases hr
    · rw [c2] at hr
      have e : r2 = r := Option.some.inj hr
      have := ih (by omega)
      omega

theorem all_reach {h : Heap} {root : Nat} (inv : level_inv h [root]) :
    ∀ (k i : Nat), h.length - i ≤ k → i < h.length → reach h root i := by
  intro k
  induction k with
  | zero => intro i hk hi; omega
  | succ k ih =>
    intro i hk hi
    by_cases e : i = root
    · rw [e]; exact reach.refl _
    · obtain ⟨p, l, r, _, hip, hpl, hl, hr, hlr, _, _, _⟩ :=
        inv.below i hi (fun hm => e (List.mem_singleton.1 hm))
      have rp := ih p (by omega) hpl
      rcases hlr with e1 | e1
      · exact reach_trans rp (reach.left (e1 ▸ hl) (reach.refl _))
      · exact reach_trans rp (reach.right (e1 ▸ hr) (reach.refl _))

/-! ## The search for a leaf -/

theorem find_leaf_succ (fuel : Nat) (h : Heap) (node : Nat) (t : List Nat) :
    find_leaf (fuel + 1) h (some node) t =
      if (deref h node).left = none ∧ (deref h node).right = none then
        (if memcmp (deref h node).hash t HASH_SIZE = 0 then some node else none)
      else
        match find_leaf fuel h (deref h node).left t with
        | some found => some found
        | none => find_leaf fuel h (deref h node).right t := rfl

theorem find_leaf_sound (h : Heap) (t : List Nat) : ∀ (fuel : Nat) (o : Option Nat) (f : Nat),
    find_leaf fuel h o t = some f →
    ∃ i, o = some i ∧ reach h i f ∧ is_leaf h f ∧ memcmp (deref h f).hash t HASH_SIZE = 0 := by
  intro fuel
  induction fuel with
  | zero => intro o f hf; simp [find_leaf] at hf
  | succ fuel ih =>
    intro o f hf
    cases o with
    | none => simp [find_leaf] at hf
    | some node =>
      rw [find_leaf_succ] at hf
      by_cases hleaf : (deref h node).left = none ∧ (deref h node).right = none
      · rw [if_pos hleaf] at hf
        by_cases hm : memcmp (deref h node).hash t HASH_SIZE = 0
        · rw [if_pos hm] at hf
          have e : node = f := Option.some.inj hf
          subst e
          exact ⟨node, rfl, reach.refl _, hleaf, hm⟩
        · rw [if_neg hm] at hf; cases hf
      · rw [if_neg hleaf] at hf
        cases hfl : find_leaf fuel h (deref h node).left t with
        | some found =>
          rw [hfl] at hf
          have e : found = f := Option.some.inj hf
          subst e
          obtain ⟨l, e1, e2, e3, e4⟩ := ih _ _ hfl
          exact ⟨node, rfl, reach.left e1 e2, e3, e4⟩
        | none =>
          rw [hfl] at hf
          obtain ⟨r, e1, e2, e3, e4⟩ := ih _ _ hf
          exact ⟨node, rfl, reach.right e1 e2, e3, e4⟩

theorem find_leaf_complete (h : Heap) (t : List Nat)
    (hc : ∀ p, p < h.length → children_ok h p) : ∀ (fuel i : Nat), i < fuel → i < h.length →
    ∀ j, reach h i j → is_leaf h j → memcmp (deref h j).hash t HASH_SIZE = 0 →
    ∃ f, find_leaf fuel h (some i) t = some f := by
  intro fuel
  induction fuel with
  | zero => intro i hi; omega
  | succ fuel ih =>
    intro i hif hil j r hleaf hm
    rw [find_leaf_succ]
    by_cases hi : (deref h i).left = none ∧ (deref h i).right = none
    · rw [if_pos hi]
      have e : j = i := by
        cases r with
        | refl => rfl
        | left hl _ => rw [hi.1] at hl; cases hl
        | right hr _ => rw [hi.2] at hr; cases hr
      subst e
      rw [if_pos hm]
      exact ⟨j, rfl⟩
    · rw [if_neg hi]
      rcases hc i hil with c | ⟨l, r', c1, c2, c3, c4⟩
      · exact absurd c hi
      · rw [c1, c2]
        cases hfl : find_leaf fuel h (some l) t with
        | some found => exact ⟨found, rfl⟩
        | none =>
          simp only []
          cases r with
          | refl => exact absurd hleaf hi
          | left hl rl =>
            rw [c1] at hl
            have e := Option.some.inj hl
            subst e
            obtain ⟨f, hf⟩ := ih l (by omega) (by omega) j rl hleaf hm
            rw [hf] at hfl; cases hfl
          | right hr rr =>
            rw [c2] at hr
            have e := Option.some.inj hr
            subst e
            exact ih r' (by omega) (by omega) j rr hleaf hm

end Merkle

namespace Merkle

open SM3

/-! ## The walk to the root -/

theorem proof_walk_none (fuel : Nat) (h : Heap) (c : Nat) (hp : (deref h c).parent = none) :
    proof_walk fuel h c = ([], []) := by
  cases fuel with
  | zero => rfl
  | succ fuel => simp only [proof_walk, hp]

theorem proof_walk_some (fuel : Nat) (h : Heap) (c p : Nat)
    (hp : (deref h c).parent = some p) :
    proof_walk (fuel + 1) h c =
      ((if (deref h p).left = some c then (derefOpt h (deref h p).right).hash.take HASH_SIZE
          else (derefOpt h (deref h p).left).hash.take HASH_SIZE) :: (proof_walk fuel h p).1,
       (if (deref h p).left = some c then 1 else 0) :: (proof_walk fuel h p).2) := by
  simp only [proof_walk, hp]
  split <;> rfl

/-- The walk from any node of a built tree records sibling digests that fold, from the digest
of the node, to the digest of the root; it records as many side flags as digests. -/
theorem proof_walk_spec {h : Heap} {root : Nat} (inv : level_inv h [root]) :
    ∀ (fuel c : Nat), c < h.length → h.length - 1 - c ≤ fuel →
      (proof_walk fuel h c).1.foldl hash_parent (deref h c).hash = (deref h root).hash ∧
      (proof_walk fuel h c).2.length = (proof_walk fuel h c).1.length := by
  intro fuel
  induction fuel with
  | zero =>
    intro c hc hf
    by_cases e : c = root
    · rw [e]; exact ⟨rfl, rfl⟩
    · obtain ⟨p, _, _, _, hip, hpl, _⟩ := inv.below c hc (fun hm => e (List.mem_singleton.1 hm))
      omega
  | succ fuel ih =>
    intro c hc hf
    by_cases e : c = root
    · rw [e, proof_walk_none _ _ _ (inv.top root (List.mem_singleton.2 rfl))]
      exact ⟨rfl, rfl⟩
    · obtain ⟨p, l, r, hpar, hip, hpl, hl, hr, hlr, _, _, hh⟩ :=
        inv.below c hc (fun hm => e (List.mem_singleton.1 hm))
      obtain ⟨i1, i2⟩ := ih p hpl (by omega)
      rw [proof_walk_some fuel h c p hpar]
      refine ⟨?_, by simp only [List.length_cons, i2]⟩
      simp only [List.foldl_cons]
      have step : hash_parent (deref h c).hash
          (if (deref h p).left = some c then (derefOpt h (deref h p).right).hash.take HASH_SIZE
            else (derefOpt h (deref h p).left).hash.take HASH_SIZE) = (deref h p).hash := by
        by_cases hlc : (deref h p).left = some c
        · rw [if_pos hlc, hr, hash_parent_take_right, hh]
          have e1 : l = c := by rw [hl] at hlc; exact Option.some.inj hlc
          rw [e1]; rfl
        · rw [if_neg hlc, hl, hash_parent_take_right, hh]
          have e1 : r = c := by
            rcases hlr with e1 | e1
            · exact absurd (e1 ▸ hl) hlc
            · exact e1
          rw [e1, hash_parent_comm]; rfl
      rw [step]; exact i1

/-- C3: Merkle round trip.  For every non-empty list of leaf digests (of any length, with or
without duplicates) and every digest `L` of the list, `get_existence_proof` on the tree built
by `build_merkle_tree` reports that the leaf is found, and `verify_existence_proof` accepts
the proof it returns against the digest of the root. -/
theorem merkle_round_trip (ds : List (List Nat)) (L : List Nat) (hne : ds ≠ [])
    (hL : L ∈ ds) :
    (get_existence_proof (build_from_digests ds).1 (build_from_digests ds).2 L).ret = 1 ∧
    verify_existence_proof L
      (derefOpt (build_from_digests ds).1 (build_from_digests ds).2).hash
      (get_existence_proof (build_from_digests ds).1 (build_from_digests ds).2 L).proof
      (get_existence_proof (build_from_digests ds).1 (build_from_digests ds).2 L).proof_path
      (get_existence_proof (build_from_digests ds).1 (build_from_digests ds).2 L).proof_len
      = true := by
  obtain ⟨root, r1, inv, r3, r4, _, _⟩ := build_from_digests_spec ds hne
  generalize (build_from_digests ds).1 = H at r1 inv r3 r4 ⊢
  rw [r1]
  have hroot : root < H.length := inv.bound root (List.mem_singleton.2 rfl)
  -- the leaf that carries `L`
  obtain ⟨i, hi, hget⟩ := List.getElem_of_mem hL
  obtain ⟨leaf_i, hash_i⟩ := r4 i hi
  have hmatch : memcmp (deref H i).hash L HASH_SIZE = 0 := by
    rw [memcmp_eq_zero_iff, hash_i, List.get_eq_getElem, hget, List.take_take, Nat.min_self]
  have hreach : reach H root i := all_reach inv H.length i (by omega) (by omega)
  -- the search finds a leaf with that digest
  obtain ⟨f, hf⟩ := find_leaf_complete H L inv.children (H.length + 1) root (by omega) hroot
    i hreach leaf_i hmatch
  obtain ⟨root2, e1, freach, _, fmatch⟩ := find_leaf_sound H L _ _ _ hf
  have e2 : root2 = root := (Option.some.inj e1).symm
  subst e2
  have hfl : f < H.length := by
    have := reach_le inv.children freach hroot
    omega
  obtain ⟨w1, w2⟩ := proof_walk_spec inv H.length f hfl (by omega)
  have hg : get_existence_proof H (some root2) L =
      { ret := 1, proof := (proof_walk H.length H f).1,
        proof_path := (proof_walk H.length H f).2,
        proof_len := ((proof_walk H.length H f).1.length : Int) } := by
    simp only [get_existence_proof, hf]
  rw [hg]
  refine ⟨rfl, ?_⟩
  have hv := verify_loop_eq_foldl (proof_walk H.length H f).2 (proof_walk H.length H f).1 []
    (L.take HASH_SIZE)
  simp only [List.nil_append, List.length_nil] at hv
  have htake : (L.take HASH_SIZE).take HASH_SIZE = (deref H f).hash.take HASH_SIZE := by
    rw [List.take_take, Nat.min_self]
    exact ((memcmp_eq_zero_iff _ _ _).1 fmatch).symm
  have hc := foldl_hash_parent_congr (proof_walk H.length H f).1 _ _ htake
  rw [w1] at hc
  simp only [verify_existence_proof, Int.toNat_ofNat, hv, decide_eq_true_eq, memcmp_eq_zero_iff,
    derefOpt]
  exact hc

/-- Witness for C3: three leaves, two of them with the same digest. -/
theorem merkle_round_trip_witness :
    [List.replicate 32 1, List.replicate 32 1, List.replicate 32 2] ≠ [] ∧
    List.replicate 32 2 ∈ [List.replicate 32 1, List.replicate 32 1, List.replicate 32 2] ∧
    ((get_existence_proof
        (build_from_digests [List.replicate 32 1, List.replicate 32 1, List.replicate 32 2]).1
        (build_from_digests [List.replicate 32 1, List.replicate 32 1, List.replicate 32 2]).2
        (List.replicate 32 2)).ret = 1 ∧
    verify_existence_proof (List.replicate 32 2)
      (derefOpt
        (build_from_digests [List.replicate 32 1, List.replicate 32 1, List.replicate 32 2]).1
        (build_from_digests [List.replicate 32 1, List.replicate 32 1, List.replicate 32 2]).2).hash
      (get_existence_proof
        (build_from_digests [List.replicate 32 1, List.replicate 32 1, List.replicate 32 2]).1
        (build_from_digests [List.replicate 32 1, List.replicate 32 1, List.replicate 32 2]).2
        (List.replicate 32 2)).proof
      (get_existence_proof
        (build_from_digests [List.replicate 32 1, List.replicate 32 1, List.replicate 32 2]).1
        (build_from_digests [List.replicate 32 1, List.replicate 32 1, List.replicate 32 2]).2
        (List.replicate 32 2)).proof_path
      (get_existence_proof
        (build_from_digests [List.replicate 32 1, List.replicate 32 1, List.replicate 32 2]).1
        (build_from_digests [List.replicate 32 1, List.replicate 32 1, List.replicate 32 2]).2
        (List.replicate 32 2)).proof_len
      = true) :=
  ⟨by simp, by simp,
    merkle_round_trip [List.replicate 32 1, List.replicate 32 1, List.replicate 32 2]
      (List.replicate 32 2) (by simp) (by simp)⟩

end Merkle

namespace Merkle

open SM3

/-! ## When `build_merkle_tree` returns a root -/

theorem build_level_length : ∀ (lv : List Nat) (h : Heap),
    (build_level h lv).2.length = (lv.length + 1) / 2
  | [], _ => rfl
  | [l], h => by rw [build_level_single]; simp
  | l :: r :: rest, h => by
    have ih := build_level_length rest (build_pair h l r).1
    rw [build_level_cons]
    simp only [List.length_cons, ih]
    omega

theorem build_merkle_tree_rec_some : ∀ (fuel : Nat) (h : Heap) (lv : List Nat),
    lv.length ≤ fuel → lv ≠ [] → (build_merkle_tree_rec fuel h lv).2 ≠ none := by
  intro fuel
  induction fuel with
  | zero =>
    intro h lv hf hne
    exact absurd (List.eq_nil_of_length_eq_zero (by omega)) hne
  | succ fuel ih =>
    intro h lv hf hne
    have hpos : lv.length ≠ 0 := fun e => hne (List.eq_nil_of_length_eq_zero e)
    rw [build_merkle_tree_rec_succ]
    by_cases h1 : lv.length = 1
    · rw [if_neg hpos, if_pos h1]
      cases lv with
      | nil => exact absurd rfl hne
      | cons a t => simp
    · rw [if_neg hpos, if_neg h1]
      have hl := build_level_length lv h
      apply ih
      · rw [hl]; omega
      · intro e
        rw [e] at hl
        simp only [List.length_nil] at hl
        omega

/-- C13: `build_merkle_tree` fails exactly on an empty leaf list.  For `count == 0` it returns
the null pointer, which is how the function reports a failure, and leaves the heap as it was;
for every list with `count >= 1` it returns a root (allocation never fails in the
embedding). -/
theorem build_merkle_tree_fails_iff_empty (h : Heap) (leaves : List Nat) :
    ((build_merkle_tree h leaves).2 = none ↔ leaves = []) ∧
    build_merkle_tree h [] = (h, none) ∧
    (leaves.length ≥ 1 → ∃ root, (build_merkle_tree h leaves).2 = some root) := by
  have hsome : leaves ≠ [] → (build_merkle_tree h leaves).2 ≠ none :=
    fun hne => build_merkle_tree_rec_some leaves.length h leaves (Nat.le_refl _) hne
  refine ⟨⟨?_, ?_⟩, rfl, ?_⟩
  · intro hn
    by_contra hne
    exact hsome hne hn
  · intro e; rw [e]; rfl
  · intro hlen
    have hne : leaves ≠ [] := by
      intro e; rw [e] at hlen; simp at hlen
    cases hr : (build_merkle_tree h leaves).2 with
    | none => exact absurd hr (hsome hne)
    | some root => exact ⟨root, rfl⟩

/-! ## A tree of one leaf -/

theorem create_node_eq (h : Heap) (d : List Nat) :
    create_node h d = (h ++ [MerkleNode.mk (d.take HASH_SIZE) none none none], h.length) := rfl

/-- C11: a tree of one leaf.  `build_merkle_tree` on a list of exactly one leaf returns that
leaf as the root and leaves the heap untouched; for a leaf made by `create_node` from a
32-byte digest the root carries that digest and has no parent and no children, and
`get_existence_proof` for the digest finds the leaf and returns a proof of length 0. -/
theorem single_leaf_tree (h : Heap) (leaf : Nat) (d : List Nat) (hd : d.length = 32) :
    build_merkle_tree h [leaf] = (h, some leaf) ∧
    deref (create_node h d).1 (create_node h d).2 = MerkleNode.mk d none none none ∧
    build_merkle_tree (create_node h d).1 [(create_node h d).2]
      = ((create_node h d).1, some (create_node h d).2) ∧
    get_existence_proof (create_node h d).1 (some (create_node h d).2) d
      = { ret := 1, proof := [], proof_path := [], proof_len := 0 } ∧
    build_from_digests [d] = ([MerkleNode.mk d none none none], some 0) := by
  have ht : d.take HASH_SIZE = d := List.take_of_length_le (Nat.le_of_eq hd)
  have hn : deref (create_node h d).1 (create_node h d).2 = MerkleNode.mk d none none none := by
    rw [create_node_eq, ht]
    exact deref_append_length h _
  refine ⟨rfl, hn, rfl, ?_, ?_⟩
  · have hfind : find_leaf ((create_node h d).1.length + 1) (create_node h d).1
        (some (create_node h d).2) d = some (create_node h d).2 := by
      rw [find_leaf_succ, hn]
      have hm : memcmp d d HASH_SIZE = 0 := (memcmp_eq_zero_iff _ _ _).2 rfl
      simp only [and_self, if_true, hm]
    have hwalk : proof_walk (create_node h d).1.length (create_node h d).1 (create_node h d).2
        = ([], []) := proof_walk_none _ _ _ (by rw [hn])
    simp only [get_existence_proof, hfind, hwalk]
    rfl
  · simp only [build_from_digests, create_leaves, create_node, List.nil_append, List.length_nil,
      ht]
    rfl

/-- Witness for C11: one 32-byte digest, in a heap that already holds another node. -/
theorem single_leaf_tree_witness :
    (List.replicate 32 7).length = 32 ∧
    (build_merkle_tree [MerkleNode.mk (List.replicate 32 1) none none none] [0]
      = ([MerkleNode.mk (List.replicate 32 1) none none none], some 0) ∧
    deref (create_node [MerkleNode.mk (List.replicate 32 1) none none none]
        (List.replicate 32 7)).1
      (create_node [MerkleNode.mk (List.replicate 32 1) none none none] (List.replicate 32 7)).2
      = MerkleNode.mk (List.replicate 32 7) none none none ∧
    build_merkle_tree
      (create_node [MerkleNode.mk (List.replicate 32 1) none none none] (List.replicate 32 7)).1
      [(create_node [MerkleNode.mk (List.replicate 32 1) none none none] (List.replicate 32 7)).2]
      = ((create_node [MerkleNode.mk (List.replicate 32 1) none none none]
          (List.replicate 32 7)).1,
        some (create_node [MerkleNode.mk (List.replicate 32 1) none none none]
          (List.replicate 32 7)).2) ∧
    get_existence_proof
      (create_node [MerkleNode.mk (List.replicate 32 1) none none none] (List.replicate 32 7)).1
      (some (create_node [MerkleNode.mk (List.replicate 32 1) none none none]
        (List.replicate 32 7)).2) (List.replicate 32 7)
      = { ret := 1, proof := [], proof_path := [], proof_len := 0 } ∧
    build_from_digests [List.replicate 32 7]
      = ([MerkleNode.mk (List.replicate 32 7) none none none], some 0)) :=
  ⟨by decide, single_leaf_tree [MerkleNode.mk (List.replicate 32 1) none none none] 0
    (List.replicate 32 7) (by decide)⟩

end Merkle

namespace Merkle

open SM3

/-! ## When the search finds a leaf -/

/-- The search on a built tree finds a leaf exactly when one of the leaves given to the build
has the first 32 bytes of the target; the leaf it finds is one of them. -/
theorem find_leaf_built (ds : List (List Nat)) (target : List Nat) (hne : ds ≠ []) :
    ((∃ d ∈ ds, d.take HASH_SIZE = target.take HASH_SIZE) →
      ∃ f, find_leaf ((build_from_digests ds).1.length + 1) (build_from_digests ds).1
        (build_from_digests ds).2 target = some f) ∧
    (∀ f, find_leaf ((build_from_digests ds).1.length + 1) (build_from_digests ds).1
        (build_from_digests ds).2 target = some f →
      ∃ d ∈ ds, d.take HASH_SIZE = target.take HASH_SIZE) := by
  obtain ⟨root, r1, inv, r3, r4, r5, _⟩ := build_from_digests_spec ds hne
  generalize (build_from_digests ds).1 = H at r1 inv r3 r4 r5 ⊢
  rw [r1]
  have hroot : root < H.length := inv.bound root (List.mem_singleton.2 rfl)
  refine ⟨?_, ?_⟩
  · rintro ⟨d, hd, hmatch⟩
    obtain ⟨i, hi, hget⟩ := List.getElem_of_mem hd
    obtain ⟨leaf_i, hash_i⟩ := r4 i hi
    have hm : memcmp (deref H i).hash target HASH_SIZE = 0 := by
      rw [memcmp_eq_zero_iff, hash_i, List.get_eq_getElem, hget, List.take_take, Nat.min_self]
      exact hmatch
    have hreach : reach H root i := all_reach inv H.length i (by omega) (by omega)
    exact find_leaf_complete H target inv.children (H.length + 1) root (by omega) hroot
      i hreach leaf_i hm
  · intro f hf
    obtain ⟨root2, e1, freach, fleaf, fmatch⟩ := find_leaf_sound H target _ _ _ hf
    have e2 : root2 = root := (Option.some.inj e1).symm
    subst e2
    have hfl : f < H.length := by
      have := reach_le inv.children freach hroot
      omega
    have hfn : f < ds.length := by
      by_contra hge
      exact r5 f (by omega) hfl fleaf
    obtain ⟨_, hash_f⟩ := r4 f hfn
    refine ⟨ds.get ⟨f, hfn⟩, List.get_mem _ _ _, ?_⟩
    have := (memcmp_eq_zero_iff _ _ _).1 fmatch
    rw [hash_f, List.take_take, Nat.min_self] at this
    exact this

theorem get_existence_proof_ret (h : Heap) (root : Option Nat) (target : List Nat) :
    (find_leaf (h.length + 1) h root target = none →
      get_existence_proof h root target
        = { ret := 0, proof := [], proof_path := [], proof_len := 0 }) ∧
    (∀ f, find_leaf (h.length + 1) h root target = some f →
      (get_existence_proof h root target).ret = 1) := by
  refine ⟨?_, ?_⟩
  · intro hf; simp only [get_existence_proof, hf]
  · intro f hf; simp only [get_existence_proof, hf]

/-- C12: `get_existence_proof` reports "not found" exactly when the target is absent.  For a
tree built from a non-empty list of 32-byte leaf digests and a 32-byte target, it returns 0,
with `*proof_len` set to 0, if and only if no leaf digest equals the target, and 1 otherwise;
in particular a target that is the digest of an internal node only is not found. -/
theorem get_existence_proof_not_found_iff (ds : List (List Nat)) (target : List Nat)
    (hne : ds ≠ []) (h32 : ∀ d ∈ ds, d.length = 32) (ht : target.length = 32) :
    ((get_existence_proof (build_from_digests ds).1 (build_from_digests ds).2 target).ret = 0
      ↔ target ∉ ds) ∧
    ((get_existence_proof (build_from_digests ds).1 (build_from_digests ds).2 target).ret = 1
      ↔ target ∈ ds) ∧
    (target ∉ ds →
      get_existence_proof (build_from_digests ds).1 (build_from_digests ds).2 target
        = { ret := 0, proof := [], proof_path := [], proof_len := 0 }) ∧
    (∀ p, ds.length ≤ p → p < (build_from_digests ds).1.length →
      (deref (build_from_digests ds).1 p).hash = target → target ∉ ds →
      (get_existence_proof (build_from_digests ds).1 (build_from_digests ds).2 target).ret = 0) := by
  obtain ⟨fc, fs⟩ := find_leaf_built ds target hne
  obtain ⟨g0, g1⟩ := get_existence_proof_ret (build_from_digests ds).1 (build_from_digests ds).2
    target
  have tt : target.take HASH_SIZE = target := List.take_of_length_le (Nat.le_of_eq ht)
  have hmem : (∃ d ∈ ds, d.take HASH_SIZE = target.take HASH_SIZE) ↔ target ∈ ds := by
    constructor
    · rintro ⟨d, hd, e⟩
      have td : d.take HASH_SIZE = d := List.take_of_length_le (Nat.le_of_eq (h32 d hd))
      rw [tt, td] at e
      rw [← e]; exact hd
    · intro hm; exact ⟨target, hm, rfl⟩
  have hin : target ∈ ds →
      (get_existence_proof (build_from_digests ds).1 (build_from_digests ds).2 target).ret = 1 := by
    intro hm
    obtain ⟨f, hf⟩ := fc (hmem.2 hm)
    exact g1 f hf
  have hout : target ∉ ds →
      get_existence_proof (build_from_digests ds).1 (build_from_digests ds).2 target
        = { ret := 0, proof := [], proof_path := [], proof_len := 0 } := by
    intro hm
    apply g0
    cases hf : find_leaf ((build_from_digests ds).1.length + 1) (build_from_digests ds).1
        (build_from_digests ds).2 target with
    | none => rfl
    | some f => exact absurd (hmem.1 (fs f hf)) hm
  refine ⟨⟨?_, ?_⟩, ⟨?_, hin⟩, hout, ?_⟩
  · intro h0 hm
    have := hin hm
    rw [h0] at this
    exact absurd this (by decide)
  · intro hm; rw [hout hm]
  · intro h1
    by_contra hm
    rw [hout hm] at h1
    exact absurd h1 (by decide)
  · intro p _ _ _ hm
    rw [hout hm]

/-- Witness for C12: two leaves and a target that is neither of them. -/
theorem get_existence_proof_not_found_iff_witness :
    [List.replicate 32 1, List.replicate 32 2] ≠ [] ∧
    (∀ d ∈ [List.replicate 32 1, List.replicate 32 2], d.length = 32) ∧
    (List.replicate 32 3).length = 32 ∧
    (((get_existence_proof (build_from_digests [List.replicate 32 1, List.replicate 32 2]).1
        (build_from_digests [List.replicate 32 1, List.replicate 32 2]).2
        (List.replicate 32 3)).ret = 0
      ↔ List.replicate 32 3 ∉ [List.replicate 32 1, List.replicate 32 2]) ∧
    ((get_existence_proof (build_from_digests [List.replicate 32 1, List.replicate 32 2]).1
        (build_from_digests [List.replicate 32 1, List.replicate 32 2]).2
        (List.replicate 32 3)).ret = 1
      ↔ List.replicate 32 3 ∈ [List.replicate 32 1, List.replicate 32 2]) ∧
    (List.replicate 32 3 ∉ [List.replicate 32 1, List.replicate 32 2] →
      get_existence_proof (build_from_digests [List.replicate 32 1, List.replicate 32 2]).1
        (build_from_digests [List.replicate 32 1, List.replicate 32 2]).2 (List.replicate 32 3)
        = { ret := 0, proof := [], proof_path := [], proof_len := 0 }) ∧
    (∀ p, [List.replicate 32 1, List.replicate 32 2].length ≤ p →
      p < (build_from_digests [List.replicate 32 1, List.replicate 32 2]).1.length →
      (deref (build_from_digests [List.replicate 32 1, List.replicate 32 2]).1 p).hash
        = List.replicate 32 3 →
      List.replicate 32 3 ∉ [List.replicate 32 1, List.replicate 32 2] →
      (get_existence_proof (build_from_digests [List.replicate 32 1, List.replicate 32 2]).1
        (build_from_digests [List.replicate 32 1, List.replicate 32 2]).2
        (List.replicate 32 3)).ret = 0)) :=
  ⟨by simp, by decide, by decide,
    get_existence_proof_not_found_iff [List.replicate 32 1, List.replicate 32 2]
      (List.replicate 32 3) (by simp) (by decide) (by decide)⟩

end Merkle

namespace Merkle

open SM3

/-! ## The digest of an internal node -/

theorem internal_ok_ext {h1 h2 : Heap} (e : heap_ext h1 h2) {p : Nat} (hp : p < h1.length)
    (c : internal_ok h1 p) : internal_ok h2 p := by
  obtain ⟨l, r, c1, c2, c3, c4, c5⟩ := c
  obtain ⟨p1, p2, p3, _⟩ := e.2 p hp
  obtain ⟨l1, _, _, _⟩ := e.2 l (by omega)
  obtain ⟨r1, _, _, _⟩ := e.2 r (by omega)
  exact ⟨l, r, by rw [p2, c1], by rw [p3, c2], c3, c4, by rw [p1, l1, r1, c5]⟩

theorem build_pair_internal (h : Heap) (l r : Nat) (hl : l < h.length) (hr : r < h.length)
    (tl : (deref h l).parent = none) (tr : (deref h r).parent = none) :
    internal_ok (build_pair h l r).1 h.length := by
  obtain ⟨_, _, p3, _, _, _, p7, p8, p9, _⟩ := build_pair_inv h l r hl hr tl tr
  refine ⟨l, r, p7, p8, hl, hr, ?_⟩
  rw [p9, (p3.2 l hl).1, (p3.2 r hr).1]

/-- Every node allocated by the loop over one level is an internal node in good order. -/
theorem build_level_internal : ∀ (lv : List Nat) (h : Heap), (∀ i ∈ lv, i < h.length) →
    (∀ i ∈ lv, (deref h i).parent = none) → lv.Nodup →
    ∀ p, h.length ≤ p → p < (build_level h lv).1.length → internal_ok (build_level h lv).1 p
  | [], h, _, _, _ => by
    intro p h1 h2
    rw [build_level_nil] at h2
    exact absurd h2 (by simp only []; omega)
  | [l], h, hb, ht, _ => by
    intro p h1 h2
    have hl : l < h.length := hb l (List.mem_singleton.2 rfl)
    have tl : (deref h l).parent = none := ht l (List.mem_singleton.2 rfl)
    obtain ⟨_, p2, _⟩ := build_pair_inv h l l hl hl tl tl
    rw [build_level_single] at h2 ⊢
    have e : p = h.length := by simp only [] at h2; omega
    rw [e]
    exact build_pair_internal h l l hl hl tl tl
  | l :: r :: rest, h, hb, ht, hnd => by
    intro p h1 h2
    have hl : l < h.length := hb l (by simp)
    have hr : r < h.length := hb r (by simp)
    have tl : (deref h l).parent = none := ht l (by simp)
    have tr : (deref h r).parent = none := ht r (by simp)
    have hlrest : l ∉ rest := by
      intro hm
      exact (List.nodup_cons.1 hnd).1 (List.mem_cons_of_mem _ hm)
    have hrrest : r ∉ rest := (List.nodup_cons.1 (List.nodup_cons.1 hnd).2).1
    have hndr : rest.Nodup := (List.nodup_cons.1 (List.nodup_cons.1 hnd).2).2
    obtain ⟨_, p2, _, _, _, _, _, _, _, p10⟩ := build_pair_inv h l r hl hr tl tr
    have hbr : ∀ i ∈ rest, i < h.length := fun i hi => hb i (by simp [hi])
    have hb1 : ∀ i ∈ rest, i < (build_pair h l r).1.length := by
      intro i hi; rw [p2]; have := hbr i hi; omega
    have ht1 : ∀ i ∈ rest, (deref (build_pair h l r).1 i).parent = none := by
      intro i hi
      rw [p10 i (hbr i hi) (fun e => hlrest (e ▸ hi)) (fun e => hrrest (e ▸ hi))]
      exact ht i (by simp [hi])
    obtain ⟨q1, _⟩ := build_level_spec rest (build_pair h l r).1 hb1 ht1 hndr
    rw [build_level_cons] at h2 ⊢
    by_cases e : p = h.length
    · rw [e]
      exact internal_ok_ext q1 (by rw [p2]; omega) (build_pair_internal h l r hl hr tl tr)
    · exact build_level_internal rest (build_pair h l r).1 hb1 ht1 hndr p (by rw [p2]; omega) h2

theorem build_merkle_tree_rec_internal : ∀ (fuel : Nat) (h : Heap) (lv : List Nat),
    lv.length ≤ fuel → lv ≠ [] → level_inv h lv →
    ∀ p, h.length ≤ p → p < (build_merkle_tree_rec fuel h lv).1.length →
      internal_ok (build_merkle_tree_rec fuel h lv).1 p := by
  intro fuel
  induction fuel with
  | zero =>
    intro h lv hf hne _
    exact absurd (List.eq_nil_of_length_eq_zero (by omega)) hne
  | succ fuel ih =>
    intro h lv hf hne inv p hp1 hp2
    have hpos : lv.length ≠ 0 := fun e => hne (List.eq_nil_of_length_eq_zero e)
    rw [build_merkle_tree_rec_succ] at hp2 ⊢
    by_cases h1 : lv.length = 1
    · rw [if_neg hpos, if_pos h1] at hp2
      have hp3 : p < h.length := hp2
      omega
    · rw [if_neg hpos, if_neg h1] at hp2 ⊢
      have inv1 := level_inv_step h lv inv
      have hlen := build_level_length lv h
      have hne1 : (build_level h lv).2 ≠ [] := by
        intro e
        rw [e] at hlen
        simp only [List.length_nil] at hlen
        omega
      have hfuel : (build_level h lv).2.length ≤ fuel := by rw [hlen]; omega
      by_cases hlt : p < (build_level h lv).1.length
      · obtain ⟨_, _, r2, _⟩ :=
          build_merkle_tree_rec_spec fuel (build_level h lv).1 (build_level h lv).2 hfuel hne1 inv1
        exact internal_ok_ext r2 hlt
          (build_level_internal lv h inv.bound inv.top inv.nodup p hp1 hlt)
      · exact ih (build_level h lv).1 (build_level h lv).2 hfuel hne1 inv1 p (by omega) hp2

/-- C19: the tree node invariant.  In the tree built from a non-empty list of 32-byte leaf
digests, the first `n` nodes are the leaves, each with the digest it was given and no
children; every other node is internal, with two children and the digest
`hash_parent(left.hash, right.hash)`; the parent link of every node but the root points to a
node that has it as left or right child; and the root has no parent. -/
theorem tree_node_invariant (ds : List (List Nat)) (hne : ds ≠ [])
    (h32 : ∀ d ∈ ds, d.length = 32) :
    ∃ root, (build_from_digests ds).2 = some root ∧
      root < (build_from_digests ds).1.length ∧
      (deref (build_from_digests ds).1 root).parent = none ∧
      (∀ i (hi : i < ds.length), is_leaf (build_from_digests ds).1 i ∧
        (deref (build_from_digests ds).1 i).hash = ds.get ⟨i, hi⟩) ∧
      (∀ p, ds.length ≤ p → p < (build_from_digests ds).1.length →
        ∃ l r, (deref (build_from_digests ds).1 p).left = some l ∧
          (deref (build_from_digests ds).1 p).right = some r ∧
          l < (build_from_digests ds).1.length ∧ r < (build_from_digests ds).1.length ∧
          (deref (build_from_digests ds).1 p).hash
            = hash_parent (deref (build_from_digests ds).1 l).hash
                (deref (build_from_digests ds).1 r).hash) ∧
      (∀ i, i < (build_from_digests ds).1.length → i ≠ root →
        ∃ p, (deref (build_from_digests ds).1 i).parent = some p ∧
          p < (build_from_digests ds).1.length ∧
          ((deref (build_from_digests ds).1 p).left = some i ∨
            (deref (build_from_digests ds).1 p).right = some i)) := by
  obtain ⟨root, r1, inv, _, r4, _, _⟩ := build_from_digests_spec ds hne
  have hint : ∀ p, ds.length ≤ p → p < (build_from_digests ds).1.length →
      internal_ok (build_from_digests ds).1 p := by
    have hne2 : List.range' 0 ds.length ≠ [] := by
      intro e
      have := congrArg List.length e
      simp only [List.length_range', List.length_nil] at this
      exact hne (List.eq_nil_of_length_eq_zero this)
    have := build_merkle_tree_rec_internal ds.length _ _ (by simp) hne2 (leaves_level_inv ds)
    rw [← build_from_digests_eq] at this
    simpa using this
  refine ⟨root, r1, inv.bound root (List.mem_singleton.2 rfl),
    inv.top root (List.mem_singleton.2 rfl), ?_, ?_, ?_⟩
  · intro i hi
    obtain ⟨a, b⟩ := r4 i hi
    refine ⟨a, ?_⟩
    rw [b]
    exact List.take_of_length_le (Nat.le_of_eq (h32 _ (List.get_mem _ _ _)))
  · intro p hp1 hp2
    obtain ⟨l, r, c1, c2, c3, c4, c5⟩ := hint p hp1 hp2
    exact ⟨l, r, c1, c2, by omega, by omega, c5⟩
  · intro i hi hir
    obtain ⟨p, l, r, a1, _, a3, a4, a5, a6, _⟩ :=
      inv.below i hi (fun hm => hir (List.mem_singleton.1 hm))
    refine ⟨p, a1, a3, ?_⟩
    rcases a6 with e | e
    · left; rw [a4, e]
    · right; rw [a5, e]

/-- Witness for C19: three leaves, so that the last one is paired with itself. -/
theorem tree_node_invariant_witness :
    [List.replicate 32 1, List.replicate 32 2, List.replicate 32 3] ≠ [] ∧
    (∀ d ∈ [List.replicate 32 1, List.replicate 32 2, List.replicate 32 3], d.length = 32) ∧
    (∃ root,
      (build_from_digests [List.replicate 32 1, List.replicate 32 2, List.replicate 32 3]).2
        = some root ∧
      root < (build_from_digests
        [List.replicate 32 1, List.replicate 32 2, List.replicate 32 3]).1.length ∧
      (deref (build_from_digests
        [List.replicate 32 1, List.replicate 32 2, List.replicate 32 3]).1 root).parent = none ∧
      (∀ i (hi : i < [List.replicate 32 1, List.replicate 32 2, List.replicate 32 3].length),
        is_leaf (build_from_digests
          [List.replicate 32 1, List.replicate 32 2, List.replicate 32 3]).1 i ∧
        (deref (build_from_digests
          [List.replicate 32 1, List.replicate 32 2, List.replicate 32 3]).1 i).hash
          = [List.replicate 32 1, List.replicate 32 2, List.replicate 32 3].get ⟨i, hi⟩) ∧
      (∀ p, [List.replicate 32 1, List.replicate 32 2, List.replicate 32 3].length ≤ p →
        p < (build_from_digests
          [List.replicate 32 1, List.replicate 32 2, List.replicate 32 3]).1.length →
        ∃ l r,
          (deref (build_from_digests
            [List.replicate 32 1, List.replicate 32 2, List.replicate 32 3]).1 p).left = some l ∧
          (deref (build_from_digests
            [List.replicate 32 1, List.replicate 32 2, List.replicate 32 3]).1 p).right = some r ∧
          l < (build_from_digests
            [List.replicate 32 1, List.replicate 32 2, List.replicate 32 3]).1.length ∧
          r < (build_from_digests
            [List.replicate 32 1, List.replicate 32 2, List.replicate 32 3]).1.length ∧
          (deref (build_from_digests
            [List.replicate 32 1, List.replicate 32 2, List.replicate 32 3]).1 p).hash
            = hash_parent
                (deref (build_from_digests
                  [List.replicate 32 1, List.replicate 32 2, List.replicate 32 3]).1 l).hash
                (deref (build_from_digests
                  [List.replicate 32 1, List.replicate 32 2, List.replicate 32 3]).1 r).hash) ∧
      (∀ i, i < (build_from_digests
          [List.replicate 32 1, List.replicate 32 2, List.replicate 32 3]).1.length →
        i ≠ root →
        ∃ p,
          (deref (build_from_digests
            [List.replicate 32 1, List.replicate 32 2, List.replicate 32 3]).1 i).parent
            = some p ∧
          p < (build_from_digests
            [List.replicate 32 1, List.replicate 32 2, List.replicate 32 3]).1.length ∧
          ((deref (build_from_digests
              [List.replicate 32 1, List.replicate 32 2, List.replicate 32 3]).1 p).left
              = some i ∨
            (deref (build_from_digests
              [List.replicate 32 1, List.replicate 32 2, List.replicate 32 3]).1 p).right
              = some i))) :=
  ⟨by simp, by decide,
    tree_node_invariant [List.replicate 32 1, List.replicate 32 2, List.replicate 32 3]
      (by simp) (by decide)⟩

end Merkle

namespace SM3

/-! ## Contexts that cannot be told apart -/

theorem ctx_equiv_update {c1 c2 : sm3_ctx_t} (e : ctx_equiv c1 c2) (data : List Nat) :
    ctx_equiv (sm3_update c1 data) (sm3_update c2 data) := by
  obtain ⟨w1, w2, es, et, _, ep⟩ := e
  obtain ⟨a1, a2, a3, a4⟩ := sm3_update_spec c1 data w1
  obtain ⟨b1, b2, b3, b4⟩ := sm3_update_spec c2 data w2
  refine ⟨a1, b1, by rw [a2, b2, es, ep], by rw [a3, b3, et], ?_, by rw [a4, b4, ep]⟩
  rw [← pending_length a1, ← pending_length b1, a4, b4, ep]

theorem ctx_equiv_foldl : ∀ (pieces : List (List Nat)) {c1 c2 : sm3_ctx_t}, ctx_equiv c1 c2 →
    ctx_equiv (pieces.foldl sm3_update c1) (pieces.foldl sm3_update c2) := by
  intro pieces
  induction pieces with
  | nil => intro c1 c2 e; exact e
  | cons d ds ih => intro c1 c2 e; exact ih (ctx_equiv_update e d)

theorem ctx_equiv_final {c1 c2 : sm3_ctx_t} (e : ctx_equiv c1 c2) :
    (sm3_final c1).2 = (sm3_final c2).2 := by
  obtain ⟨w1, w2, es, et, el, ep⟩ := e
  have f1 := sm3_final_spec c1 w1
  have f2 := sm3_final_spec c2 w2
  rw [f1.2, f2.2, f1.1, f2.1, es, et, el, ep]

theorem sm3_init_equiv (c1 c2 : sm3_ctx_t) (h1 : c1.buffer.length = 64)
    (h2 : c2.buffer.length = 64) : ctx_equiv (sm3_init c1) (sm3_init c2) :=
  ⟨sm3_init_wf c1 h1, sm3_init_wf c2 h2, rfl, rfl, rfl, rfl⟩

/-- C18: determinism and size.  `sm3_hash(M)` has exactly 32 bytes and depends on nothing
but the bytes of `M`: whatever the local context of `sm3_hash` holds before `sm3_init`, the
digest written is the same. -/
theorem sm3_hash_deterministic (ctx0 ctx1 : sm3_ctx_t) (M : List Nat)
    (h0 : ctx0.buffer.length = 64) (h1 : ctx1.buffer.length = 64) :
    (sm3_hash M).length = 32 ∧
    (sm3_final (sm3_update (sm3_init ctx0) M)).2 = sm3_hash M ∧
    (sm3_final (sm3_update (sm3_init ctx0) M)).2 = (sm3_final (sm3_update (sm3_init ctx1) M)).2 := by
  have len : (sm3_hash M).length = 32 := by
    rw [(sm3_hash_eq M).1]; exact digest_of_length _
  refine ⟨len, ?_, ?_⟩
  · exact ctx_equiv_final (ctx_equiv_update (sm3_init_equiv ctx0 ctx_uninit h0 rfl) M)
  · exact ctx_equiv_final (ctx_equiv_update (sm3_init_equiv ctx0 ctx1 h0 h1) M)

/-- Witness for C18: two contexts with different garbage. -/
theorem sm3_hash_deterministic_witness :
    ctx_uninit.buffer.length = 64 ∧
    (sm3_ctx_t.mk [1, 2, 3] 77 (List.replicate 64 0x55) 12).buffer.length = 64 ∧
    ((sm3_hash [0x61, 0x62, 0x63]).length = 32 ∧
    (sm3_final (sm3_update (sm3_init ctx_uninit) [0x61, 0x62, 0x63])).2
      = sm3_hash [0x61, 0x62, 0x63] ∧
    (sm3_final (sm3_update (sm3_init ctx_uninit) [0x61, 0x62, 0x63])).2
      = (sm3_final (sm3_update
          (sm3_init (sm3_ctx_t.mk [1, 2, 3] 77 (List.replicate 64 0x55) 12))
          [0x61, 0x62, 0x63])).2) :=
  ⟨by decide, by decide,
    sm3_hash_deterministic ctx_uninit (sm3_ctx_t.mk [1, 2, 3] 77 (List.replicate 64 0x55) 12)
      [0x61, 0x62, 0x63] (by decide) (by decide)⟩

/-! ## The streaming-context invariant -/

theorem rem_eq_drop (l : List Nat) : rem l = l.drop (l.length - l.length % 64) := by
  have e : 64 * (l.length / 64) = l.length - l.length % 64 := by omega
  rw [rem, e]

/-- C20: the streaming-context invariant.  `buffer_len < 64` holds after `sm3_init` and after
`sm3_init_with_state`, and `sm3_update` preserves it for every input, the empty one included;
after any sequence of updates from `sm3_init`, `buffer_len` is `total_len mod 64` and the
first `buffer_len` bytes of the buffer are the last `buffer_len` bytes fed. -/
theorem streaming_context_invariant (ctx0 ctx : sm3_ctx_t) (s : List Nat) (n : Nat)
    (data : List Nat) (pieces : List (List Nat))
    (h0 : ctx0.buffer.length = 64) (hb : ctx.buffer.length = 64) (hl : ctx.buffer_len < 64) :
    (sm3_init ctx0).buffer_len < 64 ∧
    (sm3_init_with_state ctx0 s n).buffer_len < 64 ∧
    ((sm3_update ctx data).buffer_len < 64 ∧ (sm3_update ctx data).buffer.length = 64) ∧
    (pieces.foldl sm3_update (sm3_init ctx0)).buffer_len < 64 ∧
    (pieces.foldl sm3_update (sm3_init ctx0)).buffer_len
      = (pieces.foldl sm3_update (sm3_init ctx0)).total_len % 64 ∧
    (pieces.foldl sm3_update (sm3_init ctx0)).total_len = pieces.flatten.length % 2 ^ 64 ∧
    (pieces.foldl sm3_update (sm3_init ctx0)).buffer.take
        (pieces.foldl sm3_update (sm3_init ctx0)).buffer_len
      = pieces.flatten.drop
          (pieces.flatten.length - (pieces.foldl sm3_update (sm3_init ctx0)).buffer_len) := by
  obtain ⟨u1, _⟩ := sm3_update_spec ctx data ⟨hb, hl⟩
  obtain ⟨a1, _, a3, a4⟩ := foldl_sm3_update_spec pieces (sm3_init ctx0) (sm3_init_wf ctx0 h0)
    (by simp [sm3_init])
  have hp : pending (sm3_init ctx0) = [] := by simp [pending, sm3_init]
  rw [hp, List.nil_append] at a4
  have ht : (sm3_init ctx0).total_len = 0 := rfl
  rw [ht] at a3
  have hbl : (pieces.foldl sm3_update (sm3_init ctx0)).buffer_len = pieces.flatten.length % 64 := by
    rw [← pending_length a1, a4, rem_length]
  refine ⟨by simp [sm3_init], by simp [sm3_init_with_state], ⟨u1.2, u1.1⟩, a1.2, ?_, ?_, ?_⟩
  · rw [hbl, a3]; simp only [add64]; omega
  · rw [a3]; simp only [add64, Nat.zero_add]
  · have := a4
    rw [pending, rem_eq_drop, ← hbl] at this
    exact this

/-- Witness for C20: a context with five staged bytes and a sequence of three updates. -/
theorem streaming_context_invariant_witness :
    ctx_uninit.buffer.length = 64 ∧
    (sm3_ctx_t.mk IV 5 (List.replicate 64 0x55) 5).buffer.length = 64 ∧
    (sm3_ctx_t.mk IV 5 (List.replicate 64 0x55) 5).buffer_len < 64 ∧
    ((sm3_init ctx_uninit).buffer_len < 64 ∧
    (sm3_init_with_state ctx_uninit IV 128).buffer_len < 64 ∧
    ((sm3_update (sm3_ctx_t.mk IV 5 (List.replicate 64 0x55) 5) []).buffer_len < 64 ∧
      (sm3_update (sm3_ctx_t.mk IV 5 (List.replicate 64 0x55) 5) []).buffer.length = 64) ∧
    ([[1], [], [2, 3]].foldl sm3_update (sm3_init ctx_uninit)).buffer_len < 64 ∧
    ([[1], [], [2, 3]].foldl sm3_update (sm3_init ctx_uninit)).buffer_len
      = ([[1], [], [2, 3]].foldl sm3_update (sm3_init ctx_uninit)).total_len % 64 ∧
    ([[1], [], [2, 3]].foldl sm3_update (sm3_init ctx_uninit)).total_len
      = [[1], [], [2, 3]].flatten.length % 2 ^ 64 ∧
    ([[1], [], [2, 3]].foldl sm3_update (sm3_init ctx_uninit)).buffer.take
        ([[1], [], [2, 3]].foldl sm3_update (sm3_init ctx_uninit)).buffer_len
      = [[1], [], [2, 3]].flatten.drop
          ([[1], [], [2, 3]].flatten.length
            - ([[1], [], [2, 3]].foldl sm3_update (sm3_init ctx_uninit)).buffer_len)) :=
  ⟨by decide, by decide, by decide,
    streaming_context_invariant ctx_uninit (sm3_ctx_t.mk IV 5 (List.replicate 64 0x55) 5) IV 128
      [] [[1], [], [2, 3]] (by decide) (by decide) (by decide)⟩

end SM3

namespace SM3

/-! ## The state after a padded message -/

theorem be_words_digest_of (s : List Nat) (hl : s.length = 8) (h : ∀ w ∈ s, w < 2 ^ 32) :
    be_words (digest_of s) = s := by
  match s, hl, h with
  | [a, b, c, d, e, f, g, i], _, h =>
    simp only [List.mem_cons, List.mem_singleton, List.not_mem_nil, or_false,
      forall_eq_or_imp, forall_eq] at h
    obtain ⟨ha, hb, hc, hd, he, hf, hg, hi⟩ := h
    simp only [digest_of, be_words, List.range, List.range.loop, List.flatMap_cons,
      List.flatMap_nil, uint32_to_be_eq, List.getD_cons_zero, List.getD_cons_succ,
      Nat.mul_zero, Nat.reduceMul, Nat.reduceAdd, Nat.zero_add,
      List.map_cons, List.map_nil, List.cons_append, List.nil_append, List.append_nil,
      List.cons.injEq, and_true]
    and_intros <;> omega

theorem final_padding_eq_md (M : List Nat) (k : Nat) (hk : k ≤ 63)
    (hk2 : (M.length + 1 + k) % 64 = 56) :
    M ++ final_padding (M.length % 64) (add64 0 M.length) = md_padded M k := by
  have hkv : k = (if M.length % 64 + 1 > 56 then 64 - (M.length % 64 + 1) + 56
      else 56 - (M.length % 64 + 1)) := by
    split <;> omega
  have htot : mul64 (add64 0 M.length) 8 = (8 * M.length) % 2 ^ 64 := by
    simp only [mul64, add64]; omega
  simp only [final_padding, md_padded, htot, ← hkv, List.append_assoc,
    bit_len_eq_big_endian, big_endian_8_mod]

theorem md_padded_length (M : List Nat) (k : Nat) :
    (md_padded M k).length = M.length + (1 + k + 8) := by
  simp only [md_padded, List.length_append, List.length_singleton, List.length_replicate,
    big_endian_length]
  omega

/-- C14: the chaining state of a padded message.  Let `P` be `0x80`, `k` zero bytes and the
8-byte big-endian encoding of `8 * len(M)`, with `0 <= k <= 63` and
`(len(M) + 1 + k) mod 64 = 56`.  After `sm3_init` and `sm3_update(M || P)` the buffer is
empty, `total_len` is `len(M) + len(P)`, and the eight state words are the eight big-endian
words of `sm3_hash(M)`.  The argument of `sm3_update` is an object in memory, so its length is
below `2^64`. -/
theorem padded_message_state (ctx0 : sm3_ctx_t) (M : List Nat) (k : Nat)
    (h0 : ctx0.buffer.length = 64) (hk : k ≤ 63) (hk2 : (M.length + 1 + k) % 64 = 56)
    (hlen : (md_padded M k).length < 2 ^ 64) :
    (sm3_update (sm3_init ctx0) (md_padded M k)).buffer_len = 0 ∧
    (sm3_update (sm3_init ctx0) (md_padded M k)).total_len = M.length + (1 + k + 8) ∧
    (md_padded M k).length = M.length + (1 + k + 8) ∧
    (sm3_update (sm3_init ctx0) (md_padded M k)).state = be_words (sm3_hash M) ∧
    (sm3_update (sm3_init ctx0) (md_padded M k)).state.length = 8 ∧
    digest_of (sm3_update (sm3_init ctx0) (md_padded M k)).state = sm3_hash M := by
  obtain ⟨b1, b2, b3, b4⟩ := sm3_update_spec (sm3_init ctx0) (md_padded M k) (sm3_init_wf ctx0 h0)
  have hp : pending (sm3_init ctx0) = [] := by simp [pending, sm3_init]
  have ht : (sm3_init ctx0).total_len = 0 := rfl
  have hs : (sm3_init ctx0).state = IV := rfl
  rw [hp, List.nil_append, hs] at b2
  rw [hp, List.nil_append] at b4
  rw [ht] at b3
  have hl := md_padded_length M k
  have hal : (md_padded M k).length % 64 = 0 := by rw [hl]; omega
  have hbl : (sm3_update (sm3_init ctx0) (md_padded M k)).buffer_len = 0 := by
    rw [← pending_length b1, b4, rem_length, hal]
  have hD := (sm3_hash_eq M).1
  rw [final_padding_eq_md M k hk hk2] at hD
  have hsl := foldl_compress_words_length (blocks (md_padded M k)) IV IV_length
  have hslt := foldl_compress_words_lt (blocks (md_padded M k)) IV IV_lt
  refine ⟨hbl, ?_, hl, ?_, by rw [b2]; exact hsl, by rw [b2, hD]⟩
  · rw [b3, hl]; rw [hl] at hlen; simp only [add64]; omega
  · rw [b2, hD, be_words_digest_of _ hsl hslt]

/-- Witness for C14: a three-byte message, padded with 52 zero bytes. -/
theorem padded_message_state_witness :
    ctx_uninit.buffer.length = 64 ∧ 52 ≤ 63 ∧ ([0x61, 0x62, 0x63].length + 1 + 52) % 64 = 56 ∧
    (md_padded [0x61, 0x62, 0x63] 52).length < 2 ^ 64 ∧
    ((sm3_update (sm3_init ctx_uninit) (md_padded [0x61, 0x62, 0x63] 52)).buffer_len = 0 ∧
    (sm3_update (sm3_init ctx_uninit) (md_padded [0x61, 0x62, 0x63] 52)).total_len
      = [0x61, 0x62, 0x63].length + (1 + 52 + 8) ∧
    (md_padded [0x61, 0x62, 0x63] 52).length = [0x61, 0x62, 0x63].length + (1 + 52 + 8) ∧
    (sm3_update (sm3_init ctx_uninit) (md_padded [0x61, 0x62, 0x63] 52)).state
      = be_words (sm3_hash [0x61, 0x62, 0x63]) ∧
    (sm3_update (sm3_init ctx_uninit) (md_padded [0x61, 0x62, 0x63] 52)).state.length = 8 ∧
    digest_of (sm3_update (sm3_init ctx_uninit) (md_padded [0x61, 0x62, 0x63] 52)).state
      = sm3_hash [0x61, 0x62, 0x63]) :=
  ⟨by decide, by decide, by decide, by simp [md_padded_length],
    padded_message_state ctx_uninit [0x61, 0x62, 0x63] 52 (by decide) (by decide) (by decide)
      (by simp [md_padded_length])⟩

/-! ## Resuming from a state -/

theorem foldl_update_equiv (pieces : List (List Nat)) (ctx : sm3_ctx_t) (hw : ctx_wf ctx)
    (ht : ctx.total_len < 2 ^ 64) :
    ctx_equiv (pieces.foldl sm3_update ctx) (sm3_update ctx pieces.flatten) := by
  obtain ⟨a1, a2, a3, a4⟩ := foldl_sm3_update_spec pieces ctx hw ht
  obtain ⟨b1, b2, b3, b4⟩ := sm3_update_spec ctx pieces.flatten hw
  refine ⟨a1, b1, by rw [a2, b2], by rw [a3, b3], ?_, by rw [a4, b4]⟩
  rw [← pending_length a1, ← pending_length b1, a4, b4]

/-- C15: the contract of `sm3_init_with_state`.  It sets the eight state words to `s`, in
order and unmodified, `total_len` to `n` and `buffer_len` to 0, and leaves the buffer alone.
The context it makes cannot be told apart, by any sequence of `sm3_update` calls followed by
`sm3_final`, from a context `c` that holds state `s` after `n` bytes ending on a block
boundary; when `s` is the state reached by absorbing the `n` bytes `Q`, the digest obtained
after feeding further pieces is `sm3_hash` of `Q` followed by those pieces. -/
theorem sm3_init_with_state_contract (ctx c c0 : sm3_ctx_t) (s Q : List Nat) (n : Nat)
    (pieces : List (List Nat)) (hs : s.length = 8) (hb : ctx.buffer.length = 64)
    (hcb : c.buffer.length = 64) (hcs : c.state = s) (hct : c.total_len = n)
    (hcl : c.buffer_len = 0)
    (hc0 : c0.buffer.length = 64) (hQ : Q.length % 64 = 0) (hQn : Q.length < 2 ^ 64) :
    sm3_init_with_state ctx s n
      = { state := s, total_len := n, buffer := ctx.buffer, buffer_len := 0 } ∧
    (sm3_final (pieces.foldl sm3_update (sm3_init_with_state ctx s n))).2
      = (sm3_final (pieces.foldl sm3_update c)).2 ∧
    ((pieces.foldl sm3_update (sm3_init_with_state ctx s n)).state
        = (pieces.foldl sm3_update c).state ∧
      (pieces.foldl sm3_update (sm3_init_with_state ctx s n)).total_len
        = (pieces.foldl sm3_update c).total_len ∧
      (pieces.foldl sm3_update (sm3_init_with_state ctx s n)).buffer_len
        = (pieces.foldl sm3_update c).buffer_len ∧
      pending (pieces.foldl sm3_update (sm3_init_with_state ctx s n))
        = pending (pieces.foldl sm3_update c)) ∧
    ((sm3_update (sm3_init c0) Q).buffer_len = 0 ∧
      (sm3_update (sm3_init c0) Q).total_len = Q.length ∧
      (sm3_final (pieces.foldl sm3_update
          (sm3_init_with_state ctx (sm3_update (sm3_init c0) Q).state Q.length))).2
        = sm3_hash (Q ++ pieces.flatten)) := by
  have hset : sm3_init_with_state ctx s n
      = { state := s, total_len := n, buffer := ctx.buffer, buffer_len := 0 } := by
    simp only [sm3_init_with_state, List.take_of_length_le (Nat.le_of_eq hs)]
  have hwf : ctx_wf (sm3_init_with_state ctx s n) := sm3_init_with_state_wf ctx s n hb
  have hcw : ctx_wf c := ⟨hcb, by rw [hcl]; decide⟩
  have heq : ctx_equiv (sm3_init_with_state ctx s n) c := by
    refine ⟨hwf, hcw, ?_, ?_, ?_, ?_⟩
    · rw [hset, hcs]
    · rw [hset, hct]
    · rw [hset, hcl]
    · rw [hset]; simp only [pending, hcl, List.take_zero]
  have hf := ctx_equiv_foldl pieces heq
  -- the context that absorbed `Q`
  have hiw := sm3_init_wf c0 hc0
  obtain ⟨q1, q2, q3, q4⟩ := sm3_update_spec (sm3_init c0) Q hiw
  have hp : pending (sm3_init c0) = [] := by simp [pending, sm3_init]
  have ht0 : (sm3_init c0).total_len = 0 := rfl
  have hs0 : (sm3_init c0).state = IV := rfl
  rw [hp, List.nil_append, hs0] at q2
  rw [hp, List.nil_append, rem_eq_nil hQ] at q4
  rw [ht0] at q3
  have hqbl : (sm3_update (sm3_init c0) Q).buffer_len = 0 := by
    rw [← pending_length q1, q4]; rfl
  have hqt : (sm3_update (sm3_init c0) Q).total_len = Q.length := by
    rw [q3]; simp only [add64]; omega
  have hqs : (sm3_update (sm3_init c0) Q).state.length = 8 := by
    rw [q2]; exact foldl_compress_words_length _ _ IV_length
  have hres : ctx_equiv
      (sm3_init_with_state ctx (sm3_update (sm3_init c0) Q).state Q.length)
      (sm3_update (sm3_init c0) Q) := by
    refine ⟨sm3_init_with_state_wf ctx _ _ hb, q1, ?_, ?_, ?_, ?_⟩
    · simp only [sm3_init_with_state, List.take_of_length_le (Nat.le_of_eq hqs)]
    · simp only [sm3_init_with_state, hqt]
    · simp only [sm3_init_with_state, hqbl]
    · rw [q4]; simp only [pending, sm3_init_with_state, List.take_zero]
  have h1 := ctx_equiv_final (ctx_equiv_foldl pieces hres)
  have h2 : pieces.foldl sm3_update (sm3_update (sm3_init c0) Q)
      = (Q :: pieces).foldl sm3_update (sm3_init c0) := rfl
  have h3 := ctx_equiv_final (foldl_update_equiv (Q :: pieces) (sm3_init c0) hiw
    (by rw [ht0]; decide))
  have h4 : (sm3_final (sm3_update (sm3_init c0) (Q :: pieces).flatten)).2
      = sm3_hash (Q :: pieces).flatten :=
    ctx_equiv_final (ctx_equiv_update (sm3_init_equiv c0 ctx_uninit hc0 rfl) _)
  refine ⟨hset, ctx_equiv_final hf, ⟨hf.2.2.1, hf.2.2.2.1, hf.2.2.2.2.1, hf.2.2.2.2.2⟩,
    hqbl, hqt, ?_⟩
  rw [h1, h2, h3, h4, List.flatten_cons]

/-- Witness for C15: the state `IV` resumed after 64 bytes, and two further pieces. -/
theorem sm3_init_with_state_contract_witness :
    IV.length = 8 ∧ ctx_uninit.buffer.length = 64 ∧
    (sm3_ctx_t.mk IV 64 (List.replicate 64 0) 0).buffer.length = 64 ∧ (sm3_ctx_t.mk IV 64 (List.replicate 64 0) 0).state = IV ∧
    (sm3_ctx_t.mk IV 64 (List.replicate 64 0) 0).total_len = 64 ∧ (sm3_ctx_t.mk IV 64 (List.replicate 64 0) 0).buffer_len = 0 ∧
    ctx_uninit.buffer.length = 64 ∧ (List.replicate 64 0x61).length % 64 = 0 ∧
    (List.replicate 64 0x61).length < 2 ^ 64 ∧
    (sm3_init_with_state ctx_uninit IV 64
      = { state := IV, total_len := 64, buffer := ctx_uninit.buffer, buffer_len := 0 } ∧
    (sm3_final ([[1], [2, 3]].foldl sm3_update (sm3_init_with_state ctx_uninit IV 64))).2
      = (sm3_final ([[1], [2, 3]].foldl sm3_update (sm3_ctx_t.mk IV 64 (List.replicate 64 0) 0))).2 ∧
    (([[1], [2, 3]].foldl sm3_update (sm3_init_with_state ctx_uninit IV 64)).state
        = ([[1], [2, 3]].foldl sm3_update (sm3_ctx_t.mk IV 64 (List.replicate 64 0) 0)).state ∧
      ([[1], [2, 3]].foldl sm3_update (sm3_init_with_state ctx_uninit IV 64)).total_len
        = ([[1], [2, 3]].foldl sm3_update (sm3_ctx_t.mk IV 64 (List.replicate 64 0) 0)).total_len ∧
      ([[1], [2, 3]].foldl sm3_update (sm3_init_with_state ctx_uninit IV 64)).buffer_len
        = ([[1], [2, 3]].foldl sm3_update (sm3_ctx_t.mk IV 64 (List.replicate 64 0) 0)).buffer_len ∧
      pending ([[1], [2, 3]].foldl sm3_update (sm3_init_with_state ctx_uninit IV 64))
        = pending ([[1], [2, 3]].foldl sm3_update (sm3_ctx_t.mk IV 64 (List.replicate 64 0) 0))) ∧
    ((sm3_update (sm3_init ctx_uninit) (List.replicate 64 0x61)).buffer_len = 0 ∧
      (sm3_update (sm3_init ctx_uninit) (List.replicate 64 0x61)).total_len = (List.replicate 64 0x61).length ∧
      (sm3_final ([[1], [2, 3]].foldl sm3_update
          (sm3_init_with_state ctx_uninit (sm3_update (sm3_init ctx_uninit) (List.replicate 64 0x61)).state
            (List.replicate 64 0x61).length))).2
        = sm3_hash (List.replicate 64 0x61 ++ [[1], [2, 3]].flatten))) :=
  ⟨by decide, by decide, by decide, by decide, by decide, by decide, by decide, by decide,
    by decide,
    sm3_init_with_state_contract ctx_uninit (sm3_ctx_t.mk IV 64 (List.replicate 64 0) 0) ctx_uninit IV
      (List.replicate 64 0x61) 64 [[1], [2, 3]] (by decide) (by decide) (by decide) (by decide) (by decide)
      (by decide) (by decide) (by decide) (by decide)⟩

end SM3

namespace SM3

/-! ## The performance variants agree with the basic implementation -/

theorem SM3_ROUND_eq_round (W W_prime : List Nat) (j : Nat) (r : Regs) :
    SM3_ROUND r (W.getD j 0) (W_prime.getD j 0) (j : Int) = round W W_prime j r := by
  by_cases h : j < 16
  · have hi : (j : Int) < 16 := by omega
    simp only [SM3_ROUND, round, T, h, hi, if_true]
  · have hi : ¬ (j : Int) < 16 := by omega
    simp only [SM3_ROUND, round, T, h, hi, if_false]

theorem placeholder_round_eq_round (W W_prime : List Nat) (j : Nat) (r : Regs) :
    placeholder_round W W_prime j r = round W W_prime j r := by
  by_cases h : j < 16
  · have hi : (j : Int) < 16 := by omega
    simp only [placeholder_round, round, T, h, hi, if_true]
  · have hi : ¬ (j : Int) < 16 := by omega
    simp only [placeholder_round, round, T, h, hi, if_false]

theorem unrolled_rounds_eq (W W_prime : List Nat) : ∀ (n j : Nat) (r : Regs),
    unrolled_rounds W W_prime n j r = rounds W W_prime (4 * n) j r := by
  intro n
  induction n with
  | zero => intro j r; rfl
  | succ n ih =>
    intro j r
    have e : 4 * (n + 1) = 4 * n + 1 + 1 + 1 + 1 := by omega
    rw [e]
    simp only [unrolled_rounds, rounds, SM3_ROUND_eq_round, Nat.add_zero, ih]

theorem placeholder_rounds_eq (W W_prime : List Nat) : ∀ (n j : Nat) (r : Regs),
    placeholder_rounds W W_prime n j r = rounds W W_prime n j r := by
  intro n
  induction n with
  | zero => intro j r; rfl
  | succ n ih =>
    intro j r
    simp only [placeholder_rounds, rounds, placeholder_round_eq_round, ih]

theorem sm3_compress_unrolled_eq (ctx : sm3_ctx_t) :
    sm3_compress_unrolled ctx = sm3_compress ctx := by
  simp only [sm3_compress_unrolled, sm3_compress, unrolled_rounds_eq]

theorem sm3_compress_placeholder_eq (ctx : sm3_ctx_t) :
    sm3_compress_placeholder ctx = sm3_compress ctx := by
  simp only [sm3_compress_placeholder, sm3_compress, placeholder_rounds_eq]

theorem variant_update_loop_basic : ∀ (fuel : Nat) (ctx : sm3_ctx_t) (data : List Nat),
    variant_update_loop sm3_compress fuel ctx data = sm3_update_loop fuel ctx data := by
  intro fuel
  induction fuel with
  | zero => intro ctx data; rfl
  | succ fuel ih =>
    intro ctx data
    simp only [variant_update_loop, sm3_update_loop, ih]

theorem variant_update_basic (ctx : sm3_ctx_t) (data : List Nat) :
    variant_update sm3_compress ctx data = sm3_update ctx data := by
  simp only [variant_update, sm3_update, variant_update_tail, sm3_update_tail,
    variant_update_loop_basic]

theorem variant_final_basic (ctx : sm3_ctx_t) :
    variant_final sm3_compress ctx = sm3_final ctx := rfl

theorem variant_hash_basic (data : List Nat) : variant_hash sm3_compress data = sm3_hash data := by
  simp only [variant_hash, sm3_hash, variant_update_basic, variant_final_basic]

/-- C16: the performance variants are drop-in replacements.  On every context (every state
and every block in the buffer) `sm3_compress_unrolled` and `sm3_compress_placeholder` leave
the context that `sm3_compress` leaves, and `sm3_hash` of `sm3_unrolled.c` and of
`sm3_simd.c` returns the digest of `sm3_hash` of `sm3.c` on every input. -/
theorem variants_agree (ctx : sm3_ctx_t) (data : List Nat) :
    sm3_compress_unrolled ctx = sm3_compress ctx ∧
    sm3_compress_placeholder ctx = sm3_compress ctx ∧
    sm3_hash_unrolled data = sm3_hash data ∧
    sm3_hash_simd data = sm3_hash data := by
  have e1 : sm3_compress_unrolled = sm3_compress := funext sm3_compress_unrolled_eq
  have e2 : sm3_compress_placeholder = sm3_compress := funext sm3_compress_placeholder_eq
  refine ⟨sm3_compress_unrolled_eq ctx, sm3_compress_placeholder_eq ctx, ?_, ?_⟩
  · rw [sm3_hash_unrolled, e1, variant_hash_basic]
  · rw [sm3_hash_simd, e2, variant_hash_basic]

end SM3

namespace Merkle

open SM3

/-! ## Tampering with a proof

Whether `verify_existence_proof` rejects every tampered proof depends on `sm3_hash` having
no collisions on the inputs involved.  The lemmas below show the reduction: a tampered proof
or leaf digest that is accepted yields two different 64-byte inputs with the same digest. -/

theorem hash_parent_eq_canonical (a b : List Nat) :
    hash_parent a b = sm3_hash (canonical_pair a b) := rfl

theorem canonical_pair_length (a b : List Nat) (ha : a.length = 32) (hb : b.length = 32) :
    (canonical_pair a b).length = 64 := by
  simp only [canonical_pair, HASH_SIZE]
  split <;> simp [ha, hb]

theorem canonical_pair_cases (a b : List Nat) (ha : a.length = 32) (hb : b.length = 32) :
    canonical_pair a b = a ++ b ∨ canonical_pair a b = b ++ a := by
  have ta : a.take HASH_SIZE = a := List.take_of_length_le (Nat.le_of_eq ha)
  have tb : b.take HASH_SIZE = b := List.take_of_length_le (Nat.le_of_eq hb)
  simp only [canonical_pair, ta, tb]
  split
  · exact Or.inl rfl
  · exact Or.inr rfl

/-- The bytes hashed determine the unordered pair of digests. -/
theorem canonical_pair_inj (a b c d : List Nat) (ha : a.length = 32) (hb : b.length = 32)
    (hc : c.length = 32) (hd : d.length = 32) (h : canonical_pair a b = canonical_pair c d) :
    (a = c ∧ b = d) ∨ (a = d ∧ b = c) := by
  rcases canonical_pair_cases a b ha hb with e1 | e1 <;>
  rcases canonical_pair_cases c d hc hd with e2 | e2 <;>
  rw [e1, e2] at h
  · exact Or.inl (List.append_inj h (by rw [ha, hc]))
  · exact Or.inr (List.append_inj h (by rw [ha, hd]))
  · have := List.append_inj h (by rw [hb, hc])
    exact Or.inr ⟨this.2, this.1⟩
  · have := List.append_inj h (by rw [hb, hd])
    exact Or.inl ⟨this.2, this.1⟩

theorem hash_parent_collision (a b c d : List Nat) (ha : a.length = 32) (hb : b.length = 32)
    (hc : c.length = 32) (hd : d.length = 32) (hne : ¬ ((a = c ∧ b = d) ∨ (a = d ∧ b = c)))
    (h : hash_parent a b = hash_parent c d) : sm3_collision :=
  ⟨canonical_pair a b, canonical_pair c d, canonical_pair_length a b ha hb,
    canonical_pair_length c d hc hd,
    fun e => hne (canonical_pair_inj a b c d ha hb hc hd e), h⟩

/-- Two different digests that fold to the same value over the same siblings give a
collision. -/
theorem foldl_hash_parent_collision : ∀ (post : List (List Nat)) (a b : List Nat),
    a.length = 32 → b.length = 32 → (∀ s ∈ post, s.length = 32) → a ≠ b →
    post.foldl hash_parent a = post.foldl hash_parent b → sm3_collision := by
  intro post
  induction post with
  | nil => intro a b _ _ _ hne h; exact absurd h hne
  | cons s post ih =>
    intro a b ha hb hs hne h
    have hsl : s.length = 32 := hs s (by simp)
    by_cases e : hash_parent a s = hash_parent b s
    · apply hash_parent_collision a s b s ha hsl hb hsl _ e
      rintro (⟨e1, _⟩ | ⟨e1, e2⟩)
      · exact hne e1
      · exact hne (e1.trans e2)
    · exact ih (hash_parent a s) (hash_parent b s) (hash_parent_length _ _)
        (hash_parent_length _ _) (fun t ht => hs t (by simp [ht])) e h

theorem verify_true_iff_foldl (leaf_hash root_hash : List Nat) (proof : List (List Nat))
    (proof_path : List Int) (hl : leaf_hash.length = 32) (hr : root_hash.length = 32) :
    verify_existence_proof leaf_hash root_hash proof proof_path proof.length = true
      ↔ proof.foldl hash_parent leaf_hash = root_hash := by
  have tl : leaf_hash.take HASH_SIZE = leaf_hash := List.take_of_length_le (Nat.le_of_eq hl)
  have tr : root_hash.take HASH_SIZE = root_hash := List.take_of_length_le (Nat.le_of_eq hr)
  have hv := verify_loop_eq_foldl proof_path proof [] (leaf_hash.take HASH_SIZE)
  simp only [List.nil_append, List.length_nil, tl] at hv
  have hfl := foldl_hash_parent_length proof leaf_hash hl
  have tf : (proof.foldl hash_parent leaf_hash).take HASH_SIZE = proof.foldl hash_parent leaf_hash :=
    List.take_of_length_le (Nat.le_of_eq hfl)
  simp only [verify_existence_proof, Int.toNat_ofNat, hv, tl, decide_eq_true_eq,
    memcmp_eq_zero_iff, tf, tr]

/-- If a proof is accepted and is still accepted after one sibling digest is replaced by a
different one, then `sm3_hash` has a collision on 64-byte inputs. -/
theorem sibling_tamper_collision (leaf root s s2 : List Nat) (pre post : List (List Nat))
    (path path2 : List Int) (hl : leaf.length = 32) (hr : root.length = 32)
    (hs : s.length = 32) (hs2 : s2.length = 32) (hpost : ∀ t ∈ post, t.length = 32)
    (hne : s2 ≠ s)
    (hok : verify_existence_proof leaf root (pre ++ s :: post) path
      (pre ++ s :: post).length = true)
    (hacc : verify_existence_proof leaf root (pre ++ s2 :: post) path2
      (pre ++ s2 :: post).length = true) : sm3_collision := by
  have h1 := (verify_true_iff_foldl leaf root _ path hl hr).1 hok
  have h2 := (verify_true_iff_foldl leaf root _ path2 hl hr).1 hacc
  simp only [List.foldl_append, List.foldl_cons] at h1 h2
  have hcl : (pre.foldl hash_parent leaf).length = 32 := foldl_hash_parent_length pre leaf hl
  by_cases e : hash_parent (pre.foldl hash_parent leaf) s
      = hash_parent (pre.foldl hash_parent leaf) s2
  · apply hash_parent_collision _ s _ s2 hcl hs hcl hs2 _ e
    rintro (⟨_, e2⟩ | ⟨e1, e2⟩)
    · exact hne e2.symm
    · exact hne (e1.symm.trans e2.symm)
  · exact foldl_hash_parent_collision post _ _ (hash_parent_length _ _)
      (hash_parent_length _ _) hpost e (h1.trans h2.symm)

/-- If a proof is accepted for a leaf digest and also for a different leaf digest, then
`sm3_hash` has a collision on 64-byte inputs; with an empty proof this cannot happen. -/
theorem leaf_tamper_collision (leaf leaf2 root : List Nat) (proof : List (List Nat))
    (path path2 : List Int) (hl : leaf.length = 32) (hl2 : leaf2.length = 32)
    (hr : root.length = 32) (hp : ∀ t ∈ proof, t.length = 32) (hne : leaf2 ≠ leaf)
    (hok : verify_existence_proof leaf root proof path proof.length = true)
    (hacc : verify_existence_proof leaf2 root proof path2 proof.length = true) :
    sm3_collision ∧ proof ≠ [] := by
  have h1 := (verify_true_iff_foldl leaf root _ path hl hr).1 hok
  have h2 := (verify_true_iff_foldl leaf2 root _ path2 hl2 hr).1 hacc
  refine ⟨foldl_hash_parent_collision proof leaf2 leaf hl2 hl hp hne (h2.trans h1.symm), ?_⟩
  intro e
  rw [e] at h1 h2
  exact hne (h2.trans h1.symm)

end Merkle

namespace SM3

/-! ## The accumulation step of the compression function -/

theorem sm3_compress_fields (ctx : sm3_ctx_t) :
    sm3_compress ctx = { ctx with state :=
      [ctx.state.getD 0 0 ^^^ (compress_regs ctx).A, ctx.state.getD 1 0 ^^^ (compress_regs ctx).B,
       ctx.state.getD 2 0 ^^^ (compress_regs ctx).C, ctx.state.getD 3 0 ^^^ (compress_regs ctx).D,
       ctx.state.getD 4 0 ^^^ (compress_regs ctx).E, ctx.state.getD 5 0 ^^^ (compress_regs ctx).F,
       ctx.state.getD 6 0 ^^^ (compress_regs ctx).G,
       ctx.state.getD 7 0 ^^^ (compress_regs ctx).H] } := rfl

theorem list_of_length_eight (s : List Nat) (hs : s.length = 8) :
    s = [s.getD 0 0, s.getD 1 0, s.getD 2 0, s.getD 3 0, s.getD 4 0, s.getD 5 0, s.getD 6 0,
      s.getD 7 0] := by
  match s, hs with
  | [_, _, _, _, _, _, _, _], _ => rfl

/-- C22: XOR accumulation in `sm3_compress`.  For every state of eight words and every
buffer, `sm3_compress` leaves `buffer`, `buffer_len` and `total_len` unchanged and sets each
state word `s_i` to `s_i XOR r_i`, where `r_0 .. r_7` are the working registers `A .. H`
after the 64 rounds started from `A .. H = s_0 .. s_7`.  The accumulation is neither a
replacement nor a modular addition: on the initial state and a block of zero bytes the new
state differs from the registers and from the word-wise sum modulo `2^32`. -/
theorem sm3_compress_xor_accumulation (ctx : sm3_ctx_t) (hs : ctx.state.length = 8) :
    (sm3_compress ctx).buffer = ctx.buffer ∧
    (sm3_compress ctx).buffer_len = ctx.buffer_len ∧
    (sm3_compress ctx).total_len = ctx.total_len ∧
    (sm3_compress ctx).state
      = List.zipWith (fun s r => s ^^^ r) ctx.state (regs_list (compress_regs ctx)) ∧
    (∀ i, i < 8 → (sm3_compress ctx).state.getD i 0
      = ctx.state.getD i 0 ^^^ (regs_list (compress_regs ctx)).getD i 0) ∧
    (sm3_compress (sm3_ctx_t.mk IV 0 (List.replicate 64 0) 0)).state
      ≠ regs_list (compress_regs (sm3_ctx_t.mk IV 0 (List.replicate 64 0) 0)) ∧
    (sm3_compress (sm3_ctx_t.mk IV 0 (List.replicate 64 0) 0)).state
      ≠ List.zipWith add32 IV
          (regs_list (compress_regs (sm3_ctx_t.mk IV 0 (List.replicate 64 0) 0))) := by
  have e := sm3_compress_fields ctx
  have l8 := list_of_length_eight ctx.state hs
  refine ⟨by rw [e], by rw [e], by rw [e], ?_, ?_, ?_, ?_⟩
  · rw [e]
    show _ = List.zipWith (fun s r => s ^^^ r) ctx.state (regs_list (compress_regs ctx))
    generalize compress_regs ctx = r
    rw [l8]
    simp [regs_list]
  · intro i hi
    rw [e]
    generalize compress_regs ctx = r
    have : i = 0 ∨ i = 1 ∨ i = 2 ∨ i = 3 ∨ i = 4 ∨ i = 5 ∨ i = 6 ∨ i = 7 := by omega
    rcases this with h | h | h | h | h | h | h | h <;> subst h <;> rfl
  · set_option maxRecDepth 100000 in decide
  · set_option maxRecDepth 100000 in decide

theorem sm3_compress_xor_accumulation_witness :
    (sm3_init ctx_uninit).state.length = 8 ∧
    ((sm3_compress (sm3_init ctx_uninit)).buffer = (sm3_init ctx_uninit).buffer ∧
    (sm3_compress (sm3_init ctx_uninit)).buffer_len = (sm3_init ctx_uninit).buffer_len ∧
    (sm3_compress (sm3_init ctx_uninit)).total_len = (sm3_init ctx_uninit).total_len ∧
    (sm3_compress (sm3_init ctx_uninit)).state
      = List.zipWith (fun s r => s ^^^ r) (sm3_init ctx_uninit).state
          (regs_list (compress_regs (sm3_init ctx_uninit))) ∧
    (∀ i, i < 8 → (sm3_compress (sm3_init ctx_uninit)).state.getD i 0
      = (sm3_init ctx_uninit).state.getD i 0
          ^^^ (regs_list (compress_regs (sm3_init ctx_uninit))).getD i 0) ∧
    (sm3_compress (sm3_ctx_t.mk IV 0 (List.replicate 64 0) 0)).state
      ≠ regs_list (compress_regs (sm3_ctx_t.mk IV 0 (List.replicate 64 0) 0)) ∧
    (sm3_compress (sm3_ctx_t.mk IV 0 (List.replicate 64 0) 0)).state
      ≠ List.zipWith add32 IV
          (regs_list (compress_regs (sm3_ctx_t.mk IV 0 (List.replicate 64 0) 0)))) :=
  ⟨by decide, sm3_compress_xor_accumulation (sm3_init ctx_uninit) (by decide)⟩

end SM3

namespace Merkle

open SM3

/-! ## Verification and the side flags -/

theorem verify_loop_flags (proof : List (List Nat)) (path path2 : List Int) :
    ∀ (n i : Nat) (cur : List Nat),
      verify_loop proof path n i cur = verify_loop proof path2 n i cur := by
  intro n
  induction n with
  | zero => intro i cur; rfl
  | succ n ih =>
    intro i cur
    have e : ∀ (q : List Int),
        verify_loop proof q (n + 1) i cur
          = verify_loop proof q n (i + 1) ((hash_parent cur (proof.getD i [])).take HASH_SIZE) := by
      intro q
      simp only [verify_loop]
      split
      · rw [hash_parent_comm]
      · rfl
    rw [e path, e path2, ih]

/-- C24: `verify_existence_proof` does not depend on the side flags.  For every leaf digest,
root digest, list of sibling digests, proof length and any two arrays of side flags the
result is the same; in particular a proof with every side flag inverted verifies exactly
when the original does. -/
theorem verify_ignores_side_flags (leaf_hash root_hash : List Nat) (proof : List (List Nat))
    (proof_path proof_path2 : List Int) (proof_len : Int) :
    verify_existence_proof leaf_hash root_hash proof proof_path proof_len
      = verify_existence_proof leaf_hash root_hash proof proof_path2 proof_len ∧
    (verify_existence_proof leaf_hash root_hash proof
        (proof_path.map (fun b => if b = 0 then 1 else 0)) proof_len = true
      ↔ verify_existence_proof leaf_hash root_hash proof proof_path proof_len = true) := by
  have key : ∀ q q2 : List Int,
      verify_existence_proof leaf_hash root_hash proof q proof_len
        = verify_existence_proof leaf_hash root_hash proof q2 proof_len := by
    intro q q2
    simp only [verify_existence_proof]
    rw [verify_loop_flags proof q q2]
  exact ⟨key _ _, by rw [key _ proof_path]⟩

/-! ## Children shared on a level of odd size -/

theorem build_from_digests_three (d0 d1 d2 : List Nat) :
    ∃ a b c, build_from_digests [d0, d1, d2] =
      ([MerkleNode.mk (d0.take HASH_SIZE) none none (some 3),
        MerkleNode.mk (d1.take HASH_SIZE) none none (some 3),
        MerkleNode.mk (d2.take HASH_SIZE) none none (some 4),
        MerkleNode.mk a (some 0) (some 1) (some 5),
        MerkleNode.mk b (some 2) (some 2) (some 5),
        MerkleNode.mk c (some 3) (some 4) none], some 5) := by
  simp [build_from_digests, create_leaves, create_node, build_merkle_tree, build_merkle_tree_rec,
    build_level, build_pair, deref]

/-- C23: exclusive ownership fails on a level of odd size.  In the tree built from three
leaves the third leaf (node 2) is both the left and the right child of its parent (node 4),
and `free_merkle_tree` on the root hands node 2 to `free` twice. -/
theorem odd_level_child_released_twice (d0 d1 d2 : List Nat) (fuel : Nat) :
    (build_from_digests [d0, d1, d2]).2 = some 5 ∧
    (build_from_digests [d0, d1, d2]).1.length = 6 ∧
    (deref (build_from_digests [d0, d1, d2]).1 4).left = some 2 ∧
    (deref (build_from_digests [d0, d1, d2]).1 4).right = some 2 ∧
    (deref (build_from_digests [d0, d1, d2]).1 2).parent = some 4 ∧
    free_merkle_tree (fuel + 4) (build_from_digests [d0, d1, d2]).1
        (build_from_digests [d0, d1, d2]).2 = [0, 1, 3, 2, 2, 4, 5] ∧
    (free_merkle_tree (fuel + 4) (build_from_digests [d0, d1, d2]).1
        (build_from_digests [d0, d1, d2]).2).count 2 = 2 := by
  obtain ⟨a, b, c, e⟩ := build_from_digests_three d0 d1 d2
  rw [e]
  have hf : free_merkle_tree (fuel + 4)
      [MerkleNode.mk (d0.take HASH_SIZE) none none (some 3),
        MerkleNode.mk (d1.take HASH_SIZE) none none (some 3),
        MerkleNode.mk (d2.take HASH_SIZE) none none (some 4),
        MerkleNode.mk a (some 0) (some 1) (some 5),
        MerkleNode.mk b (some 2) (some 2) (some 5),
        MerkleNode.mk c (some 3) (some 4) none] (some 5) = [0, 1, 3, 2, 2, 4, 5] := by
    cases fuel <;> simp [free_merkle_tree, deref]
  refine ⟨rfl, rfl, rfl, rfl, rfl, hf, ?_⟩
  show List.count 2 (free_merkle_tree (fuel + 4) _ (some 5)) = 2
  rw [hf]
  decide

end Merkle

namespace SM3

/-! ## The padding buffer of the forgery -/

/-- C26: the padding buffer of `forge_sm3`.  For every `original_len` the zero count `k` is
in `0..63`, the padding length is `1 + k + 8`, between 9 and 72, so the three writes into
the 128-byte array `padding` (the byte at 0, `k` bytes from 1, 8 bytes from `1 + k`) are in
bounds and the array keeps its 128 bytes; and `original_len` plus the padding length is a
multiple of 64, also as the `uint64_t` value `new_start_len` handed to
`sm3_init_with_state`. -/
theorem forge_padding_bounds (original_len : Nat) :
    forge_k original_len ≤ 63 ∧
    (forge_padding original_len).2 = 1 + forge_k original_len + 8 ∧
    9 ≤ (forge_padding original_len).2 ∧ (forge_padding original_len).2 ≤ 72 ∧
    (0 + 1 ≤ 128 ∧ 1 + forge_k original_len ≤ 128 ∧ 1 + forge_k original_len + 8 ≤ 128) ∧
    (forge_padding original_len).1.length = 128 ∧
    (original_len + (forge_padding original_len).2) % 64 = 0 ∧
    add64 original_len (forge_padding original_len).2 % 64 = 0 := by
  have hk := forge_k_lt original_len
  have he := forge_k_eq original_len
  have hp := forge_padding_eq original_len
  have h2 : (forge_padding original_len).2 = 9 + forge_k original_len := by rw [hp]
  have h1 : (forge_padding original_len).1.length = 128 := by
    rw [hp]
    simp only [uint64_to_be, List.length_append, List.length_replicate, List.length_cons,
      List.length_nil]
    omega
  have hm : (original_len + (9 + forge_k original_len)) % 64 = 0 := by
    rw [he]
    split <;> omega
  refine ⟨by omega, by omega, by omega, by omega, ⟨by omega, by omega, by omega⟩, h1, ?_, ?_⟩
  · rw [h2]; exact hm
  · rw [h2]
    simp only [add64]
    omega

/-! ## The shift counts of the rotations -/

theorem ROTL_count_mod (x : Nat) (j : Int) : ROTL x j = ROTL x (j % 32) := by
  have a : j % 32 % 32 = j % 32 := by omega
  have b : (32 - j % 32) % 32 = (32 - j) % 32 := by omega
  simp only [ROTL, shl32, shr32, a, b]

/-- C27: the shift counts of `ROTL(T(j), j)` leave the range `0..31`.  Round 0 shifts right
by 32, round 32 shifts left by 32 and right by 0, round 33 shifts left by 33 and right by
`-1`; the rounds in which every shift count is in `0..31` are exactly the rounds `1..31`.
The counts of the message expansion are in range.  With a shift that uses its count modulo
32, as in the embedding, the term is `T(j)` rotated left by `j mod 32`. -/
theorem round_shift_counts_out_of_range :
    round_shifts 0 = [12, 20, 0, 32, 7, 25, 12, 20, 9, 23, 19, 13, 9, 23, 17, 15] ∧
    round_shifts 33 = [12, 20, 33, -1, 7, 25, 12, 20, 9, 23, 19, 13, 9, 23, 17, 15] ∧
    (round_shifts 0).all shift_in_range = false ∧
    (round_shifts 32).all shift_in_range = false ∧
    (List.range 64).filter (fun j => (round_shifts j).all shift_in_range) = List.range' 1 31 ∧
    expand_shifts.all shift_in_range = true ∧
    (∀ j : Nat, ROTL (T j) j = ROTL (T j) ((j : Int) % 32)) := by
  refine ⟨by decide, by decide, by decide, by decide, by decide, by decide, ?_⟩
  intro j
  exact ROTL_count_mod _ _

end SM3

namespace Merkle

open SM3

/-! ## Positions of parents and children in a level -/

/-- The loop of `build_merkle_tree` over one level, by position: the parent of the node at
position `i` is the node allocated at position `i / 2` of the next level, whose left child
is the node at the even position `i - i % 2` and whose right child is the node after it, or
the same node when the level ends there. -/
theorem build_level_pos : ∀ (lv : List Nat) (h : Heap), (∀ i ∈ lv, i < h.length) →
    (∀ i ∈ lv, (deref h i).parent = none) → lv.Nodup →
    ∀ i, i < lv.length →
      (deref (build_level h lv).1 (lv.getD i 0)).parent = some (h.length + i / 2) ∧
      (deref (build_level h lv).1 (h.length + i / 2)).left = some (lv.getD (i - i % 2) 0) ∧
      (deref (build_level h lv).1 (h.length + i / 2)).right
        = some (if i - i % 2 + 1 < lv.length then lv.getD (i - i % 2 + 1) 0
            else lv.getD (i - i % 2) 0)
  | [], _, _, _, _ => by
    intro i hi
    exact absurd hi (by simp)
  | [l], h, hb, ht, _ => by
    intro i hi
    have hl : l < h.length := hb l (List.mem_singleton.2 rfl)
    obtain ⟨_, _, p3, _, p5⟩ := build_pair_spec h l l hl hl
    have i0 : i = 0 := by simp at hi; omega
    subst i0
    rw [build_level_single]
    simp only [List.getD_cons_zero, Nat.zero_div, Nat.add_zero, Nat.zero_mod, Nat.sub_zero,
      List.length_singleton, Nat.lt_irrefl, if_false, Nat.zero_add]
    rw [p3, p5 l hl (Or.inl rfl)]
    exact ⟨rfl, rfl, rfl⟩
  | l :: r :: rest, h, hb, ht, hnd => by
    intro i hi
    have hl : l < h.length := hb l (by simp)
    have hr : r < h.length := hb r (by simp)
    have tl : (deref h l).parent = none := ht l (by simp)
    have tr : (deref h r).parent = none := ht r (by simp)
    have hlrest : l ∉ rest := by
      intro hm
      have := (List.nodup_cons.1 hnd).1
      exact this (List.mem_cons_of_mem _ hm)
    have hrrest : r ∉ rest := (List.nodup_cons.1 (List.nodup_cons.1 hnd).2).1
    have hndr : rest.Nodup := (List.nodup_cons.1 (List.nodup_cons.1 hnd).2).2
    obtain ⟨p1, p2, p3, p4, p5, p6, p7, p8, p9, p10⟩ := build_pair_inv h l r hl hr tl tr
    obtain ⟨_, _, s3, _, s5⟩ := build_pair_spec h l r hl hr
    have hbr : ∀ i ∈ rest, i < h.length := fun i hi => hb i (by simp [hi])
    have hne : ∀ i ∈ rest, i ≠ l ∧ i ≠ r := by
      intro i hi
      exact ⟨fun e => hlrest (e ▸ hi), fun e => hrrest (e ▸ hi)⟩
    have hb1 : ∀ i ∈ rest, i < (build_pair h l r).1.length := by
      intro i hi; rw [p2]; have := hbr i hi; omega
    have ht1 : ∀ i ∈ rest, (deref (build_pair h l r).1 i).parent = none := by
      intro i hi
      rw [p10 i (hbr i hi) (hne i hi).1 (hne i hi).2]
      exact ht i (by simp [hi])
    obtain ⟨q1, _⟩ := build_level_spec rest (build_pair h l r).1 hb1 ht1 hndr
    have ih := build_level_pos rest (build_pair h l r).1 hb1 ht1 hndr
    rw [build_level_cons]
    have keep : ∀ x, x < h.length + 1 → (deref (build_pair h l r).1 x).parent ≠ none →
        (deref (build_level (build_pair h l r).1 rest).1 x).parent
          = (deref (build_pair h l r).1 x).parent :=
      fun x hx hn => (q1.2 x (by rw [p2]; exact hx)).2.2.2 hn
    have top := q1.2 h.length (by rw [p2]; omega)
    have pl : (deref (build_pair h l r).1 l).parent = some h.length := by
      rw [s5 l hl (Or.inl rfl)]
    have pr : (deref (build_pair h l r).1 r).parent = some h.length := by
      rw [s5 r hr (Or.inr rfl)]
    match i, hi with
    | 0, _ =>
      simp only [List.getD_cons_zero, Nat.zero_div, Nat.add_zero, Nat.zero_mod, Nat.sub_zero,
        Nat.zero_add, List.length_cons, List.getD_cons_succ]
      refine ⟨?_, ?_, ?_⟩
      · rw [keep l (by omega) (by rw [pl]; simp), pl]
      · rw [top.2.1, p7]
      · rw [top.2.2.1, p8, if_pos (by omega)]
    | 1, _ =>
      have e12 : (1 : Nat) / 2 = 0 := rfl
      have e1m : (1 : Nat) - 1 % 2 = 0 := rfl
      rw [e12, e1m, Nat.add_zero]
      simp only [List.getD_cons_zero, List.getD_cons_succ, List.length_cons]
      refine ⟨?_, ?_, ?_⟩
      · rw [keep r (by omega) (by rw [pr]; simp), pr]
      · rw [top.2.1, p7]
      · rw [top.2.2.1, p8, if_pos (by omega)]
    | k + 2, hk =>
      have hk2 : k < rest.length := by simp only [List.length_cons] at hk; omega
      obtain ⟨a1, a2, a3⟩ := ih k hk2
      have e1 : (k + 2) / 2 = k / 2 + 1 := by omega
      have e2 : k + 2 - (k + 2) % 2 = (k - k % 2) + 2 := by omega
      have e3 : h.length + (k / 2 + 1) = (build_pair h l r).1.length + k / 2 := by
        rw [p2]; omega
      rw [e1, e2, e3]
      simp only [List.getD_cons_succ, List.length_cons]
      refine ⟨a1, a2, ?_⟩
      rw [a3]
      by_cases c : k - k % 2 + 1 < rest.length
      · rw [if_pos c, if_pos (by omega)]
      · rw [if_neg c, if_neg (by omega)]

end Merkle

namespace Merkle

open SM3

/-! ## The proof of a leaf, step by step -/

theorem getD_nodup_inj {lv : List Nat} (hnd : lv.Nodup) {a b : Nat} (ha : a < lv.length)
    (hb : b < lv.length) (e : lv.getD a 0 = lv.getD b 0) : a = b := by
  rw [List.getD_eq_getElem _ _ ha, List.getD_eq_getElem _ _ hb] at e
  exact (hnd.getElem_inj_iff).1 e

theorem getD_mem {lv : List Nat} {a : Nat} (ha : a < lv.length) : lv.getD a 0 ∈ lv := by
  rw [List.getD_eq_getElem _ _ ha]
  exact List.getElem_mem ha

theorem level_hashes_getD (h : Heap) (lv : List Nat) (k : Nat) (hk : k < lv.length) :
    (level_hashes h lv).getD k [] = (deref h (lv.getD k 0)).hash := by
  have hk2 : k < (level_hashes h lv).length := by
    simp only [level_hashes, List.length_map]; exact hk
  rw [List.getD_eq_getElem _ _ hk2, List.getD_eq_getElem _ _ hk]
  simp only [level_hashes, List.getElem_map]

theorem level_hashes_length (h : Heap) (lv : List Nat) :
    (level_hashes h lv).length = lv.length := by
  simp only [level_hashes, List.length_map]

theorem range_getD (s n k : Nat) (hk : k < n) : (List.range' s n).getD k 0 = s + k := by
  rw [List.getD_eq_getElem _ _ (by rw [List.length_range']; exact hk)]
  simp

theorem ref_proof_succ (fuel : Nat) (lv : List (List Nat)) (i : Nat) :
    ref_proof (fuel + 1) lv i =
      if lv.length ≤ 1 then [] else ref_step lv i :: ref_proof fuel (next_level lv) (i / 2) :=
  rfl

/-- The walk of `get_existence_proof` from the node at position `i` of a level, in the tree
built above that level, records the steps of the reference proof for position `i`. -/
theorem proof_walk_ref : ∀ (fuel : Nat) (h : Heap) (lv : List Nat),
    lv.length ≤ fuel → lv ≠ [] → level_inv h lv →
    (∀ x ∈ lv, (deref h x).hash.take HASH_SIZE = (deref h x).hash) →
    ∀ i, i < lv.length → ∀ F,
      (build_merkle_tree_rec fuel h lv).1.length - lv.getD i 0 ≤ F →
      proof_walk F (build_merkle_tree_rec fuel h lv).1 (lv.getD i 0)
        = ((ref_proof fuel (level_hashes h lv) i).map Prod.fst,
            (ref_proof fuel (level_hashes h lv) i).map Prod.snd) := by
  intro fuel
  induction fuel with
  | zero =>
    intro h lv hf hne _
    exact absurd (List.eq_nil_of_length_eq_zero (by omega)) hne
  | succ fuel ih =>
    intro h lv hf hne inv htk i hi F hF
    have hpos : lv.length ≠ 0 := fun e => hne (List.eq_nil_of_length_eq_zero e)
    rw [build_merkle_tree_rec_succ] at hF ⊢
    rw [ref_proof_succ, level_hashes_length]
    by_cases h1 : lv.length = 1
    · have e : (if lv.length = 0 then (h, none)
          else if lv.length = 1 then (h, lv.head?)
          else build_merkle_tree_rec fuel (build_level h lv).1 (build_level h lv).2).1 = h := by
        rw [if_neg hpos, if_pos h1]
      rw [e, if_pos (by omega)]
      rw [proof_walk_none F h _ (inv.top _ (getD_mem hi))]
      rfl
    · simp only [hpos, h1, if_false] at hF ⊢
      rw [if_neg (by omega)]
      obtain ⟨q1, q2, q3, _, q5, _, q7⟩ := build_level_spec lv h inv.bound inv.top inv.nodup
      have inv1 := level_inv_step h lv inv
      have hlen : (build_level h lv).2.length = (lv.length + 1) / 2 := by
        rw [q2, List.length_range']
      have hne1 : (build_level h lv).2 ≠ [] := by
        intro e
        rw [e] at hlen
        simp only [List.length_nil] at hlen
        omega
      obtain ⟨root, _, r2, r3, _, _⟩ := build_merkle_tree_rec_spec fuel
        (build_level h lv).1 (build_level h lv).2 (by rw [hlen]; omega) hne1 inv1
      have htk1 : ∀ x ∈ (build_level h lv).2,
          (deref (build_level h lv).1 x).hash.take HASH_SIZE
            = (deref (build_level h lv).1 x).hash := by
        intro x hx
        rw [q2, List.mem_range'_1] at hx
        obtain ⟨l, r, _, _, _, _, e⟩ :=
          build_level_internal lv h inv.bound inv.top inv.nodup x hx.1 (by rw [q3]; exact hx.2)
        rw [e, hash_parent_take]
      have hi2 : i / 2 < (build_level h lv).2.length := by rw [hlen]; omega
      have hpi : (build_level h lv).2.getD (i / 2) 0 = h.length + i / 2 := by
        rw [q2]; exact range_getD _ _ _ (by omega)
      obtain ⟨a1, a2, a3⟩ := build_level_pos lv h inv.bound inv.top inv.nodup i hi
      generalize hH : (build_merkle_tree_rec fuel (build_level h lv).1 (build_level h lv).2).1
        = H at hF r2 r3
      have hplt : h.length + i / 2 < (build_level h lv).1.length := by rw [q3]; omega
      have hc : lv.getD i 0 < h.length := inv.bound _ (getD_mem hi)
      have b1 : (deref H (lv.getD i 0)).parent = some (h.length + i / 2) := by
        rw [(r2.2 _ (by rw [q3]; omega)).2.2.2 (by rw [a1]; simp), a1]
      have b2 : (deref H (h.length + i / 2)).left = some (lv.getD (i - i % 2) 0) := by
        rw [(r2.2 _ hplt).2.1, a2]
      have b3 : (deref H (h.length + i / 2)).right
          = some (if i - i % 2 + 1 < lv.length then lv.getD (i - i % 2 + 1) 0
              else lv.getD (i - i % 2) 0) := by
        rw [(r2.2 _ hplt).2.2.1, a3]
      have hHlen : (build_level h lv).1.length ≤ H.length := r2.1
      have hext : heap_ext h H := heap_ext_trans q1 r2
      have hhash : ∀ k, k < lv.length →
          (derefOpt H (some (lv.getD k 0))).hash.take HASH_SIZE
            = (level_hashes h lv).getD k [] := by
        intro k hk
        show (deref H (lv.getD k 0)).hash.take HASH_SIZE = _
        rw [(hext.2 _ (inv.bound _ (getD_mem hk))).1, htk _ (getD_mem hk),
          level_hashes_getD h lv k hk]
      match F, hF with
      | 0, hF => exact absurd hF (by omega)
      | F + 1, hF =>
        have rec1 := ih (build_level h lv).1 (build_level h lv).2 (by rw [hlen]; omega) hne1
          inv1 htk1 (i / 2) hi2 F (by rw [hH, hpi]; omega)
        rw [hH, hpi, q7] at rec1
        rw [proof_walk_some F H _ _ b1, rec1, b2, b3]
        simp only [List.map_cons, ref_step]
        by_cases hodd : i % 2 = 1
        · have hne2 : ¬ (some (lv.getD (i - i % 2) 0) = some (lv.getD i 0)) := by
            intro e
            have := getD_nodup_inj inv.nodup (by omega) hi (Option.some.inj e)
            omega
          rw [if_neg hne2, if_neg hne2, if_pos hodd]
          rw [hodd, hhash (i - 1) (by omega)]
        · have hev : i % 2 = 0 := by omega
          have he2 : some (lv.getD (i - i % 2) 0) = some (lv.getD i 0) := by
            rw [hev, Nat.sub_zero]
          rw [if_pos he2, if_pos he2, if_neg hodd]
          rw [hev, Nat.sub_zero]
          by_cases hlast : i + 1 < lv.length
          · rw [if_pos hlast, if_pos (by rw [level_hashes_length]; exact hlast),
              hhash (i + 1) hlast]
          · rw [if_neg hlast, if_neg (by rw [level_hashes_length]; exact hlast), hhash i hi]

end Merkle

namespace Merkle

open SM3

/-! ## The height of the tree and the reference proof -/

theorem tree_height_le_one (n : Nat) (h : n ≤ 1) : tree_height n = 0 := by
  rw [tree_height, dif_pos h]

theorem tree_height_step (n : Nat) (h : 2 ≤ n) :
    tree_height n = 1 + tree_height ((n + 1) / 2) := by
  rw [tree_height, dif_neg (by omega)]

theorem tree_height_eq_clog (n : Nat) : tree_height n = Nat.clog 2 n := by
  induction n using Nat.strong_induction_on with
  | _ n ih =>
    by_cases h : n ≤ 1
    · rw [tree_height_le_one n h, Nat.clog_of_right_le_one h]
    · rw [tree_height_step n (by omega), Nat.clog_of_two_le (by decide) (by omega),
        ih ((n + 1) / 2) (by omega)]
      have e : (n + 2 - 1) / 2 = (n + 1) / 2 := by omega
      rw [e]; omega

theorem tree_height_lt (n : Nat) (h : 1 ≤ n) : tree_height n < n := by
  induction n using Nat.strong_induction_on with
  | _ n ih =>
    by_cases h1 : n ≤ 1
    · rw [tree_height_le_one n h1]; omega
    · rw [tree_height_step n (by omega)]
      have := ih ((n + 1) / 2) (by omega) (by omega)
      omega

theorem next_level_length : ∀ (lv : List (List Nat)),
    (next_level lv).length = (lv.length + 1) / 2
  | [] => rfl
  | [_] => by simp [next_level]
  | _ :: _ :: rest => by
    have ih := next_level_length rest
    simp only [next_level, List.length_cons, ih]
    omega

theorem ref_proof_length : ∀ (fuel : Nat) (lv : List (List Nat)) (i : Nat),
    lv.length ≤ fuel → 1 ≤ lv.length → (ref_proof fuel lv i).length = tree_height lv.length := by
  intro fuel
  induction fuel with
  | zero => intro lv i hf h1; omega
  | succ fuel ih =>
    intro lv i hf h1
    rw [ref_proof_succ]
    by_cases h : lv.length ≤ 1
    · rw [if_pos h, tree_height_le_one _ h]; rfl
    · rw [if_neg h, tree_height_step _ (by omega), List.length_cons,
        ih (next_level lv) (i / 2) (by rw [next_level_length]; omega)
          (by rw [next_level_length]; omega), next_level_length]
      omega

theorem level_at_succ (lv : List (List Nat)) (j : Nat) :
    level_at lv (j + 1) = level_at (next_level lv) j := rfl

/-- Step `j` of the reference proof for position `i` is the step for position `i / 2^j` of
level `j`, a level of two or more digests that has this position. -/
theorem ref_proof_step : ∀ (fuel : Nat) (lv : List (List Nat)) (i j : Nat),
    i < lv.length → j < (ref_proof fuel lv i).length →
    (ref_proof fuel lv i).getD j ([], 0) = ref_step (level_at lv j) (i / 2 ^ j) ∧
    i / 2 ^ j < (level_at lv j).length ∧ 2 ≤ (level_at lv j).length := by
  intro fuel
  induction fuel with
  | zero => intro lv i j _ hj; exact absurd hj (by simp [ref_proof])
  | succ fuel ih =>
    intro lv i j hi hj
    rw [ref_proof_succ] at hj ⊢
    by_cases h : lv.length ≤ 1
    · rw [if_pos h] at hj; exact absurd hj (by simp)
    · rw [if_neg h] at hj ⊢
      match j, hj with
      | 0, _ =>
        simp only [List.getD_cons_zero, pow_zero, Nat.div_one, level_at]
        exact ⟨trivial, hi, by omega⟩
      | j + 1, hj =>
        have hj2 : j < (ref_proof fuel (next_level lv) (i / 2)).length := by
          simp only [List.length_cons] at hj; omega
        have := ih (next_level lv) (i / 2) j (by rw [next_level_length]; omega) hj2
        rw [List.getD_cons_succ, level_at_succ]
        have e : i / 2 ^ (j + 1) = i / 2 / 2 ^ j := by
          rw [pow_succ, Nat.mul_comm, Nat.div_div_eq_div_mul]
        rw [e]
        exact this

end Merkle

namespace Merkle

open SM3

/-! ## The proof returned for a leaf of a built tree -/

/-- The leaf found by the search on a built tree is one of the leaves given to the build,
and its digest has the first 32 bytes of the target. -/
theorem find_leaf_is_leaf (ds : List (List Nat)) (target : List Nat) (hne : ds ≠ []) :
    ∀ f, find_leaf ((build_from_digests ds).1.length + 1) (build_from_digests ds).1
        (build_from_digests ds).2 target = some f →
      ∃ hf : f < ds.length, (ds.get ⟨f, hf⟩).take HASH_SIZE = target.take HASH_SIZE := by
  obtain ⟨root, r1, inv, r3, r4, r5, _⟩ := build_from_digests_spec ds hne
  generalize (build_from_digests ds).1 = H at r1 inv r3 r4 r5 ⊢
  rw [r1]
  have hroot : root < H.length := inv.bound root (List.mem_singleton.2 rfl)
  intro f hf
  obtain ⟨root2, e1, freach, fleaf, fmatch⟩ := find_leaf_sound H target _ _ _ hf
  have e2 : root2 = root := (Option.some.inj e1).symm
  subst e2
  have hfl : f < H.length := by
    have := reach_le inv.children freach hroot
    omega
  have hfn : f < ds.length := by
    by_contra hge
    exact r5 f (by omega) hfl fleaf
  obtain ⟨_, hash_f⟩ := r4 f hfn
  refine ⟨hfn, ?_⟩
  have := (memcmp_eq_zero_iff _ _ _).1 fmatch
  rw [hash_f, List.take_take, Nat.min_self] at this
  exact this

/-- The walk from leaf `f` of a built tree records the reference proof for position `f`,
whatever the bound on the number of iterations, from the size of the heap on. -/
theorem built_proof_walk (ds : List (List Nat)) (hne : ds ≠ []) (f : Nat) (hf : f < ds.length)
    (F : Nat) (hF : (build_from_digests ds).1.length ≤ F) :
    proof_walk F (build_from_digests ds).1 f
      = ((ref_proof ds.length (ds.map (fun d => d.take HASH_SIZE)) f).map Prod.fst,
          (ref_proof ds.length (ds.map (fun d => d.take HASH_SIZE)) f).map Prod.snd) := by
  rw [build_from_digests_eq] at hF ⊢
  have hlv : (List.range' 0 ds.length).length = ds.length := List.length_range' _ _ _
  have hne2 : List.range' 0 ds.length ≠ [] := by
    intro e
    rw [e] at hlv
    exact hne (List.eq_nil_of_length_eq_zero hlv.symm)
  have htk : ∀ x ∈ List.range' 0 ds.length,
      (deref (ds.map (fun d => MerkleNode.mk (d.take HASH_SIZE) none none none)) x).hash.take
          HASH_SIZE
        = (deref (ds.map (fun d => MerkleNode.mk (d.take HASH_SIZE) none none none)) x).hash := by
    intro x hx
    rw [List.mem_range'_1] at hx
    have e := deref_leaves ds [] x (by omega)
    simp only [List.nil_append, List.length_nil, Nat.zero_add] at e
    rw [e]
    show ((ds.get ⟨x, _⟩).take HASH_SIZE).take HASH_SIZE = (ds.get ⟨x, _⟩).take HASH_SIZE
    rw [List.take_take, Nat.min_self]
  have key := proof_walk_ref ds.length
    (ds.map (fun d => MerkleNode.mk (d.take HASH_SIZE) none none none))
    (List.range' 0 ds.length) (by rw [hlv]) hne2 (leaves_level_inv ds) htk f (by rw [hlv]; exact hf)
    F (by omega)
  have hh := level_hashes_leaves ds []
  simp only [List.nil_append, List.length_nil] at hh
  rw [range_getD 0 ds.length f hf, Nat.zero_add, hh] at key
  exact key

/-- The result of `get_existence_proof` on a built tree when the search finds leaf `f`. -/
theorem get_existence_proof_found (ds : List (List Nat)) (hne : ds ≠ []) (target : List Nat)
    (f : Nat) (hf : f < ds.length)
    (hfind : find_leaf ((build_from_digests ds).1.length + 1) (build_from_digests ds).1
        (build_from_digests ds).2 target = some f) :
    get_existence_proof (build_from_digests ds).1 (build_from_digests ds).2 target
      = { ret := 1,
          proof := (ref_proof ds.length (ds.map (fun d => d.take HASH_SIZE)) f).map Prod.fst,
          proof_path := (ref_proof ds.length (ds.map (fun d => d.take HASH_SIZE)) f).map Prod.snd,
          proof_len := ((ref_proof ds.length (ds.map (fun d => d.take HASH_SIZE)) f).length
            : Nat) } := by
  have hw := built_proof_walk ds hne f hf (build_from_digests ds).1.length (Nat.le_refl _)
  simp only [get_existence_proof, hfind, hw, List.length_map]

theorem map_take_of_length (ds : List (List Nat)) (h32 : ∀ d ∈ ds, d.length = 32) :
    ds.map (fun d => d.take HASH_SIZE) = ds := by
  have : ∀ d ∈ ds, (fun d : List Nat => d.take HASH_SIZE) d = id d := by
    intro d hd
    exact List.take_of_length_le (Nat.le_of_eq (h32 d hd))
  rw [List.map_congr_left this, List.map_id]

theorem tree_height_hundred_thousand : tree_height 100000 = 17 := by
  rw [tree_height_eq_clog]
  apply Nat.le_antisymm
  · exact (Nat.le_pow_iff_clog_le (by decide)).1 (by norm_num)
  · exact (Nat.pow_lt_iff_lt_clog (by decide)).1 (by norm_num)

theorem tree_height_le_31 (n : Nat) (h : n < 2 ^ 31) : tree_height n ≤ 31 := by
  rw [tree_height_eq_clog]
  exact (Nat.le_pow_iff_clog_le (by decide)).1 (Nat.le_of_lt h)

end Merkle

namespace Merkle

open SM3

/-! ## The node the walk stands on -/

theorem walk_current_succ (h : Heap) (j c p : Nat) (hp : (deref h c).parent = some p) :
    walk_current h (j + 1) c = walk_current h j p := by
  simp only [walk_current, hp]

/-- After `j` iterations the walk from the node at position `i` of a level stands on a node
whose digest is the digest at position `i / 2^j` of level `j` above that level. -/
theorem walk_current_ref : ∀ (fuel : Nat) (h : Heap) (lv : List Nat),
    lv.length ≤ fuel → lv ≠ [] → level_inv h lv →
    ∀ i, i < lv.length → ∀ j, j ≤ (ref_proof fuel (level_hashes h lv) i).length →
      ∃ c, walk_current (build_merkle_tree_rec fuel h lv).1 j (lv.getD i 0) = some c ∧
        (deref (build_merkle_tree_rec fuel h lv).1 c).hash
          = (level_at (level_hashes h lv) j).getD (i / 2 ^ j) [] := by
  intro fuel
  induction fuel with
  | zero =>
    intro h lv hf hne _
    exact absurd (List.eq_nil_of_length_eq_zero (by omega)) hne
  | succ fuel ih =>
    intro h lv hf hne inv i hi j hj
    obtain ⟨root, _, x2, _, _, _⟩ := build_merkle_tree_rec_spec (fuel + 1) h lv hf hne inv
    match j, hj with
    | 0, _ =>
      refine ⟨lv.getD i 0, rfl, ?_⟩
      rw [(x2.2 _ (inv.bound _ (getD_mem hi))).1]
      simp only [pow_zero, Nat.div_one, level_at]
      rw [level_hashes_getD h lv i hi]
    | j + 1, hj =>
      have hpos : lv.length ≠ 0 := fun e => hne (List.eq_nil_of_length_eq_zero e)
      rw [ref_proof_succ, level_hashes_length] at hj
      have h1 : ¬ lv.length ≤ 1 := by
        intro hle
        rw [if_pos hle] at hj
        simp at hj
      rw [if_neg h1, List.length_cons] at hj
      rw [build_merkle_tree_rec_succ]
      have h1b : lv.length ≠ 1 := by omega
      simp only [hpos, h1b, if_false]
      obtain ⟨q1, q2, q3, _, q5, _, q7⟩ := build_level_spec lv h inv.bound inv.top inv.nodup
      have inv1 := level_inv_step h lv inv
      have hlen : (build_level h lv).2.length = (lv.length + 1) / 2 := by
        rw [q2, List.length_range']
      have hne1 : (build_level h lv).2 ≠ [] := by
        intro e
        rw [e] at hlen
        simp only [List.length_nil] at hlen
        omega
      obtain ⟨_, _, r2, _, _, _⟩ := build_merkle_tree_rec_spec fuel
        (build_level h lv).1 (build_level h lv).2 (by rw [hlen]; omega) hne1 inv1
      have hi2 : i / 2 < (build_level h lv).2.length := by rw [hlen]; omega
      have hpi : (build_level h lv).2.getD (i / 2) 0 = h.length + i / 2 := by
        rw [q2]; exact range_getD _ _ _ (by omega)
      obtain ⟨a1, _, _⟩ := build_level_pos lv h inv.bound inv.top inv.nodup i hi
      have rec1 := ih (build_level h lv).1 (build_level h lv).2 (by rw [hlen]; omega) hne1
        inv1 (i / 2) hi2 j (by rw [q7]; omega)
      rw [hpi, q7] at rec1
      obtain ⟨c, c1, c2⟩ := rec1
      have hc : lv.getD i 0 < h.length := inv.bound _ (getD_mem hi)
      have b1 : (deref (build_merkle_tree_rec fuel (build_level h lv).1 (build_level h lv).2).1
          (lv.getD i 0)).parent = some (h.length + i / 2) := by
        rw [(r2.2 _ (by rw [q3]; omega)).2.2.2 (by rw [a1]; simp), a1]
      refine ⟨c, ?_, ?_⟩
      · rw [walk_current_succ _ j _ _ b1, c1]
      · rw [c2, level_at_succ]
        have e : i / 2 ^ (j + 1) = i / 2 / 2 ^ j := by
          rw [pow_succ, Nat.mul_comm, Nat.div_div_eq_div_mul]
        rw [e]

/-- On a built tree: the node the walk from leaf `f` stands on after `j` iterations. -/
theorem built_walk_current (ds : List (List Nat)) (hne : ds ≠ []) (f : Nat) (hf : f < ds.length)
    (j : Nat) (hj : j ≤ (ref_proof ds.length (ds.map (fun d => d.take HASH_SIZE)) f).length) :
    ∃ c, walk_current (build_from_digests ds).1 j f = some c ∧
      (deref (build_from_digests ds).1 c).hash
        = (level_at (ds.map (fun d => d.take HASH_SIZE)) j).getD (f / 2 ^ j) [] := by
  rw [build_from_digests_eq]
  have hlv : (List.range' 0 ds.length).length = ds.length := List.length_range' _ _ _
  have hne2 : List.range' 0 ds.length ≠ [] := by
    intro e
    rw [e] at hlv
    exact hne (List.eq_nil_of_length_eq_zero hlv.symm)
  have hh := level_hashes_leaves ds []
  simp only [List.nil_append, List.length_nil] at hh
  have key := walk_current_ref ds.length
    (ds.map (fun d => MerkleNode.mk (d.take HASH_SIZE) none none none))
    (List.range' 0 ds.length) (by rw [hlv]) hne2 (leaves_level_inv ds) f (by rw [hlv]; exact hf)
    j (by rw [hh]; exact hj)
  rw [range_getD 0 ds.length f hf, Nat.zero_add, hh] at key
  exact key

end Merkle

namespace Merkle

open SM3

/-! ## Bookkeeping, length and termination of the proof walk -/

theorem getElem?_of_getD {α : Type} (l : List α) (j : Nat) (d x : α) (hj : j < l.length)
    (e : l.getD j d = x) : l[j]? = some x := by
  rw [List.getD_eq_getElem _ _ hj] at e
  rw [List.getElem?_eq_getElem hj, e]

/-- C21: proof bookkeeping.  For a tree built from 32-byte leaf digests that are pairwise
distinct and the leaf at index `i`, `get_existence_proof` returns 1, and step `j` of its
proof concerns the node at position `p = i / 2^j` of level `j`: after `j` iterations the
walk stands on a node with the digest at position `p` of level `j`; if `p` is odd the
recorded digest is the one at `p - 1` and `proof_path[j]` is 0; if `p` is even
`proof_path[j]` is 1 and the recorded digest is the one at `p + 1`, or the one at `p` itself
when `p` is the last position of the level. -/
theorem proof_bookkeeping (ds : List (List Nat)) (i : Nat) (hi : i < ds.length)
    (h32 : ∀ d ∈ ds, d.length = 32) (hnd : ds.Nodup) :
    (get_existence_proof (build_from_digests ds).1 (build_from_digests ds).2
      (ds.get ⟨i, hi⟩)).ret = 1 ∧
    (get_existence_proof (build_from_digests ds).1 (build_from_digests ds).2
      (ds.get ⟨i, hi⟩)).proof_len
      = ((get_existence_proof (build_from_digests ds).1 (build_from_digests ds).2
          (ds.get ⟨i, hi⟩)).proof.length : Nat) ∧
    (get_existence_proof (build_from_digests ds).1 (build_from_digests ds).2
      (ds.get ⟨i, hi⟩)).proof_path.length
      = (get_existence_proof (build_from_digests ds).1 (build_from_digests ds).2
          (ds.get ⟨i, hi⟩)).proof.length ∧
    ∀ j, j < (get_existence_proof (build_from_digests ds).1 (build_from_digests ds).2
        (ds.get ⟨i, hi⟩)).proof.length →
      i / 2 ^ j < (level_at ds j).length ∧
      (∃ c, walk_current (build_from_digests ds).1 j i = some c ∧
        (deref (build_from_digests ds).1 c).hash = (level_at ds j).getD (i / 2 ^ j) []) ∧
      ((i / 2 ^ j) % 2 = 1 →
        (get_existence_proof (build_from_digests ds).1 (build_from_digests ds).2
          (ds.get ⟨i, hi⟩)).proof[j]? = some ((level_at ds j).getD (i / 2 ^ j - 1) []) ∧
        (get_existence_proof (build_from_digests ds).1 (build_from_digests ds).2
          (ds.get ⟨i, hi⟩)).proof_path[j]? = some 0) ∧
      ((i / 2 ^ j) % 2 = 0 →
        (get_existence_proof (build_from_digests ds).1 (build_from_digests ds).2
          (ds.get ⟨i, hi⟩)).proof_path[j]? = some 1 ∧
        (i / 2 ^ j + 1 < (level_at ds j).length →
          (get_existence_proof (build_from_digests ds).1 (build_from_digests ds).2
            (ds.get ⟨i, hi⟩)).proof[j]? = some ((level_at ds j).getD (i / 2 ^ j + 1) [])) ∧
        (i / 2 ^ j + 1 = (level_at ds j).length →
          (get_existence_proof (build_from_digests ds).1 (build_from_digests ds).2
            (ds.get ⟨i, hi⟩)).proof[j]? = some ((level_at ds j).getD (i / 2 ^ j) []))) := by
  have hne : ds ≠ [] := by
    intro e
    rw [e] at hi
    exact absurd hi (by simp)
  have hmem : ds.get ⟨i, hi⟩ ∈ ds := List.get_mem _ _ _
  obtain ⟨f, hfind⟩ := (find_leaf_built ds (ds.get ⟨i, hi⟩) hne).1 ⟨_, hmem, rfl⟩
  obtain ⟨hf, hmatch⟩ := find_leaf_is_leaf ds (ds.get ⟨i, hi⟩) hne f hfind
  have hfi : f = i := by
    have t1 : (ds.get ⟨f, hf⟩).take HASH_SIZE = ds.get ⟨f, hf⟩ :=
      List.take_of_length_le (Nat.le_of_eq (h32 _ (List.get_mem _ _ _)))
    have t2 : (ds.get ⟨i, hi⟩).take HASH_SIZE = ds.get ⟨i, hi⟩ :=
      List.take_of_length_le (Nat.le_of_eq (h32 _ hmem))
    rw [t1, t2] at hmatch
    have := (List.Nodup.get_inj_iff hnd).1 hmatch
    exact Fin.mk.inj_iff.1 this
  subst hfi
  have hg := get_existence_proof_found ds hne _ f hf hfind
  rw [map_take_of_length ds h32] at hg
  have hcur := built_walk_current ds hne f hf
  rw [map_take_of_length ds h32] at hcur
  rw [hg]
  refine ⟨rfl, ?_, ?_, ?_⟩
  · simp only [List.length_map]
  · simp only [List.length_map]
  · intro j hj
    have hj2 : j < (ref_proof ds.length ds f).length := by
      simpa only [List.length_map] using hj
    obtain ⟨s1, s2, s3⟩ := ref_proof_step ds.length ds f j hf hj2
    have hs := getElem?_of_getD _ j _ _ hj2 s1
    refine ⟨s2, hcur j (Nat.le_of_lt hj2), ?_, ?_⟩
    · intro hodd
      simp only [List.getElem?_map, hs, Option.map_some', ref_step, hodd, if_true]
      exact ⟨trivial, trivial⟩
    · intro hev
      have hno : ¬ (f / 2 ^ j % 2 = 1) := by omega
      refine ⟨?_, ?_, ?_⟩
      · simp only [List.getElem?_map, hs, Option.map_some', ref_step, if_neg hno]
        split <;> rfl
      · intro hlt
        simp only [List.getElem?_map, hs, Option.map_some', ref_step, if_neg hno, if_pos hlt]
      · intro heq
        have hnl : ¬ (f / 2 ^ j + 1 < (level_at ds j).length) := by omega
        simp only [List.getElem?_map, hs, Option.map_some', ref_step, if_neg hno, if_neg hnl]

/-- C25: the proof length is the height of the tree.  For every tree built from `n >= 1`
leaves and every target found in it, `get_existence_proof` sets `proof_len` to `h(n)`,
where `h(1) = 0` and `h(n) = 1 + h(ceil(n / 2))` for `n >= 2`, which is `ceil(log2 n)`; every
leaf given to the build is found.  So `proof_len` is at most 31 for `n < 2^31`, and it is 17
for 100000 leaves, within the 64 entries of the buffers of the test. -/
theorem proof_len_eq_height (ds : List (List Nat)) (target : List Nat) (hne : ds ≠ []) :
    ((get_existence_proof (build_from_digests ds).1 (build_from_digests ds).2 target).ret = 1 →
      (get_existence_proof (build_from_digests ds).1 (build_from_digests ds).2 target).proof_len
        = (tree_height ds.length : Nat) ∧
      (get_existence_proof (build_from_digests ds).1 (build_from_digests ds).2
        target).proof.length = tree_height ds.length ∧
      (get_existence_proof (build_from_digests ds).1 (build_from_digests ds).2
        target).proof_path.length = tree_height ds.length) ∧
    (target ∈ ds →
      (get_existence_proof (build_from_digests ds).1 (build_from_digests ds).2 target).ret = 1) ∧
    tree_height 1 = 0 ∧
    (∀ n, 2 ≤ n → tree_height n = 1 + tree_height ((n + 1) / 2)) ∧
    (∀ n, tree_height n = Nat.clog 2 n) ∧
    (∀ n, n < 2 ^ 31 → tree_height n ≤ 31) ∧
    tree_height 100000 = 17 ∧
    (ds.length = 100000 →
      (get_existence_proof (build_from_digests ds).1 (build_from_digests ds).2 target).ret = 1 →
      (get_existence_proof (build_from_digests ds).1 (build_from_digests ds).2 target).proof_len
        = 17 ∧
      (get_existence_proof (build_from_digests ds).1 (build_from_digests ds).2 target).proof_len
        ≤ 64) := by
  have main : (get_existence_proof (build_from_digests ds).1 (build_from_digests ds).2
        target).ret = 1 →
      (get_existence_proof (build_from_digests ds).1 (build_from_digests ds).2 target).proof_len
        = (tree_height ds.length : Nat) ∧
      (get_existence_proof (build_from_digests ds).1 (build_from_digests ds).2
        target).proof.length = tree_height ds.length ∧
      (get_existence_proof (build_from_digests ds).1 (build_from_digests ds).2
        target).proof_path.length = tree_height ds.length := by
    intro hret
    cases hfind : find_leaf ((build_from_digests ds).1.length + 1) (build_from_digests ds).1
        (build_from_digests ds).2 target with
    | none =>
      rw [(get_existence_proof_ret _ _ _).1 hfind] at hret
      exact absurd hret (by decide)
    | some f =>
      obtain ⟨hf, _⟩ := find_leaf_is_leaf ds target hne f hfind
      have hlen := ref_proof_length ds.length (ds.map (fun d => d.take HASH_SIZE)) f
        (by rw [List.length_map]) (by
          rw [List.length_map]
          exact Nat.pos_of_ne_zero (fun e => hne (List.eq_nil_of_length_eq_zero e)))
      rw [List.length_map] at hlen
      rw [get_existence_proof_found ds hne target f hf hfind]
      simp only [List.length_map, hlen]
      exact ⟨trivial, trivial, trivial⟩
  refine ⟨main, ?_, tree_height_le_one 1 (Nat.le_refl 1), tree_height_step, tree_height_eq_clog,
    tree_height_le_31, tree_height_hundred_thousand, ?_⟩
  · intro hmem
    obtain ⟨f, hfind⟩ := (find_leaf_built ds target hne).1 ⟨target, hmem, rfl⟩
    exact (get_existence_proof_ret _ _ _).2 f hfind
  · intro hn hret
    obtain ⟨m1, _, _⟩ := main hret
    rw [m1, hn, tree_height_hundred_thousand]
    exact ⟨rfl, by decide⟩

theorem build_merkle_tree_rec_fuel : ∀ (fuel1 fuel2 : Nat) (h : Heap) (lv : List Nat),
    lv.length ≤ fuel1 → lv.length ≤ fuel2 →
    build_merkle_tree_rec fuel1 h lv = build_merkle_tree_rec fuel2 h lv := by
  intro fuel1
  induction fuel1 with
  | zero =>
    intro fuel2 h lv h1 _
    have e : lv = [] := List.eq_nil_of_length_eq_zero (by omega)
    subst e
    cases fuel2 <;> rfl
  | succ fuel1 ih =>
    intro fuel2 h lv h1 h2
    cases fuel2 with
    | zero =>
      have e : lv = [] := List.eq_nil_of_length_eq_zero (by omega)
      subst e
      rfl
    | succ fuel2 =>
      rw [build_merkle_tree_rec_succ, build_merkle_tree_rec_succ]
      by_cases c0 : lv.length = 0
      · rw [if_pos c0, if_pos c0]
      · rw [if_neg c0, if_neg c0]
        by_cases c1 : lv.length = 1
        · rw [if_pos c1, if_pos c1]
        · rw [if_neg c1, if_neg c1]
          have hl := build_level_length lv h
          exact ih fuel2 _ _ (by rw [hl]; omega) (by rw [hl]; omega)

/-- From any node of a tree with a single node without a parent, the walk along the parent
links ends on that node before the bound on the number of iterations is reached. -/
theorem walk_end_root {H : Heap} {root : Nat} (inv : level_inv H [root]) :
    ∀ (F c : Nat), c < H.length → H.length - c ≤ F → walk_end F H c = some root := by
  intro F
  induction F with
  | zero => intro c hc hF; omega
  | succ F ih =>
    intro c hc hF
    by_cases e : c = root
    · subst e
      have := inv.top c (List.mem_singleton.2 rfl)
      simp only [walk_end, this]
    · obtain ⟨p, _, _, hp, hcp, hpl, _⟩ := inv.below c hc (fun hm => e (List.mem_singleton.1 hm))
      simp only [walk_end, hp]
      exact ih p hpl (by omega)

/-- C28: termination.  The loop of `build_merkle_tree` hands `ceil(count / 2)` nodes to the
recursive call, fewer than `count` when `count >= 2`; the recursion stops at `count <= 1`,
so with a bound of `count` or more on its depth the bound is never reached and the result
does not depend on it, and a root is returned for every non-empty list.  In a built tree
the walk of `get_existence_proof` from every leaf ends on the root, which has no parent,
before the bound on its iterations is reached, and what it records does not depend on the
bound. -/
theorem build_and_walk_terminate (h : Heap) (leaves : List Nat) (ds : List (List Nat))
    (i : Nat) (hne : ds ≠ []) (hi : i < ds.length) :
    (build_level h leaves).2.length = (leaves.length + 1) / 2 ∧
    (2 ≤ leaves.length → (build_level h leaves).2.length < leaves.length) ∧
    (2 ≤ leaves.length → ∀ fuel, build_merkle_tree_rec (fuel + 1) h leaves
      = build_merkle_tree_rec fuel (build_level h leaves).1 (build_level h leaves).2) ∧
    (leaves.length ≤ 1 → ∀ fuel, build_merkle_tree_rec (fuel + 1) h leaves = (h, leaves.head?)) ∧
    (∀ fuel, leaves.length ≤ fuel →
      build_merkle_tree_rec fuel h leaves = build_merkle_tree h leaves) ∧
    (leaves ≠ [] → ∃ root, (build_merkle_tree h leaves).2 = some root) ∧
    (∃ root, (build_from_digests ds).2 = some root ∧
      (deref (build_from_digests ds).1 root).parent = none ∧
      ∀ F, (build_from_digests ds).1.length ≤ F →
        walk_end F (build_from_digests ds).1 i = some root ∧
        proof_walk F (build_from_digests ds).1 i
          = proof_walk (build_from_digests ds).1.length (build_from_digests ds).1 i) ∧
    (proof_walk (build_from_digests ds).1.length (build_from_digests ds).1 i).1.length
      < (build_from_digests ds).1.length := by
  have hl := build_level_length leaves h
  refine ⟨hl, ?_, ?_, ?_, ?_, ?_, ?_, ?_⟩
  · intro h2; rw [hl]; omega
  · intro h2 fuel
    rw [build_merkle_tree_rec_succ, if_neg (by omega), if_neg (by omega)]
  · intro h1 fuel
    rw [build_merkle_tree_rec_succ]
    match leaves, h1 with
    | [], _ => rfl
    | [_], _ => rfl
  · intro fuel hf
    exact build_merkle_tree_rec_fuel fuel leaves.length h leaves hf (Nat.le_refl _)
  · intro hne2
    have := build_merkle_tree_rec_some leaves.length h leaves (Nat.le_refl _) hne2
    cases hr : (build_merkle_tree h leaves).2 with
    | none => exact absurd hr this
    | some root => exact ⟨root, rfl⟩
  · obtain ⟨root, r1, inv, r3, _, _, _⟩ := build_from_digests_spec ds hne
    refine ⟨root, r1, inv.top root (List.mem_singleton.2 rfl), ?_⟩
    intro F hF
    refine ⟨walk_end_root inv F i (by omega) (by omega), ?_⟩
    rw [built_proof_walk ds hne i hi F hF,
      built_proof_walk ds hne i hi (build_from_digests ds).1.length (Nat.le_refl _)]
  · obtain ⟨root, r1, inv, r3, _, _, _⟩ := build_from_digests_spec ds hne
    rw [built_proof_walk ds hne i hi (build_from_digests ds).1.length (Nat.le_refl _)]
    have hlen := ref_proof_length ds.length (ds.map (fun d => d.take HASH_SIZE)) i
      (by rw [List.length_map]) (by rw [List.length_map]; omega)
    rw [List.length_map] at hlen
    simp only [List.length_map, hlen]
    have := tree_height_lt ds.length (by omega)
    omega

end Merkle

namespace Merkle

open SM3

/-! ## Instances on a tree of three leaves -/

theorem proof_bookkeeping_witness :
    2 < [List.replicate 32 1, List.replicate 32 2, List.replicate 32 3].length ∧
    (∀ d ∈ [List.replicate 32 1, List.replicate 32 2, List.replicate 32 3], d.length = 32) ∧
    [List.replicate 32 1, List.replicate 32 2, List.replicate 32 3].Nodup ∧
    ((get_existence_proof (build_from_digests [List.replicate 32 1, List.replicate 32 2,
        List.replicate 32 3]).1 (build_from_digests [List.replicate 32 1, List.replicate 32 2,
        List.replicate 32 3]).2
      ([List.replicate 32 1, List.replicate 32 2, List.replicate 32 3].get ⟨2, by decide⟩)).ret = 1
          ∧
    (get_existence_proof (build_from_digests [List.replicate 32 1, List.replicate 32 2,
        List.replicate 32 3]).1 (build_from_digests [List.replicate 32 1, List.replicate 32 2,
        List.replicate 32 3]).2
      ([List.replicate 32 1, List.replicate 32 2, List.replicate 32 3].get ⟨2, by
          decide⟩)).proof_len
      = ((get_existence_proof (build_from_digests [List.replicate 32 1, List.replicate 32 2,
          List.replicate 32 3]).1 (build_from_digests [List.replicate 32 1, List.replicate 32 2,
          List.replicate 32 3]).2
          ([List.replicate 32 1, List.replicate 32 2, List.replicate 32 3].get ⟨2, by
              decide⟩)).proof.length : Nat) ∧
    (get_existence_proof (build_from_digests [List.replicate 32 1, List.replicate 32 2,
        List.replicate 32 3]).1 (build_from_digests [List.replicate 32 1, List.replicate 32 2,
        List.replicate 32 3]).2
      ([List.replicate 32 1, List.replicate 32 2, List.replicate 32 3].get ⟨2, by
          decide⟩)).proof_path.length
      = (get_existence_proof (build_from_digests [List.replicate 32 1, List.replicate 32 2,
          List.replicate 32 3]).1 (build_from_digests [List.replicate 32 1, List.replicate 32 2,
          List.replicate 32 3]).2
          ([List.replicate 32 1, List.replicate 32 2, List.replicate 32 3].get ⟨2, by
              decide⟩)).proof.length ∧
    ∀ j, j < (get_existence_proof (build_from_digests [List.replicate 32 1, List.replicate 32 2,
        List.replicate 32 3]).1 (build_from_digests [List.replicate 32 1, List.replicate 32 2,
        List.replicate 32 3]).2
        ([List.replicate 32 1, List.replicate 32 2, List.replicate 32 3].get ⟨2, by
            decide⟩)).proof.length →
      2 / 2 ^ j < (level_at [List.replicate 32 1, List.replicate 32 2, List.replicate 32 3]
          j).length ∧
      (∃ c, walk_current (build_from_digests [List.replicate 32 1, List.replicate 32 2,
          List.replicate 32 3]).1 j 2 = some c ∧
        (deref (build_from_digests [List.replicate 32 1, List.replicate 32 2, List.replicate 32
            3]).1 c).hash = (level_at [List.replicate 32 1, List.replicate 32 2, List.replicate 32
            3] j).getD (2 / 2 ^ j) []) ∧
      ((2 / 2 ^ j) % 2 = 1 →
        (get_existence_proof (build_from_digests [List.replicate 32 1, List.replicate 32 2,
            List.replicate 32 3]).1 (build_from_digests [List.replicate 32 1, List.replicate 32 2,
            List.replicate 32 3]).2
          ([List.replicate 32 1, List.replicate 32 2, List.replicate 32 3].get ⟨2, by
              decide⟩)).proof[j]? = some ((level_at [List.replicate 32 1, List.replicate 32 2,
              List.replicate 32 3] j).getD (2 / 2 ^ j - 1) []) ∧
        (get_existence_proof (build_from_digests [List.replicate 32 1, List.replicate 32 2,
            List.replicate 32 3]).1 (build_from_digests [List.replicate 32 1, List.replicate 32 2,
            List.replicate 32 3]).2
          ([List.replicate 32 1, List.replicate 32 2, List.replicate 32 3].get ⟨2, by
              decide⟩)).proof_path[j]? = some 0) ∧
      ((2 / 2 ^ j) % 2 = 0 →
        (get_existence_proof (build_from_digests [List.replicate 32 1, List.replicate 32 2,
            List.replicate 32 3]).1 (build_from_digests [List.replicate 32 1, List.replicate 32 2,
            List.replicate 32 3]).2
          ([List.replicate 32 1, List.replicate 32 2, List.replicate 32 3].get ⟨2, by
              decide⟩)).proof_path[j]? = some 1 ∧
        (2 / 2 ^ j + 1 < (level_at [List.replicate 32 1, List.replicate 32 2, List.replicate 32 3]
            j).length →
          (get_existence_proof (build_from_digests [List.replicate 32 1, List.replicate 32 2,
              List.replicate 32 3]).1 (build_from_digests [List.replicate 32 1, List.replicate 32
              2, List.replicate 32 3]).2
            ([List.replicate 32 1, List.replicate 32 2, List.replicate 32 3].get ⟨2, by
                decide⟩)).proof[j]? = some ((level_at [List.replicate 32 1, List.replicate 32 2,
                List.replicate 32 3] j).getD (2 / 2 ^ j + 1) [])) ∧
        (2 / 2 ^ j + 1 = (level_at [List.replicate 32 1, List.replicate 32 2, List.replicate 32 3]
            j).length →
          (get_existence_proof (build_from_digests [List.replicate 32 1, List.replicate 32 2,
              List.replicate 32 3]).1 (build_from_digests [List.replicate 32 1, List.replicate 32
              2, List.replicate 32 3]).2
            ([List.replicate 32 1, List.replicate 32 2, List.replicate 32 3].get ⟨2, by
                decide⟩)).proof[j]? = some ((level_at [List.replicate 32 1, List.replicate 32 2,
                List.replicate 32 3] j).getD (2 / 2 ^ j) [])))) :=
  ⟨by decide, by decide, by decide,
    proof_bookkeeping [List.replicate 32 1, List.replicate 32 2, List.replicate 32 3] 2
      (by decide) (by decide) (by decide)⟩

theorem proof_len_eq_height_witness :
    [List.replicate 32 1, List.replicate 32 2, List.replicate 32 3] ≠ [] ∧
    (((get_existence_proof (build_from_digests [List.replicate 32 1, List.replicate 32 2,
        List.replicate 32 3]).1 (build_from_digests [List.replicate 32 1, List.replicate 32 2,
        List.replicate 32 3]).2 (List.replicate 32 3)).ret = 1 →
      (get_existence_proof (build_from_digests [List.replicate 32 1, List.replicate 32 2,
          List.replicate 32 3]).1 (build_from_digests [List.replicate 32 1, List.replicate 32 2,
          List.replicate 32 3]).2 (List.replicate 32 3)).proof_len
        = (tree_height [List.replicate 32 1, List.replicate 32 2, List.replicate 32 3].length :
            Nat) ∧
      (get_existence_proof (build_from_digests [List.replicate 32 1, List.replicate 32 2,
          List.replicate 32 3]).1 (build_from_digests [List.replicate 32 1, List.replicate 32 2,
          List.replicate 32 3]).2
        (List.replicate 32 3)).proof.length = tree_height [List.replicate 32 1, List.replicate 32
            2, List.replicate 32 3].length ∧
      (get_existence_proof (build_from_digests [List.replicate 32 1, List.replicate 32 2,
          List.replicate 32 3]).1 (build_from_digests [List.replicate 32 1, List.replicate 32 2,
          List.replicate 32 3]).2
        (List.replicate 32 3)).proof_path.length = tree_height [List.replicate 32 1, List.replicate
            32 2, List.replicate 32 3].length) ∧
    ((List.replicate 32 3) ∈ [List.replicate 32 1, List.replicate 32 2, List.replicate 32 3] →
      (get_existence_proof (build_from_digests [List.replicate 32 1, List.replicate 32 2,
          List.replicate 32 3]).1 (build_from_digests [List.replicate 32 1, List.replicate 32 2,
          List.replicate 32 3]).2 (List.replicate 32 3)).ret = 1) ∧
    tree_height 1 = 0 ∧
    (∀ n, 2 ≤ n → tree_height n = 1 + tree_height ((n + 1) / 2)) ∧
    (∀ n, tree_height n = Nat.clog 2 n) ∧
    (∀ n, n < 2 ^ 31 → tree_height n ≤ 31) ∧
    tree_height 100000 = 17 ∧
    ([List.replicate 32 1, List.replicate 32 2, List.replicate 32 3].length = 100000 →
      (get_existence_proof (build_from_digests [List.replicate 32 1, List.replicate 32 2,
          List.replicate 32 3]).1 (build_from_digests [List.replicate 32 1, List.replicate 32 2,
          List.replicate 32 3]).2 (List.replicate 32 3)).ret = 1 →
      (get_existence_proof (build_from_digests [List.replicate 32 1, List.replicate 32 2,
          List.replicate 32 3]).1 (build_from_digests [List.replicate 32 1, List.replicate 32 2,
          List.replicate 32 3]).2 (List.replicate 32 3)).proof_len
        = 17 ∧
      (get_existence_proof (build_from_digests [List.replicate 32 1, List.replicate 32 2,
          List.replicate 32 3]).1 (build_from_digests [List.replicate 32 1, List.replicate 32 2,
          List.replicate 32 3]).2 (List.replicate 32 3)).proof_len
        ≤ 64)) :=
  ⟨by simp,
    proof_len_eq_height [List.replicate 32 1, List.replicate 32 2, List.replicate 32 3]
      (List.replicate 32 3) (by simp)⟩

theorem build_and_walk_terminate_witness :
    [List.replicate 32 1, List.replicate 32 2, List.replicate 32 3] ≠ [] ∧
    2 < [List.replicate 32 1, List.replicate 32 2, List.replicate 32 3].length ∧
    ((build_level [MerkleNode.mk (List.replicate 32 1) none none none] [0]).2.length = ([0].length
        + 1) / 2 ∧
    (2 ≤ [0].length → (build_level [MerkleNode.mk (List.replicate 32 1) none none none]
        [0]).2.length < [0].length) ∧
    (2 ≤ [0].length → ∀ fuel, build_merkle_tree_rec (fuel + 1) [MerkleNode.mk (List.replicate 32 1)
        none none none] [0]
      = build_merkle_tree_rec fuel (build_level [MerkleNode.mk (List.replicate 32 1) none none
          none] [0]).1 (build_level [MerkleNode.mk (List.replicate 32 1) none none none] [0]).2) ∧
    ([0].length ≤ 1 → ∀ fuel, build_merkle_tree_rec (fuel + 1) [MerkleNode.mk (List.replicate 32 1)
        none none none] [0] = ([MerkleNode.mk (List.replicate 32 1) none none none], [0].head?)) ∧
    (∀ fuel, [0].length ≤ fuel →
      build_merkle_tree_rec fuel [MerkleNode.mk (List.replicate 32 1) none none none] [0] =
          build_merkle_tree [MerkleNode.mk (List.replicate 32 1) none none none] [0]) ∧
    ([0] ≠ [] → ∃ root, (build_merkle_tree [MerkleNode.mk (List.replicate 32 1) none none none]
        [0]).2 = some root) ∧
    (∃ root, (build_from_digests [List.replicate 32 1, List.replicate 32 2, List.replicate 32 3]).2
        = some root ∧
      (deref (build_from_digests [List.replicate 32 1, List.replicate 32 2, List.replicate 32 3]).1
          root).parent = none ∧
      ∀ F, (build_from_digests [List.replicate 32 1, List.replicate 32 2, List.replicate 32
          3]).1.length ≤ F →
        walk_end F (build_from_digests [List.replicate 32 1, List.replicate 32 2, List.replicate 32
            3]).1 2 = some root ∧
        proof_walk F (build_from_digests [List.replicate 32 1, List.replicate 32 2, List.replicate
            32 3]).1 2
          = proof_walk (build_from_digests [List.replicate 32 1, List.replicate 32 2,
              List.replicate 32 3]).1.length (build_from_digests [List.replicate 32 1,
              List.replicate 32 2, List.replicate 32 3]).1 2) ∧
    (proof_walk (build_from_digests [List.replicate 32 1, List.replicate 32 2, List.replicate 32
        3]).1.length (build_from_digests [List.replicate 32 1, List.replicate 32 2, List.replicate
        32 3]).1 2).1.length
      < (build_from_digests [List.replicate 32 1, List.replicate 32 2, List.replicate 32
          3]).1.length) :=
  ⟨by simp, by decide,
    build_and_walk_terminate [MerkleNode.mk (List.replicate 32 1) none none none] [0]
      [List.replicate 32 1, List.replicate 32 2, List.replicate 32 3] 2 (by simp) (by decide)⟩

end Merkle

namespace SM3

/-! ## Known vectors -/

/-- C5: `sm3_hash` of the three bytes "abc" is the published digest
`66c7f0f4 62eeedd9 d1f2d46b dc10e4e2 4167c487 5cf2f7a2 297da02b 8f4ba8e0`. -/
theorem known_vector_abc :
    sm3_hash [0x61, 0x62, 0x63] =
      [0x66, 0xc7, 0xf0, 0xf4, 0x62, 0xee, 0xed, 0xd9, 0xd1, 0xf2, 0xd4, 0x6b, 0xdc, 0x10,
       0xe4, 0xe2, 0x41, 0x67, 0xc4, 0x87, 0x5c, 0xf2, 0xf7, 0xa2, 0x29, 0x7d, 0xa0, 0x2b,
       0x8f, 0x4b, 0xa8, 0xe0] := by
  set_option maxRecDepth 100000 in decide

/-- C6: `sm3_hash` of the 64 bytes "abcd" repeated sixteen times is the published digest
`debe9ff9 2275b8a1 38604889 c18e5a4d 6fdb70e5 387e5765 293dcba3 9c0c5732`; the message
fills one block and the padding goes into a second one. -/
theorem known_vector_full_block :
    sm3_hash (List.replicate 16 [0x61, 0x62, 0x63, 0x64]).flatten =
      [0xde, 0xbe, 0x9f, 0xf9, 0x22, 0x75, 0xb8, 0xa1, 0x38, 0x60, 0x48, 0x89, 0xc1, 0x8e,
       0x5a, 0x4d, 0x6f, 0xdb, 0x70, 0xe5, 0x38, 0x7e, 0x57, 0x65, 0x29, 0x3d, 0xcb, 0xa3,
       0x9c, 0x0c, 0x57, 0x32] ∧
    (List.replicate 16 [0x61, 0x62, 0x63, 0x64]).flatten.length = 64 ∧
    (sm3_update (sm3_init ctx_uninit) (List.replicate 16 [0x61, 0x62, 0x63, 0x64]).flatten).buffer_len = 0 := by
  set_option maxRecDepth 100000 in decide

end SM3

